import Mathlib

/-!
Verification of the `luci` scenario-test harness against its specification.

The Rust sources are shallowly embedded: JSON values (`serde_json::Value`)
become the inductive `Value`; hash maps become association lists; slot maps
become lists indexed by position with a running counter; `tokio::time::Instant`
and `Duration` become `Nat` (nanoseconds); fallible functions return `Except`.
Each definition mirrors one function of the repository and is named after it.
-/

namespace Luci

/-- Embeds `serde_json::Value` (src/src/bindings.rs and friends): a JSON-shaped
tree.  Numbers are modelled as integers (the code compares numbers with `==`
on the stored representation and never performs arithmetic on them). -/
inductive Value where
  | null
  | bool (b : Bool)
  | num (n : Int)
  | str (s : String)
  | arr (items : List Value)
  | obj (fields : List (String × Value))
  deriving Repr, Inhabited

mutual

/-- Structural equality of values, as Rust's `==` on `serde_json::Value`. -/
def Value.beq : Value → Value → Bool
  | .null, .null => true
  | .bool a, .bool b => a == b
  | .num a, .num b => a == b
  | .str a, .str b => a == b
  | .arr a, .arr b => Value.beqList a b
  | .obj a, .obj b => Value.beqFields a b
  | _, _ => false

def Value.beqList : List Value → List Value → Bool
  | [], [] => true
  | a :: as, b :: bs => Value.beq a b && Value.beqList as bs
  | _, _ => false

def Value.beqFields : List (String × Value) → List (String × Value) → Bool
  | [], [] => true
  | (k1, v1) :: as, (k2, v2) :: bs =>
      k1 == k2 && Value.beq v1 v2 && Value.beqFields as bs
  | _, _ => false

end

mutual

theorem Value.beq_iff : ∀ a b : Value, Value.beq a b = true ↔ a = b
  | .null, .null => by simp [Value.beq]
  | .bool a, .bool b => by simp [Value.beq]
  | .num a, .num b => by simp [Value.beq]
  | .str a, .str b => by simp [Value.beq]
  | .arr a, .arr b => by
      simp only [Value.beq, Value.beqList_iff a b, Value.arr.injEq]
  | .obj a, .obj b => by
      simp only [Value.beq, Value.beqFields_iff a b, Value.obj.injEq]
  | .null, .bool _ | .null, .num _ | .null, .str _ | .null, .arr _ | .null, .obj _
  | .bool _, .null | .bool _, .num _ | .bool _, .str _ | .bool _, .arr _ | .bool _, .obj _
  | .num _, .null | .num _, .bool _ | .num _, .str _ | .num _, .arr _ | .num _, .obj _
  | .str _, .null | .str _, .bool _ | .str _, .num _ | .str _, .arr _ | .str _, .obj _
  | .arr _, .null | .arr _, .bool _ | .arr _, .num _ | .arr _, .str _ | .arr _, .obj _
  | .obj _, .null | .obj _, .bool _ | .obj _, .num _ | .obj _, .str _ | .obj _, .arr _ => by
      simp [Value.beq]

theorem Value.beqList_iff : ∀ a b : List Value, Value.beqList a b = true ↔ a = b
  | [], [] => by simp [Value.beqList]
  | a :: as, b :: bs => by
      simp [Value.beqList, Value.beq_iff a b, Value.beqList_iff as bs]
  | [], _ :: _ => by simp [Value.beqList]
  | _ :: _, [] => by simp [Value.beqList]

theorem Value.beqFields_iff :
    ∀ a b : List (String × Value), Value.beqFields a b = true ↔ a = b
  | [], [] => by simp [Value.beqFields]
  | (k1, v1) :: as, (k2, v2) :: bs => by
      simp [Value.beqFields, Value.beq_iff v1 v2, Value.beqFields_iff as bs,
        and_assoc]
  | [], _ :: _ => by simp [Value.beqFields]
  | _ :: _, [] => by simp [Value.beqFields]

end

instance : DecidableEq Value := fun a b =>
  decidable_of_iff _ (Value.beq_iff a b)

/-- Association-list lookup (first match wins), standing in for
`HashMap::get` / `BTreeMap::get` on string keys. -/
def alookup {β : Type} : List (String × β) → String → Option β
  | [], _ => none
  | (k, v) :: rest, key => if k = key then some v else alookup rest key

/-- Removes the first entry with the given key, returning it and the remaining
list; stands in for `serde_json::Map::remove`. -/
def aremove {β : Type} : List (String × β) → String → Option (β × List (String × β))
  | [], _ => none
  | (k, v) :: rest, key =>
      if k = key then some (v, rest)
      else
        match aremove rest key with
        | none => none
        | some (w, r) => some (w, (k, v) :: r)

/-- Inserts a key/value pair, overwriting an existing entry with the same key;
stands in for `HashMap::insert`. -/
def ainsert {β : Type} : List (String × β) → String → β → List (String × β)
  | [], key, v => [(key, v)]
  | (k, w) :: rest, key, v =>
      if k = key then (k, v) :: rest else (k, w) :: ainsert rest key v

theorem alookup_ainsert {β : Type} (l : List (String × β)) (key k : String) (v : β) :
    alookup (ainsert l key v) k = if key = k then some v else alookup l k := by
  induction l with
  | nil => by_cases h : key = k <;> simp [ainsert, alookup, h]
  | cons hd tl ih =>
      obtain ⟨k0, w⟩ := hd
      by_cases h0 : k0 = key
      · subst h0
        by_cases h : k0 = k <;> simp [ainsert, alookup, h, ih]
      · by_cases h : k0 = k
        · subst h
          have hkk : key ≠ k0 := fun hc => h0 hc.symm
          simp [ainsert, alookup, h0, hkk]
        · simp [ainsert, alookup, h0, h, ih]

theorem alookup_aremove_ne {β : Type} (l : List (String × β)) (key k : String)
    (v : β) (r : List (String × β)) (hne : key ≠ k)
    (h : aremove l key = some (v, r)) : alookup r k = alookup l k := by
  induction l generalizing r with
  | nil => simp [aremove] at h
  | cons hd tl ih =>
      obtain ⟨k0, w⟩ := hd
      by_cases h0 : k0 = key
      · subst h0
        simp [aremove] at h
        obtain ⟨h1, h2⟩ := h
        subst h2
        have hk : k0 ≠ k := hne
        simp [alookup, hk]
      · rw [aremove, if_neg h0] at h
        cases htl : aremove tl key with
        | none => rw [htl] at h; exact absurd h (by simp)
        | some pr =>
            obtain ⟨w1, r1⟩ := pr
            rw [htl] at h
            simp only [Option.some.injEq, Prod.mk.injEq] at h
            obtain ⟨hv, hr⟩ := h
            subst hr
            by_cases hk : k0 = k

            · simp [alookup, hk]
            · simp only [alookup, if_neg hk]
              exact ih r1 (by rw [htl, hv])

/-- Rust's `var_name.starts_with('$')`: the string's first character is `$`.
(`String.startsWith` itself does not reduce in the kernel, so the character
list is inspected directly.) -/
def startsWithDollar (s : String) : Bool := s.data.head? == some '$'

/-! ## 4.1 Pattern unifier (src/src/bindings.rs)

A transaction (`Txn`) over a binding scope: committed values plus pending
additions.  The actor half of the transaction plays no role in
`bind_to_pattern` and is omitted from this embedding of the value half. -/

structure Txn where
  values_committed : List (String × Value)
  values_added : List (String × Value)
  deriving Repr

/-- `Txn::value_of` (the `ReadState` impl): pending additions take precedence
over committed values. -/
def Txn.value_of (t : Txn) (key : String) : Option Value :=
  (alookup t.values_added key).or (alookup t.values_committed key)

/-- `Txn::bind_value`: if the key is committed, succeed iff the committed value
equals the new one; otherwise if it is pending, succeed iff the pending value
equals the new one; otherwise stage the addition and succeed. -/
def Txn.bind_value (t : Txn) (key : String) (v : Value) : Bool × Txn :=
  match alookup t.values_committed key with
  | some defined_in_state => (defined_in_state = v, t)
  | none =>
      match alookup t.values_added key with
      | some occupied => (occupied = v, t)
      | none => (true, { t with values_added := ainsert t.values_added key v })

mutual

/-- `bind_to_pattern` (src/src/bindings.rs:131): unify a value against a
pattern, staging discovered bindings in the transaction.  Returns the success
flag together with the (possibly partially extended) transaction. -/
def bind_to_pattern (value : Value) (pattern : Value) (bindings : Txn) : Bool × Txn :=
  match value, pattern with
  | _, .str s =>
      if s = "$_" then (true, bindings)
      else if startsWithDollar s then bindings.bind_value s value
      else
        match value with
        | .str v => (v = s, bindings)
        | _ => (false, bindings)
  | .null, .null => (true, bindings)
  | .bool v, .bool p => (v = p, bindings)
  | .num v, .num p => (v = p, bindings)
  | .arr values, .arr patterns =>
      if values.length = patterns.length then
        bind_to_pattern_list values patterns bindings
      else (false, bindings)
  | .obj v, .obj p => bind_to_pattern_fields v p bindings
  | _, _ => (false, bindings)

/-- The `Iterator::all` fold over `values.zip(patterns)` in the array arm of
`bind_to_pattern`; short-circuits on the first mismatch, keeping the bindings
staged so far (the caller discards the transaction on failure). -/
def bind_to_pattern_list (values patterns : List Value) (bindings : Txn) : Bool × Txn :=
  match values, patterns with
  | [], _ => (true, bindings)
  | _, [] => (true, bindings)
  | v :: vs, p :: ps =>
      let (ok, bindings) := bind_to_pattern v p bindings
      if ok then bind_to_pattern_list vs ps bindings else (false, bindings)

/-- The `Iterator::all` fold over the pattern object's entries in the object
arm of `bind_to_pattern`: each pattern key is removed from the value object
(`v.remove(pk)`) and must be present with a matching sub-pattern. -/
def bind_to_pattern_fields (v : List (String × Value)) (p : List (String × Value))
    (bindings : Txn) : Bool × Txn :=
  match p with
  | [] => (true, bindings)
  | (pk, pv) :: ps =>
      match aremove v pk with
      | none => (false, bindings)
      | some (vv, v') =>
          let (ok, bindings) := bind_to_pattern vv pv bindings
          if ok then bind_to_pattern_fields v' ps bindings else (false, bindings)

end

mutual

/-- `render` (src/src/bindings.rs:160): substitute each `$name` by its bound
value, failing on `$_` and on unbound variables.  The read state is the flat
map of bindings (the runner renders against `self.bindings`). -/
def render (template : Value) (bindings : List (String × Value)) : Except String Value :=
  match template with
  | .str s =>
      if s = "$_" then .error s
      else if startsWithDollar s then
        match alookup bindings s with
        | some v => .ok v
        | none => .error s
      else .ok (.str s)
  | .arr items =>
      match renderList items bindings with
      | .ok rendered => .ok (.arr rendered)
      | .error e => .error e
  | .obj kv =>
      match renderFields kv bindings with
      | .ok rendered => .ok (.obj rendered)
      | .error e => .error e
  | as_is => .ok as_is

def renderList (items : List Value) (bindings : List (String × Value)) :
    Except String (List Value) :=
  match items with
  | [] => .ok []
  | item :: rest =>
      match render item bindings with
      | .error e => .error e
      | .ok v =>
          match renderList rest bindings with
          | .error e => .error e
          | .ok vs => .ok (v :: vs)

def renderFields (kv : List (String × Value)) (bindings : List (String × Value)) :
    Except String (List (String × Value)) :=
  match kv with
  | [] => .ok []
  | (k, v) :: rest =>
      match render v bindings with
      | .error e => .error e
      | .ok w =>
          match renderFields rest bindings with
          | .error e => .error e
          | .ok ws => .ok ((k, w) :: ws)

end

/-! ## The spec's unification rules, stated independently

`specUnify` is written from the words of spec §3.2 (not from the code), to be
compared with `bind_to_pattern`: wildcard matches anything without capturing;
a variable matches iff unbound (then binds) or bound to an equal value;
null/bool/number/string match the equal same-variant value; arrays match iff
equal length and positionally matching; objects match asymmetrically (every
pattern key present in the value with a matching sub-pattern, extra value keys
ignored); everything else fails.  The binding state is the flat map of the
transaction's visible bindings, threaded left to right through siblings. -/

/-- The spec's variable rule: a variable matches iff it is unbound (then it is
bound to the value) or already bound to an equal value. -/
def specBindVar (m : List (String × Value)) (s : String) (value : Value) :
    Bool × List (String × Value) :=
  match alookup m s with
  | some bound => (bound = value, m)
  | none => (true, ainsert m s value)

mutual

def specUnify (value pattern : Value) (m : List (String × Value)) :
    Bool × List (String × Value) :=
  match value, pattern with
  | _, .str s =>
      if s = "$_" then (true, m)
      else if startsWithDollar s then specBindVar m s value
      else
        match value with
        | .str v => (v = s, m)
        | _ => (false, m)
  | .null, .null => (true, m)
  | .bool v, .bool p => (v = p, m)
  | .num v, .num p => (v = p, m)
  | .arr values, .arr patterns => specUnifyList values patterns m
  | .obj v, .obj p => specUnifyFields v p m
  | _, _ => (false, m)

def specUnifyList (values patterns : List Value) (m : List (String × Value)) :
    Bool × List (String × Value) :=
  match values, patterns with
  | [], [] => (true, m)
  | v :: vs, p :: ps =>
      let (ok, m) := specUnify v p m
      if ok then specUnifyList vs ps m else (false, m)
  | _, _ => (false, m)

def specUnifyFields (v : List (String × Value)) (p : List (String × Value))
    (m : List (String × Value)) : Bool × List (String × Value) :=
  match p with
  | [] => (true, m)
  | (pk, pv) :: ps =>
      match alookup v pk with
      | none => (false, m)
      | some vv =>
          let (ok, m) := specUnify vv pv m
          if ok then specUnifyFields v ps m else (false, m)

end

/-- Key lists without duplicates (a `serde_json` object is a map, so its keys
are distinct; the association-list model needs this recorded explicitly). -/
def keysNodup : List (String × Value) → Bool
  | [] => true
  | (k, _) :: rest => !(rest.map Prod.fst).contains k && keysNodup rest

mutual

/-- Well-formedness of a pattern as a `serde_json::Value`: every object in it
has pairwise-distinct keys. -/
def patWF : Value → Bool
  | .null | .bool _ | .num _ | .str _ => true
  | .arr items => patWFList items
  | .obj fields => keysNodup fields && patWFFields fields

def patWFList : List Value → Bool
  | [] => true
  | v :: vs => patWF v && patWFList vs

def patWFFields : List (String × Value) → Bool
  | [] => true
  | (_, v) :: rest => patWF v && patWFFields rest

end

/-- Invariant of a transaction: a pending addition never shadows a committed
value (`bind_value` only stages keys absent from the committed map). -/
def Txn.WF (t : Txn) : Prop :=
  ∀ k, (alookup t.values_committed k).isSome → alookup t.values_added k = none

/-- `Txn::bind_value` behaves, on the flat view of the transaction, exactly as
binding into a single map: succeed iff the key is unbound (then bind) or bound
to an equal value. -/
theorem bind_value_spec (t : Txn) (m : List (String × Value)) (key : String)
    (v : Value) (hwf : t.WF) (hview : ∀ k, t.value_of k = alookup m k) :
    (t.bind_value key v).1 =
      (match alookup m key with
        | some bound => decide (bound = v)
        | none => true)
    ∧ (t.bind_value key v).2.WF
    ∧ (∀ k, (t.bind_value key v).2.value_of k =
        alookup (match alookup m key with
          | some _ => m
          | none => ainsert m key v) k) := by
  have hv := hview key
  unfold Txn.bind_value
  cases hc : alookup t.values_committed key with
  | some w =>
      have : alookup t.values_added key = none := hwf key (by simp [hc])
      rw [Txn.value_of, this, hc] at hv
      simp only [Option.or] at hv
      rw [← hv]
      exact ⟨rfl, hwf, fun k => by rw [hview k]⟩
  | none =>
      cases ha : alookup t.values_added key with
      | some w =>
          rw [Txn.value_of, ha, hc] at hv
          simp only [Option.or] at hv
          rw [← hv]
          exact ⟨rfl, hwf, fun k => by rw [hview k]⟩
      | none =>
          rw [Txn.value_of, ha, hc] at hv
          simp only [Option.or] at hv
          rw [← hv]
          refine ⟨rfl, ?_, ?_⟩
          · intro k hk
            simp only [alookup_ainsert]
            by_cases hkey : key = k
            · subst hkey; rw [hc] at hk; simp at hk
            · rw [if_neg hkey]; exact hwf k hk
          · intro k
            simp only [Txn.value_of, alookup_ainsert]
            by_cases hkey : key = k
            · subst hkey; rw [ha]; simp
            · rw [if_neg hkey, if_neg hkey]
              exact hview k

/-- The transaction's visible bindings coincide with the flat map `m`, and the
transaction is well formed. -/
def TxnAgrees (t : Txn) (m : List (String × Value)) : Prop :=
  t.WF ∧ ∀ k, t.value_of k = alookup m k

theorem alookup_eq_aremove_fst {β : Type} (l : List (String × β)) (key : String) :
    alookup l key = (aremove l key).map (fun pr => pr.1) := by
  induction l with
  | nil => simp [alookup, aremove]
  | cons hd tl ih =>
      obtain ⟨k0, w⟩ := hd
      by_cases h0 : k0 = key
      · simp [alookup, aremove, h0]
      · rw [alookup, if_neg h0, aremove, if_neg h0, ih]
        cases aremove tl key with
        | none => rfl
        | some pr => rfl

theorem specUnifyList_length_mismatch (vs ps : List Value) (m : List (String × Value))
    (h : vs.length ≠ ps.length) : (specUnifyList vs ps m).1 = false := by
  induction vs generalizing ps m with
  | nil =>
      cases ps with
      | nil => exact absurd rfl h
      | cons p ps => simp [specUnifyList]
  | cons v vs ih =>
      cases ps with
      | nil => simp [specUnifyList]
      | cons p ps =>
          rw [specUnifyList]
          rcases hs : specUnify v p m with ⟨ok, m1⟩
          cases ok with
          | false => simp
          | true =>
              simp only [if_true]
              exact ih ps m1 (by simpa using h)

mutual

theorem unify_agree : ∀ (v p : Value) (t : Txn) (m : List (String × Value)),
    patWF p = true → TxnAgrees t m →
    (bind_to_pattern v p t).1 = (specUnify v p m).1 ∧
    ((bind_to_pattern v p t).1 = true →
      TxnAgrees (bind_to_pattern v p t).2 (specUnify v p m).2)
  | v, .str s, t, m => fun _ h => by
      obtain ⟨hwf, hview⟩ := h
      by_cases hw : s = "$_"
      · subst hw
        have hred : bind_to_pattern v (.str "$_") t = (true, t) := by
          cases v <;> simp [bind_to_pattern]
        have hreds : specUnify v (.str "$_") m = (true, m) := by
          cases v <;> simp [specUnify]
        rw [hred, hreds]
        exact ⟨rfl, fun _ => ⟨hwf, hview⟩⟩
      · by_cases hv : startsWithDollar s
        · obtain ⟨hflag, hwf2, hview2⟩ := bind_value_spec t m s v hwf hview
          have hcode : bind_to_pattern v (.str s) t = t.bind_value s v := by
            cases v <;> simp [bind_to_pattern, hw, hv]
          have hspec : specUnify v (.str s) m = specBindVar m s v := by
            cases v <;> simp [specUnify, hw, hv]
          rw [hcode, hspec]
          cases hms : alookup m s with
          | some bound =>
              rw [hms] at hflag hview2
              simp only [specBindVar, hms]
              exact ⟨hflag, fun _ => ⟨hwf2, hview2⟩⟩
          | none =>
              rw [hms] at hflag hview2
              simp only [specBindVar, hms]
              exact ⟨hflag, fun _ => ⟨hwf2, hview2⟩⟩
        · have hags : TxnAgrees t m := ⟨hwf, hview⟩
          cases v <;> refine ⟨by simp [bind_to_pattern, specUnify, hw, hv],
              fun hok => ?_⟩ <;>
            first
              | simpa [bind_to_pattern, specUnify, hw, hv] using hags
              | simp [bind_to_pattern, hw, hv] at hok
  | .null, .null, t, m => fun _ h => by
      refine ⟨by simp [bind_to_pattern, specUnify], fun _ => ?_⟩
      simpa [bind_to_pattern, specUnify] using h
  | .bool v, .bool b, t, m => fun _ h => by
      refine ⟨by simp [bind_to_pattern, specUnify], fun _ => ?_⟩
      simpa [bind_to_pattern, specUnify] using h
  | .num v, .num n, t, m => fun _ h => by
      refine ⟨by simp [bind_to_pattern, specUnify], fun _ => ?_⟩
      simpa [bind_to_pattern, specUnify] using h
  | .arr values, .arr patterns, t, m => fun hp h => by
      by_cases hlen : values.length = patterns.length
      · have := unify_agree_list values patterns t m (by simpa [patWF] using hp)
          h hlen
        simpa [bind_to_pattern, specUnify, hlen] using this
      · have hflag := specUnifyList_length_mismatch values patterns m hlen
        simp [bind_to_pattern, specUnify, hlen, hflag]
  | .obj vfields, .obj pfields, t, m => fun hp h => by
      have hkeys : keysNodup pfields = true := by
        simp [patWF] at hp; exact hp.1
      have hfields : patWFFields pfields = true := by
        simp [patWF] at hp; exact hp.2
      have := unify_agree_fields vfields vfields pfields t m hkeys hfields
        (fun _ _ => rfl) h
      simpa [bind_to_pattern, specUnify] using this
  | .bool _, .null, t, m | .num _, .null, t, m | .arr _, .null, t, m
  | .obj _, .null, t, m | .str _, .null, t, m | .str _, .bool _, t, m
  | .str _, .num _, t, m | .str _, .arr _, t, m | .str _, .obj _, t, m
  | .null, .bool _, t, m | .num _, .bool _, t, m | .arr _, .bool _, t, m
  | .obj _, .bool _, t, m
  | .null, .num _, t, m | .bool _, .num _, t, m | .arr _, .num _, t, m
  | .obj _, .num _, t, m
  | .null, .arr _, t, m | .bool _, .arr _, t, m | .num _, .arr _, t, m
  | .obj _, .arr _, t, m
  | .null, .obj _, t, m | .bool _, .obj _, t, m | .num _, .obj _, t, m
  | .arr _, .obj _, t, m => fun _ h => by
      refine ⟨by simp [bind_to_pattern, specUnify], fun hok => ?_⟩
      simp [bind_to_pattern] at hok

theorem unify_agree_list : ∀ (vs ps : List Value) (t : Txn)
    (m : List (String × Value)),
    patWFList ps = true → TxnAgrees t m → vs.length = ps.length →
    (bind_to_pattern_list vs ps t).1 = (specUnifyList vs ps m).1 ∧
    ((bind_to_pattern_list vs ps t).1 = true →
      TxnAgrees (bind_to_pattern_list vs ps t).2 (specUnifyList vs ps m).2)
  | [], [], t, m => fun _ h _ => by
      refine ⟨by simp [bind_to_pattern_list, specUnifyList], fun _ => ?_⟩
      simpa [bind_to_pattern_list, specUnifyList] using h
  | [], p :: ps, t, m => fun _ _ hlen => by simp at hlen
  | v :: vs, [], t, m => fun _ _ hlen => by simp at hlen
  | v :: vs, p :: ps, t, m => fun hp h hlen => by
      have hp1 : patWF p = true := by simp [patWFList] at hp; exact hp.1
      have hps : patWFList ps = true := by simp [patWFList] at hp; exact hp.2
      obtain ⟨hflag, hrel⟩ := unify_agree v p t m hp1 h
      rcases hc : bind_to_pattern v p t with ⟨okc, tc⟩
      rcases hs : specUnify v p m with ⟨oks, ms⟩
      rw [hc, hs] at hflag hrel
      simp only at hflag hrel
      subst hflag
      cases okc with
      | false => simp [bind_to_pattern_list, specUnifyList, hc, hs]
      | true =>
          have hrel2 := hrel rfl
          have := unify_agree_list vs ps tc ms hps hrel2 (by simpa using hlen)
          simpa [bind_to_pattern_list, specUnifyList, hc, hs] using this

theorem unify_agree_fields : ∀ (vc vsp p : List (String × Value)) (t : Txn)
    (m : List (String × Value)),
    keysNodup p = true → patWFFields p = true →
    (∀ key, key ∈ p.map Prod.fst → alookup vc key = alookup vsp key) →
    TxnAgrees t m →
    (bind_to_pattern_fields vc p t).1 = (specUnifyFields vsp p m).1 ∧
    ((bind_to_pattern_fields vc p t).1 = true →
      TxnAgrees (bind_to_pattern_fields vc p t).2 (specUnifyFields vsp p m).2)
  | vc, vsp, [], t, m => fun _ _ _ h => by
      refine ⟨by simp [bind_to_pattern_fields, specUnifyFields], fun _ => ?_⟩
      simpa [bind_to_pattern_fields, specUnifyFields] using h
  | vc, vsp, (pk, pv) :: ps, t, m => fun hk hp hvv h => by
      have hp1 : patWF pv = true := by simp [patWFFields] at hp; exact hp.1
      have hps : patWFFields ps = true := by simp [patWFFields] at hp; exact hp.2
      simp [keysNodup] at hk
      have hk1 : pk ∉ ps.map Prod.fst := by
        intro hc
        obtain ⟨⟨k1, v1⟩, hmem, hfst⟩ := List.mem_map.mp hc
        cases hfst
        exact hk.1 v1 hmem
      have hks : keysNodup ps = true := hk.2
      have hpk0 : pk ∈ ((pk, pv) :: ps).map Prod.fst := by simp
      cases hrm : aremove vc pk with
      | none =>
          have : alookup vsp pk = none := by
            rw [← hvv pk hpk0, alookup_eq_aremove_fst, hrm]; rfl
          simp [bind_to_pattern_fields, specUnifyFields, hrm, this]
      | some pr =>
          obtain ⟨vv, vrest⟩ := pr
          have hlk : alookup vsp pk = some vv := by
            rw [← hvv pk hpk0, alookup_eq_aremove_fst, hrm]; rfl
          obtain ⟨hflag, hrel⟩ := unify_agree vv pv t m hp1 h
          rcases hc : bind_to_pattern vv pv t with ⟨okc, tc⟩
          rcases hs : specUnify vv pv m with ⟨oks, ms⟩
          rw [hc, hs] at hflag hrel
          simp only at hflag hrel
          subst hflag
          cases okc with
          | false => simp [bind_to_pattern_fields, specUnifyFields, hrm, hlk, hc, hs]
          | true =>
              have hrel2 := hrel rfl
              have hvv2 : ∀ key, key ∈ ps.map Prod.fst →
                  alookup vrest key = alookup vsp key := by
                intro key hkey
                have hne : pk ≠ key := by
                  intro hcon; subst hcon; exact hk1 hkey
                rw [alookup_aremove_ne vc pk key vv vrest hne hrm]
                exact hvv key (by simp [hkey])
              have := unify_agree_fields vrest vsp ps tc ms hks hps hvv2 hrel2
              simpa [bind_to_pattern_fields, specUnifyFields, hrm, hlk, hc, hs]
                using this

end

/-- Claim C1: for every Value `V`, pattern `P` and transaction `txn`,
`bind_to_pattern(V, P, txn)` succeeds if and only if `V` matches `P` under the
spec's unification rules (wildcard matches anything without capturing; a
variable matches iff unbound — binding it — or bound to an equal value; arrays
match iff equal length and positionally matching; object matching is
asymmetric — every key of `P` must be present in `V` with a matching
sub-pattern, extra keys of `V` ignored; all other variant combinations fail);
moreover on success the resulting bindings agree.  The hypotheses say that the
pattern's objects have distinct keys (they are `serde_json` maps), that the
transaction's pending additions do not shadow committed values (the invariant
`bind_value` maintains), and that `m` is the transaction's visible binding
state. -/
theorem bind_to_pattern_iff_spec_unification (v p : Value) (t : Txn)
    (m : List (String × Value)) (hp : patWF p = true) (hwf : t.WF)
    (hview : ∀ k, t.value_of k = alookup m k) :
    ((bind_to_pattern v p t).1 = true ↔ (specUnify v p m).1 = true) ∧
    ((bind_to_pattern v p t).1 = true →
      ∀ k, (bind_to_pattern v p t).2.value_of k = alookup (specUnify v p m).2 k) := by
  have h := unify_agree v p t m hp ⟨hwf, hview⟩
  exact ⟨by rw [h.1], fun hok => (h.2 hok).2⟩

/-- Witness for C1 at a concrete input: the value `{"a": 1, "b": 2}` against
the pattern `{"a": "$x"}` in an empty transaction. -/
theorem bind_to_pattern_iff_spec_unification_witness :
    (bind_to_pattern (.obj [("a", .num 1), ("b", .num 2)])
        (.obj [("a", .str "$x")]) ⟨[], []⟩).1 = true ∧
    ((bind_to_pattern (.obj [("a", .num 1), ("b", .num 2)])
        (.obj [("a", .str "$x")]) ⟨[], []⟩).1 = true ↔
      (specUnify (.obj [("a", .num 1), ("b", .num 2)])
        (.obj [("a", .str "$x")]) []).1 = true) := by
  constructor
  · have hsw : startsWithDollar "$x" = true := by decide
    have hnw : ¬("$x" = "$_") := by decide
    simp [bind_to_pattern, bind_to_pattern_fields, aremove, Txn.bind_value,
      alookup, ainsert, hsw, hnw]
  · exact (bind_to_pattern_iff_spec_unification
      (.obj [("a", .num 1), ("b", .num 2)]) (.obj [("a", .str "$x")]) ⟨[], []⟩ []
      (by simp [patWF, keysNodup, patWFFields])
      (fun k hk => by simp [alookup] at hk)
      (fun k => by simp [Txn.value_of, alookup])).1

/-! ## 4.8 Report (src/src/execution/report.rs)

The report maps event names to their requirement, split into the events that
were reached and those that were not.  The runner (src/src/execution_graph/
runner.rs, `Runner::run`) builds the two maps by starting from the full
required map and moving an entry from `unreached` to `reached` when the event
fires. -/

/-- `RequiredToBe` (src/src/scenario.rs). -/
inductive RequiredToBe where
  | reached
  | unreached
  deriving DecidableEq, Repr

structure Report where
  reached : List (String × RequiredToBe)
  unreached : List (String × RequiredToBe)
  deriving Repr

/-- `Report::is_ok` (src/src/execution/report.rs:18): every reached entry is
required `Reached` and every unreached entry is required `Unreached`. -/
def Report.is_ok (r : Report) : Bool :=
  r.reached.all (fun p => p.2 == RequiredToBe.reached) &&
    r.unreached.all (fun p => p.2 == RequiredToBe.unreached)

/-- The loop of `Runner::run`: for each fired event, move its entry (if any)
from the unreached map to the reached map. -/
def runReportGo (reached unreached : List (String × RequiredToBe)) :
    List String → Report
  | [] => { reached := reached, unreached := unreached }
  | k :: fired =>
      match aremove unreached k with
      | none => runReportGo reached unreached fired
      | some (r, rest) => runReportGo (ainsert reached k r) rest fired

/-- The report of a finished run: `unreached` starts as the full required map,
and every fired event moves its entry over to `reached`. -/
def runReport (required : List (String × RequiredToBe)) (fired : List String) :
    Report :=
  runReportGo [] required fired

theorem ainsert_of_not_mem {β : Type} (l : List (String × β)) (k : String) (v : β)
    (h : alookup l k = none) : ainsert l k v = l ++ [(k, v)] := by
  induction l with
  | nil => simp [ainsert]
  | cons hd tl ih =>
      obtain ⟨k0, w⟩ := hd
      rw [alookup] at h
      by_cases h0 : k0 = k
      · rw [if_pos h0] at h; exact absurd h (by simp)
      · rw [if_neg h0] at h
        simp [ainsert, h0, ih h]

theorem aremove_eq_none {β : Type} (l : List (String × β)) (k : String)
    (h : alookup l k = none) : aremove l k = none := by
  rw [alookup_eq_aremove_fst] at h
  cases hr : aremove l k with
  | none => rfl
  | some pr => rw [hr] at h; exact absurd h (by simp)

theorem alookup_eq_none_iff {β : Type} (l : List (String × β)) (k : String) :
    alookup l k = none ↔ k ∉ l.map Prod.fst := by
  induction l with
  | nil => simp [alookup]
  | cons hd tl ih =>
      obtain ⟨k0, w⟩ := hd
      by_cases h0 : k0 = k
      · subst h0; simp [alookup]
      · rw [alookup, if_neg h0, ih]
        simp only [List.map_cons, List.mem_cons]
        constructor
        · intro h hc
          rcases hc with hc | hc
          · exact h0 hc.symm
          · exact h hc
        · intro h hc
          exact h (Or.inr hc)

theorem aremove_some_split {β : Type} (l : List (String × β)) (key : String)
    (v : β) (r : List (String × β)) (h : aremove l key = some (v, r)) :
    ∃ l1 l2, l = l1 ++ (key, v) :: l2 ∧ r = l1 ++ l2 ∧ ∀ p ∈ l1, p.1 ≠ key := by
  induction l generalizing r with
  | nil => simp [aremove] at h
  | cons hd tl ih =>
      obtain ⟨k0, w⟩ := hd
      by_cases h0 : k0 = key
      · subst h0
        simp [aremove] at h
        obtain ⟨h1, h2⟩ := h
        subst h1; subst h2
        exact ⟨[], tl, by simp⟩
      · rw [aremove, if_neg h0] at h
        cases htl : aremove tl key with
        | none => rw [htl] at h; exact absurd h (by simp)
        | some pr =>
            obtain ⟨w1, r1⟩ := pr
            rw [htl] at h
            simp only [Option.some.injEq, Prod.mk.injEq] at h
            obtain ⟨hv, hr⟩ := h
            subst hv; subst hr
            obtain ⟨l1, l2, hl, hr1, hne⟩ := ih r1 htl
            refine ⟨(k0, w) :: l1, l2, by simp [hl], by simp [hr1], ?_⟩
            intro p hp
            rcases List.mem_cons.mp hp with hp | hp
            · subst hp; exact h0
            · exact hne p hp

/-- The main invariant of the run loop: the final report is OK iff the already
reached entries are all required `Reached`, the pending entries that will fire
are all required `Reached`, and the pending entries that never fire are all
required `Unreached`. -/
theorem runReportGo_is_ok (fired : List String) :
    ∀ (reached unreached : List (String × RequiredToBe)),
    (unreached.map Prod.fst).Nodup →
    (∀ p ∈ reached, p.1 ∉ unreached.map Prod.fst) →
    ((runReportGo reached unreached fired).is_ok = true ↔
      ((∀ p ∈ reached, p.2 = RequiredToBe.reached) ∧
       (∀ p ∈ unreached, p.1 ∈ fired → p.2 = RequiredToBe.reached) ∧
       (∀ p ∈ unreached, p.1 ∉ fired → p.2 = RequiredToBe.unreached))) := by
  induction fired with
  | nil =>
      intro reached unreached hnd hdisj
      simp [runReportGo, Report.is_ok, List.all_eq_true]
  | cons k fired ih =>
      intro reached unreached hnd hdisj
      cases hrm : aremove unreached k with
      | none =>
          have hnk : k ∉ unreached.map Prod.fst := by
            rw [← alookup_eq_none_iff]
            rw [alookup_eq_aremove_fst, hrm]; rfl
          have hstep : runReportGo reached unreached (k :: fired)
              = runReportGo reached unreached fired := by
            simp only [runReportGo, hrm]
          rw [hstep, ih reached unreached hnd hdisj]
          constructor
          · rintro ⟨h1, h2, h3⟩
            refine ⟨h1, ?_, ?_⟩
            · intro p hp hmem
              rcases List.mem_cons.mp hmem with hmem | hmem
              · exact absurd (hmem ▸ List.mem_map_of_mem Prod.fst hp) hnk
              · exact h2 p hp hmem
            · intro p hp hmem
              exact h3 p hp (fun hc => hmem (List.mem_cons_of_mem k hc))
          · rintro ⟨h1, h2, h3⟩
            refine ⟨h1, ?_, ?_⟩
            · intro p hp hmem
              exact h2 p hp (List.mem_cons_of_mem k hmem)
            · intro p hp hmem
              refine h3 p hp ?_
              intro hc
              rcases List.mem_cons.mp hc with hc | hc
              · exact absurd (hc ▸ List.mem_map_of_mem Prod.fst hp) hnk
              · exact hmem hc
      | some pr =>
          obtain ⟨rv, rest⟩ := pr
          obtain ⟨l1, l2, hl, hr, hne⟩ := aremove_some_split unreached k rv rest hrm
          have hmem_iff : ∀ p, p ∈ unreached ↔ p = (k, rv) ∨ p ∈ rest := by
            intro p
            subst hl; subst hr
            simp only [List.mem_append, List.mem_cons]
            tauto
          have hkeys : unreached.map Prod.fst =
              l1.map Prod.fst ++ k :: l2.map Prod.fst := by
            subst hl; simp
          have hknr : k ∉ rest.map Prod.fst := by
            subst hr
            rw [hkeys] at hnd
            rw [List.nodup_append] at hnd
            obtain ⟨hn1, hn2, hn3⟩ := hnd
            intro hc
            simp only [List.map_append, List.mem_append] at hc
            rcases hc with hc | hc
            · exact hn3 hc (List.mem_cons_self k _)
            · exact (List.Nodup.not_mem hn2) hc
          have hndr : (rest.map Prod.fst).Nodup := by
            subst hr
            rw [hkeys] at hnd
            rw [List.nodup_append] at hnd
            obtain ⟨hn1, hn2, hn3⟩ := hnd
            rw [List.map_append]
            rw [List.nodup_append]
            refine ⟨hn1, List.Nodup.of_cons hn2, ?_⟩
            intro a ha hb
            exact hn3 ha (List.mem_cons_of_mem k hb)
          have hsubkeys : ∀ a, a ∈ rest.map Prod.fst → a ∈ unreached.map Prod.fst := by
            intro a ha
            subst hr
            rw [hkeys]
            simp only [List.map_append, List.mem_append] at ha ⊢
            rcases ha with ha | ha
            · exact Or.inl ha
            · exact Or.inr (by simp [ha])
          have hkur : k ∈ unreached.map Prod.fst := by rw [hkeys]; simp
          have hkreach : alookup reached k = none := by
            rw [alookup_eq_none_iff]
            intro hc
            obtain ⟨p, hp, hpk⟩ := List.mem_map.mp hc
            exact hdisj p hp (hpk ▸ hkur)
          have hstep : runReportGo reached unreached (k :: fired)
              = runReportGo (ainsert reached k rv) rest fired := by
            simp only [runReportGo, hrm]
          rw [hstep, ainsert_of_not_mem reached k rv hkreach]
          have hdisj2 : ∀ p ∈ reached ++ [(k, rv)], p.1 ∉ rest.map Prod.fst := by
            intro p hp
            rcases List.mem_append.mp hp with hp | hp
            · exact fun hc => hdisj p hp (hsubkeys _ hc)
            · simp at hp; subst hp; exact hknr
          rw [ih (reached ++ [(k, rv)]) rest hndr hdisj2]
          constructor
          · rintro ⟨h1, h2, h3⟩
            refine ⟨fun p hp => h1 p (List.mem_append_left _ hp), ?_, ?_⟩
            · intro p hp hmem
              rcases (hmem_iff p).mp hp with hp2 | hp2
              · subst hp2; exact h1 (k, rv) (by simp)
              · rcases List.mem_cons.mp hmem with hm | hm
                · exact absurd (hm ▸ List.mem_map_of_mem Prod.fst hp2) hknr
                · exact h2 p hp2 hm
            · intro p hp hmem
              rcases (hmem_iff p).mp hp with hp2 | hp2
              · subst hp2; exact absurd (by simp) hmem
              · exact h3 p hp2 (fun hc => hmem (List.mem_cons_of_mem k hc))
          · rintro ⟨h1, h2, h3⟩
            refine ⟨?_, ?_, ?_⟩
            · intro p hp
              rcases List.mem_append.mp hp with hp | hp
              · exact h1 p hp
              · simp at hp; subst hp
                exact h2 (k, rv) ((hmem_iff _).mpr (Or.inl rfl)) (by simp)
            · intro p hp hmem
              exact h2 p ((hmem_iff p).mpr (Or.inr hp)) (List.mem_cons_of_mem k hmem)
            · intro p hp hmem
              refine h3 p ((hmem_iff p).mpr (Or.inr hp)) ?_
              intro hc
              rcases List.mem_cons.mp hc with hc | hc
              · exact absurd (hc ▸ List.mem_map_of_mem Prod.fst hp) hknr
              · exact hmem hc

/-- Claim C8: for every finished run, the report's verdict is
`is_ok = (every event required Reached was reached) AND (every event required
Unreached was not reached)`, and no event outside the required map influences
the verdict (the second conjunct: any two fired sets agreeing on the required
events yield the same verdict).  `required` is the compiled required map
(distinct event keys), `fired` the events the run reached. -/
theorem report_is_ok_iff_requirements (required : List (String × RequiredToBe))
    (fired : List String) (hnd : (required.map Prod.fst).Nodup) :
    ((runReport required fired).is_ok = true ↔
      ((∀ p ∈ required, p.2 = RequiredToBe.reached → p.1 ∈ fired) ∧
       (∀ p ∈ required, p.2 = RequiredToBe.unreached → p.1 ∉ fired))) ∧
    (∀ fired' : List String,
      (∀ k, k ∈ required.map Prod.fst → (k ∈ fired ↔ k ∈ fired')) →
      (runReport required fired).is_ok = (runReport required fired').is_ok) := by
  have hgo : ∀ f : List String, ((runReport required f).is_ok = true ↔
      ((∀ p ∈ required, p.1 ∈ f → p.2 = RequiredToBe.reached) ∧
       (∀ p ∈ required, p.1 ∉ f → p.2 = RequiredToBe.unreached))) := by
    intro f
    have := runReportGo_is_ok f [] required hnd (by simp)
    rw [runReport, this]
    simp
  have hflip : ∀ f : List String,
      ((∀ p ∈ required, p.1 ∈ f → p.2 = RequiredToBe.reached) ∧
       (∀ p ∈ required, p.1 ∉ f → p.2 = RequiredToBe.unreached)) ↔
      ((∀ p ∈ required, p.2 = RequiredToBe.reached → p.1 ∈ f) ∧
       (∀ p ∈ required, p.2 = RequiredToBe.unreached → p.1 ∉ f)) := by
    intro f
    constructor
    · rintro ⟨h1, h2⟩
      constructor
      · intro p hp hr
        by_contra hc
        rw [h2 p hp hc] at hr
        exact RequiredToBe.noConfusion hr
      · intro p hp hr hc
        rw [h1 p hp hc] at hr
        exact RequiredToBe.noConfusion hr
    · rintro ⟨h1, h2⟩
      constructor
      · intro p hp hc
        cases hr : p.2 with
        | reached => rfl
        | unreached => exact absurd hc (h2 p hp hr)
      · intro p hp hc
        cases hr : p.2 with
        | reached => exact absurd (h1 p hp hr) hc
        | unreached => rfl
  constructor
  · rw [hgo fired]; exact hflip fired
  · intro fired2 hagree
    have h1 := (hgo fired).trans (hflip fired)
    have h2 := (hgo fired2).trans (hflip fired2)
    have hform : ((∀ p ∈ required, p.2 = RequiredToBe.reached → p.1 ∈ fired) ∧
        (∀ p ∈ required, p.2 = RequiredToBe.unreached → p.1 ∉ fired)) ↔
        ((∀ p ∈ required, p.2 = RequiredToBe.reached → p.1 ∈ fired2) ∧
         (∀ p ∈ required, p.2 = RequiredToBe.unreached → p.1 ∉ fired2)) := by
      constructor
      · rintro ⟨ha, hb⟩
        refine ⟨fun p hp hr => ?_, fun p hp hr hc => ?_⟩
        · exact (hagree p.1 (List.mem_map_of_mem Prod.fst hp)).mp (ha p hp hr)
        · exact hb p hp hr ((hagree p.1 (List.mem_map_of_mem Prod.fst hp)).mpr hc)
      · rintro ⟨ha, hb⟩
        refine ⟨fun p hp hr => ?_, fun p hp hr hc => ?_⟩
        · exact (hagree p.1 (List.mem_map_of_mem Prod.fst hp)).mpr (ha p hp hr)
        · exact hb p hp hr ((hagree p.1 (List.mem_map_of_mem Prod.fst hp)).mp hc)
    have := (h1.trans hform).trans h2.symm
    cases hb1 : (runReport required fired).is_ok with
    | true => exact (h2.mpr (hform.mp (h1.mp hb1))).symm
    | false =>
        cases hb2 : (runReport required fired2).is_ok with
        | true => exact absurd (h1.mpr (hform.mpr (h2.mp hb2))) (by simp [hb1])
        | false => rfl

/-- Witness for C8: required map `{a: Reached, b: Unreached}` with fired set
`{a}`; the verdict is `true` and matches the formula. -/
theorem report_is_ok_iff_requirements_witness :
    (runReport [("a", RequiredToBe.reached), ("b", RequiredToBe.unreached)]
      ["a"]).is_ok = true ∧
    ((runReport [("a", RequiredToBe.reached), ("b", RequiredToBe.unreached)]
      ["a"]).is_ok = true ↔
      ((∀ p ∈ [("a", RequiredToBe.reached), ("b", RequiredToBe.unreached)],
          p.2 = RequiredToBe.reached → p.1 ∈ ["a"]) ∧
       (∀ p ∈ [("a", RequiredToBe.reached), ("b", RequiredToBe.unreached)],
          p.2 = RequiredToBe.unreached → p.1 ∉ ["a"]))) := by
  constructor
  · simp [runReport, runReportGo, aremove, ainsert, Report.is_ok]
  · exact (report_is_ok_iff_requirements
      [("a", RequiredToBe.reached), ("b", RequiredToBe.unreached)] ["a"]
      (by simp)).1

/-! ## 4.5 Timer wheel (src/src/execution/receives_and_delays.rs)

`tokio::time::Instant` and `Duration` are modelled as `Nat` (nanoseconds);
`checked_add` cannot overflow on `Nat` and `saturating_duration_since` is
truncated subtraction.  The two `BTreeSet`s are modelled as strictly sorted
lists (sorted by the derived lexicographic `Ord` of the entry types); `insert`
deduplicates exactly as a set insert does. -/

/-- `KeyDelayOrRecv`: delay keys order before recv keys (derived `Ord`). -/
inductive KeyDelayOrRecv where
  | delay (k : Nat)
  | recv (k : Nat)
  deriving DecidableEq, Repr

/-- Derived lexicographic order on `KeyDelayOrRecv`. -/
def kdrLt : KeyDelayOrRecv → KeyDelayOrRecv → Bool
  | .delay a, .delay b => a < b
  | .delay _, .recv _ => true
  | .recv _, .delay _ => false
  | .recv a, .recv b => a < b

structure ResolutionEntry where
  resolution : Nat
  key : KeyDelayOrRecv
  deriving DecidableEq, Repr

/-- Derived lexicographic order on `ResolutionEntry` (field order:
`resolution`, then `key`). -/
def reLt (a b : ResolutionEntry) : Bool :=
  a.resolution < b.resolution ||
    (a.resolution == b.resolution && kdrLt a.key b.key)

inductive ScheduledEvent where
  | ripe (key : KeyDelayOrRecv)
  | unsetResolution (re : ResolutionEntry)
  | setResolution (re : ResolutionEntry)
  deriving DecidableEq, Repr

/-- Derived order on `ScheduledEvent`: variant order
(`Ripe < UnsetResolution < SetResolution`), then payload. -/
def sevLt : ScheduledEvent → ScheduledEvent → Bool
  | .ripe a, .ripe b => kdrLt a b
  | .ripe _, .unsetResolution _ => true
  | .ripe _, .setResolution _ => true
  | .unsetResolution _, .ripe _ => false
  | .unsetResolution a, .unsetResolution b => reLt a b
  | .unsetResolution _, .setResolution _ => true
  | .setResolution a, .setResolution b => reLt a b
  | .setResolution _, .ripe _ => false
  | .setResolution _, .unsetResolution _ => false

structure ScheduleEntry where
  at_ : Nat
  event : ScheduledEvent
  deriving DecidableEq, Repr

/-- Derived order on `ScheduleEntry` (field order: `at`, then `event`). -/
def seLt (a b : ScheduleEntry) : Bool :=
  a.at_ < b.at_ || (a.at_ == b.at_ && sevLt a.event b.event)

/-- `BTreeSet::insert` on a strictly sorted list: already-present elements are
left alone (the set is unchanged), otherwise the element is placed at its
sorted position.  (The call sites in the source assert that the element was
new; the theorems below carry freshness hypotheses that make this so.) -/
def insertSorted {α : Type} [DecidableEq α] (lt : α → α → Bool) (x : α) :
    List α → List α
  | [] => [x]
  | y :: ys =>
      if x = y then y :: ys
      else if lt x y then x :: y :: ys
      else y :: insertSorted lt x ys

/-- `BTreeSet::remove`: drop the element if present.  (The call site asserts
presence; the theorems carry hypotheses that make this so.) -/
def removeFirst {α : Type} [DecidableEq α] (x : α) : List α → List α
  | [] => []
  | y :: ys => if x = y then ys else y :: removeFirst x ys

/-- Association-list insert for `Nat` keys (the `valid_from` map of the
wheel is keyed by recv keys). -/
def ainsertNat {β : Type} : List (Nat × β) → Nat → β → List (Nat × β)
  | [], key, v => [(key, v)]
  | (k, w) :: rest, key, v =>
      if k = key then (k, v) :: rest else (k, w) :: ainsertNat rest key v

/-- `const RECV_RESOLUTION_DIVISOR: u32 = 1000`. -/
def RECV_RESOLUTION_DIVISOR : Nat := 1000

structure ReceivesAndDelays where
  schedule : List ScheduleEntry
  resolution : List ResolutionEntry
  valid_from : List (Nat × Nat)
  deriving Repr

def ReceivesAndDelays.empty : ReceivesAndDelays := ⟨[], [], []⟩

/-- `ReceivesAndDelays::next_sleep_until` (receives_and_delays.rs:43): the
first resolution entry bounds the sleep to `now + resolution`; the first
schedule entry bounds it to its `at`; `None` if either set is empty (each is
read with `?`). -/
def ReceivesAndDelays.next_sleep_until (w : ReceivesAndDelays) (now : Nat) :
    Option Nat :=
  match w.resolution.head? with
  | none => none
  | some re =>
      let one_step_after_now := now + re.resolution
      match w.schedule.head? with
      | none => none
      | some se => some (min one_step_after_now se.at_)

/-- The loop of `select_ripe_keys`: pop schedule entries with `at ≤ now`,
collecting ripe keys and applying resolution-set mutations. -/
def selectRipeGo : List ScheduleEntry → List ResolutionEntry → Nat →
    List KeyDelayOrRecv × List ScheduleEntry × List ResolutionEntry
  | [], res, _ => ([], [], res)
  | se :: rest, res, now =>
      if se.at_ ≤ now then
        match se.event with
        | .ripe key =>
            let (out, s, r) := selectRipeGo rest res now
            (key :: out, s, r)
        | .unsetResolution re => selectRipeGo rest (removeFirst re res) now
        | .setResolution re => selectRipeGo rest (insertSorted reLt re res) now
      else ([], se :: rest, res)

/-- `ReceivesAndDelays::select_ripe_keys` (receives_and_delays.rs:52). -/
def ReceivesAndDelays.select_ripe_keys (w : ReceivesAndDelays) (now : Nat) :
    List KeyDelayOrRecv × ReceivesAndDelays :=
  let (out, schedule, resolution) := selectRipeGo w.schedule w.resolution now
  (out, { w with schedule := schedule, resolution := resolution })

structure EventDelay where
  delay_for : Nat
  delay_step : Nat
  deriving Repr, DecidableEq

/-- `ReceivesAndDelays::insert_delay` (receives_and_delays.rs:95): one
resolution entry with the delay's step, plus two schedule entries at
`now + delay_for` — an `UnsetResolution` of that entry and a `Ripe` of the
delay's key. -/
def ReceivesAndDelays.insert_delay (w : ReceivesAndDelays) (now : Nat)
    (key : Nat) (event : EventDelay) : ReceivesAndDelays :=
  let atv := now + event.delay_for
  let k := KeyDelayOrRecv.delay key
  let r_entry : ResolutionEntry := { resolution := event.delay_step, key := k }
  { w with
    resolution := insertSorted reLt r_entry w.resolution,
    schedule :=
      insertSorted seLt { at_ := atv, event := .ripe k }
        (insertSorted seLt { at_ := atv, event := .unsetResolution r_entry }
          w.schedule) }

/-- The timing fields of an `EventRecv` used by the wheel. -/
structure RecvTiming where
  after_duration : Nat
  before_duration : Option Nat
  deriving Repr, DecidableEq

/-- `ReceivesAndDelays::insert_recv` (receives_and_delays.rs:115): a
resolution entry of granularity `after/1000` live until `valid_from`; if a
`before` timeout is given, a `Ripe` entry at `valid_thru` and — when the
granularity `(before-after)/1000` is non-zero — a `SetResolution` at
`valid_from` paired with an `UnsetResolution` at `valid_thru`. -/
def ReceivesAndDelays.insert_recv (w : ReceivesAndDelays) (now : Nat)
    (key : Nat) (event : RecvTiming) : ReceivesAndDelays :=
  let valid_from := now + event.after_duration
  let w := { w with valid_from := ainsertNat w.valid_from key valid_from }
  let k := KeyDelayOrRecv.recv key
  let resolution1 := (valid_from - now) / RECV_RESOLUTION_DIVISOR
  let r_entry1 : ResolutionEntry := { resolution := resolution1, key := k }
  let w := { w with
    resolution := insertSorted reLt r_entry1 w.resolution,
    schedule := insertSorted seLt
      { at_ := valid_from, event := .unsetResolution r_entry1 } w.schedule }
  match event.before_duration with
  | none => w
  | some timeout =>
      let valid_thru := now + timeout
      let resolution2 := (valid_thru - valid_from) / RECV_RESOLUTION_DIVISOR
      let r_entry2 : ResolutionEntry := { resolution := resolution2, key := k }
      let w := { w with
        schedule := insertSorted seLt
          { at_ := valid_thru, event := .ripe k } w.schedule }
      if resolution2 = 0 then w
      else
        { w with
          schedule := insertSorted seLt
            { at_ := valid_thru, event := .unsetResolution r_entry2 }
            (insertSorted seLt
              { at_ := valid_from, event := .setResolution r_entry2 }
              w.schedule) }

/-- Claim C6, amended: `next_sleep_until(now)` returns `None` iff the schedule
or the resolution set is empty; when both are non-empty it returns
`min(first_schedule.at, now + first_resolution.resolution)`. -/
theorem next_sleep_until_characterization (w : ReceivesAndDelays) (now : Nat) :
    (w.next_sleep_until now = none ↔ (w.schedule = [] ∨ w.resolution = [])) ∧
    (∀ re se, w.resolution.head? = some re → w.schedule.head? = some se →
      w.next_sleep_until now = some (min (now + re.resolution) se.at_)) := by
  constructor
  · cases hr : w.resolution with
    | nil => simp [ReceivesAndDelays.next_sleep_until, hr]
    | cons re rest =>
        cases hs : w.schedule with
        | nil => simp [ReceivesAndDelays.next_sleep_until, hr, hs]
        | cons se rest2 => simp [ReceivesAndDelays.next_sleep_until, hr, hs]
  · intro re se hre hse
    simp [ReceivesAndDelays.next_sleep_until, hre, hse]

/-- Counterexample to Claim C6 as stated: insert a recv with `after = 0`,
`before = 500ns` into the empty wheel at instant `0`, then select ripe keys at
instant `0` (this pops the resolution window's `UnsetResolution` entry).  The
wheel still holds a schedule entry (the recv's `Ripe` at instant 500), yet
`next_sleep_until` returns `None` because the resolution set is empty. -/
theorem next_sleep_until_none_with_nonempty_schedule :
    ((ReceivesAndDelays.empty.insert_recv 0 0
        ⟨0, some 500⟩).select_ripe_keys 0).2.next_sleep_until 0 = none ∧
    ((ReceivesAndDelays.empty.insert_recv 0 0
        ⟨0, some 500⟩).select_ripe_keys 0).2.schedule ≠ [] := by
  constructor
  · rfl
  · intro h
    exact absurd h (by
      simp [ReceivesAndDelays.empty, ReceivesAndDelays.insert_recv,
        ReceivesAndDelays.select_ripe_keys, selectRipeGo, insertSorted,
        removeFirst, ainsertNat, RECV_RESOLUTION_DIVISOR])

/-! ### Order and sorted-set lemmas for the wheel -/

theorem kdrLt_trans : ∀ a b c, kdrLt a b = true → kdrLt b c = true →
    kdrLt a c = true := by
  intro a b c
  cases a <;> cases b <;> cases c <;> simp [kdrLt] <;> omega

theorem kdrLt_total : ∀ a b, a ≠ b → kdrLt a b = true ∨ kdrLt b a = true := by
  intro a b hne
  cases a <;> cases b <;> simp [kdrLt] <;> simp_all <;> omega

theorem reLt_trans : ∀ a b c, reLt a b = true → reLt b c = true →
    reLt a c = true := by
  rintro ⟨r1, k1⟩ ⟨r2, k2⟩ ⟨r3, k3⟩ h1 h2
  simp only [reLt, Bool.or_eq_true, Bool.and_eq_true, beq_iff_eq,
    decide_eq_true_eq] at h1 h2 ⊢
  rcases h1 with h1 | ⟨h1e, h1k⟩ <;> rcases h2 with h2 | ⟨h2e, h2k⟩
  · exact Or.inl (by omega)
  · exact Or.inl (by omega)
  · exact Or.inl (by omega)
  · exact Or.inr ⟨by omega, kdrLt_trans _ _ _ h1k h2k⟩

theorem reLt_total : ∀ a b, a ≠ b → reLt a b = true ∨ reLt b a = true := by
  rintro ⟨r1, k1⟩ ⟨r2, k2⟩ hne
  simp only [reLt, Bool.or_eq_true, Bool.and_eq_true, beq_iff_eq,
    decide_eq_true_eq]
  by_cases hr : r1 = r2
  · subst hr
    have hk : k1 ≠ k2 := fun hc => hne (by rw [hc])
    rcases kdrLt_total k1 k2 hk with h | h
    · exact Or.inl (Or.inr ⟨rfl, h⟩)
    · exact Or.inr (Or.inr ⟨rfl, h⟩)
  · rcases Nat.lt_or_ge r1 r2 with h | h
    · exact Or.inl (Or.inl h)
    · exact Or.inr (Or.inl (by omega))

theorem sevLt_trans : ∀ a b c, sevLt a b = true → sevLt b c = true →
    sevLt a c = true := by
  intro a b c h1 h2
  cases a <;> cases b <;> cases c <;> simp [sevLt] at h1 h2 ⊢
  · exact kdrLt_trans _ _ _ h1 h2
  · exact reLt_trans _ _ _ h1 h2
  · exact reLt_trans _ _ _ h1 h2

theorem sevLt_total : ∀ a b, a ≠ b → sevLt a b = true ∨ sevLt b a = true := by
  intro a b hne
  cases a <;> cases b <;> simp [sevLt] at hne ⊢
  · exact kdrLt_total _ _ hne
  · exact reLt_total _ _ (fun hc => hne (by rw [hc]))
  · exact reLt_total _ _ (fun hc => hne (by rw [hc]))

theorem seLt_trans : ∀ a b c, seLt a b = true → seLt b c = true →
    seLt a c = true := by
  rintro ⟨a1, e1⟩ ⟨a2, e2⟩ ⟨a3, e3⟩ h1 h2
  simp only [seLt, Bool.or_eq_true, Bool.and_eq_true, beq_iff_eq,
    decide_eq_true_eq] at h1 h2 ⊢
  rcases h1 with h1 | ⟨h1e, h1k⟩ <;> rcases h2 with h2 | ⟨h2e, h2k⟩
  · exact Or.inl (by omega)
  · exact Or.inl (by omega)
  · exact Or.inl (by omega)
  · exact Or.inr ⟨by omega, sevLt_trans _ _ _ h1k h2k⟩

theorem seLt_total : ∀ a b, a ≠ b → seLt a b = true ∨ seLt b a = true := by
  rintro ⟨a1, e1⟩ ⟨a2, e2⟩ hne
  simp only [seLt, Bool.or_eq_true, Bool.and_eq_true, beq_iff_eq,
    decide_eq_true_eq]
  by_cases ha : a1 = a2
  · subst ha
    have he : e1 ≠ e2 := fun hc => hne (by rw [hc])
    rcases sevLt_total e1 e2 he with h | h
    · exact Or.inl (Or.inr ⟨rfl, h⟩)
    · exact Or.inr (Or.inr ⟨rfl, h⟩)
  · rcases Nat.lt_or_ge a1 a2 with h | h
    · exact Or.inl (Or.inl h)
    · exact Or.inr (Or.inl (by omega))

theorem seLt_at_le : ∀ a b, seLt a b = true → a.at_ ≤ b.at_ := by
  rintro ⟨a1, e1⟩ ⟨a2, e2⟩ h
  simp only [seLt, Bool.or_eq_true, Bool.and_eq_true, beq_iff_eq,
    decide_eq_true_eq] at h
  rcases h with h | ⟨h, _⟩ <;> simp <;> omega

theorem mem_insertSorted {α : Type} [DecidableEq α] (lt : α → α → Bool)
    (x z : α) (l : List α) : z ∈ insertSorted lt x l ↔ z = x ∨ z ∈ l := by
  induction l with
  | nil => simp [insertSorted]
  | cons y ys ih =>
      by_cases hxy : x = y
      · subst hxy
        simp [insertSorted]
        try tauto
      · rw [insertSorted, if_neg hxy]
        by_cases hlt : lt x y = true
        · simp [hlt]
          try tauto
        · simp [hlt, ih]
          try tauto

theorem insertSorted_pairwise {α : Type} [DecidableEq α] (lt : α → α → Bool)
    (htr : ∀ a b c, lt a b = true → lt b c = true → lt a c = true)
    (hto : ∀ a b, a ≠ b → lt a b = true ∨ lt b a = true)
    (x : α) (l : List α) (h : l.Pairwise (fun a b => lt a b = true)) :
    (insertSorted lt x l).Pairwise (fun a b => lt a b = true) := by
  induction l with
  | nil => simp [insertSorted]
  | cons y ys ih =>
      rw [List.pairwise_cons] at h
      obtain ⟨hy, hys⟩ := h
      by_cases hxy : x = y
      · subst hxy
        rw [insertSorted, if_pos rfl]
        exact List.pairwise_cons.mpr ⟨hy, hys⟩
      · rw [insertSorted, if_neg hxy]
        by_cases hlt : lt x y = true
        · rw [if_pos hlt]
          refine List.pairwise_cons.mpr ⟨?_, List.pairwise_cons.mpr ⟨hy, hys⟩⟩
          intro z hz
          rcases List.mem_cons.mp hz with hz | hz
          · subst hz; exact hlt
          · exact htr _ _ _ hlt (hy z hz)
        · rw [if_neg hlt]
          refine List.pairwise_cons.mpr ⟨?_, ih hys⟩
          intro z hz
          rcases (mem_insertSorted lt x z ys).mp hz with hz | hz
          · subst hz
            rcases hto _ y hxy with hc | hc
            · exact absurd hc hlt
            · exact hc
          · exact hy z hz

theorem countP_insertSorted_neg {α : Type} [DecidableEq α] (lt : α → α → Bool)
    (q : α → Bool) (x : α) (l : List α) (hq : q x = false) :
    (insertSorted lt x l).countP q = l.countP q := by
  induction l with
  | nil => simp [insertSorted, List.countP_cons, hq]
  | cons y ys ih =>
      by_cases hxy : x = y
      · subst hxy; rw [insertSorted, if_pos rfl]
      · rw [insertSorted, if_neg hxy]
        by_cases hlt : lt x y = true
        · rw [if_pos hlt]
          simp [List.countP_cons, hq]
        · rw [if_neg hlt]
          simp [List.countP_cons, ih]

theorem countP_insertSorted_pos {α : Type} [DecidableEq α] (lt : α → α → Bool)
    (q : α → Bool) (x : α) (l : List α) (hq : q x = true) (hx : x ∉ l) :
    (insertSorted lt x l).countP q = l.countP q + 1 := by
  induction l with
  | nil => simp [insertSorted, List.countP_cons, hq]
  | cons y ys ih =>
      have hxy : x ≠ y := fun hc => hx (by simp [hc])
      rw [insertSorted, if_neg hxy]
      by_cases hlt : lt x y = true
      · rw [if_pos hlt]
        simp [List.countP_cons, hq]
        try omega
      · rw [if_neg hlt]
        have : x ∉ ys := fun hc => hx (by simp [hc])
        simp [List.countP_cons, ih this]
        try omega

theorem countP_removeFirst_neg {α : Type} [DecidableEq α] (q : α → Bool)
    (x : α) (l : List α) (hq : q x = false) :
    (removeFirst x l).countP q = l.countP q := by
  induction l with
  | nil => simp [removeFirst]
  | cons y ys ih =>
      by_cases hxy : x = y
      · subst hxy
        simp [removeFirst, List.countP_cons, hq]
      · rw [removeFirst, if_neg hxy]
        simp [List.countP_cons, ih]

theorem countP_removeFirst_pos {α : Type} [DecidableEq α] (q : α → Bool)
    (x : α) (l : List α) (hq : q x = true) (hx : x ∈ l) :
    (removeFirst x l).countP q + 1 = l.countP q := by
  induction l with
  | nil => simp at hx
  | cons y ys ih =>
      by_cases hxy : x = y
      · subst hxy
        simp [removeFirst, List.countP_cons, hq]
      · rw [removeFirst, if_neg hxy]
        have : x ∈ ys := by
          rcases List.mem_cons.mp hx with hc | hc
          · exact absurd hc hxy
          · exact hc
        simp [List.countP_cons, ← ih this]
        omega

theorem mem_removeFirst_of_ne {α : Type} [DecidableEq α] (x z : α)
    (l : List α) (hz : z ∈ l) (hne : z ≠ x) : z ∈ removeFirst x l := by
  induction l with
  | nil => simp at hz
  | cons y ys ih =>
      by_cases hxy : x = y
      · subst hxy
        rw [removeFirst, if_pos rfl]
        rcases List.mem_cons.mp hz with hc | hc
        · exact absurd hc hne
        · exact hc
      · rw [removeFirst, if_neg hxy]
        rcases List.mem_cons.mp hz with hc | hc
        · exact hc ▸ List.mem_cons_self z _
        · exact List.mem_cons_of_mem y (ih hc)

/-- The ripe keys of a schedule entry. -/
def ripeOf (se : ScheduleEntry) : Option KeyDelayOrRecv :=
  match se.event with
  | .ripe k => some k
  | _ => none

/-- The effect of one popped schedule entry on the resolution set. -/
def applyOp (res : List ResolutionEntry) (se : ScheduleEntry) :
    List ResolutionEntry :=
  match se.event with
  | .ripe _ => res
  | .unsetResolution re => removeFirst re res
  | .setResolution re => insertSorted reLt re res

/-- `selectRipeGo` pops exactly the prefix of entries with `at ≤ now`:
it emits their ripe keys, keeps the remaining suffix, and folds the
resolution-set mutations of the popped prefix. -/
theorem selectRipeGo_eq (now : Nat) :
    ∀ (sch : List ScheduleEntry) (res : List ResolutionEntry),
    selectRipeGo sch res now =
      ((sch.takeWhile (fun se => decide (se.at_ ≤ now))).filterMap ripeOf,
       sch.dropWhile (fun se => decide (se.at_ ≤ now)),
       (sch.takeWhile (fun se => decide (se.at_ ≤ now))).foldl applyOp res) := by
  intro sch
  induction sch with
  | nil => intro res; simp [selectRipeGo]
  | cons se rest ih =>
      intro res
      by_cases hle : se.at_ ≤ now
      · rw [selectRipeGo]
        rw [if_pos hle]
        cases hev : se.event with
        | ripe k =>
            simp [List.takeWhile_cons, List.dropWhile_cons, hle,
              List.filterMap_cons, ripeOf, hev, applyOp, ih]
        | unsetResolution re =>
            simp [List.takeWhile_cons, List.dropWhile_cons, hle,
              List.filterMap_cons, ripeOf, hev, applyOp, ih]
        | setResolution re =>
            simp [List.takeWhile_cons, List.dropWhile_cons, hle,
              List.filterMap_cons, ripeOf, hev, applyOp, ih]
      · rw [selectRipeGo, if_neg hle]
        simp [List.takeWhile_cons, List.dropWhile_cons, hle]

/-- On an `at`-sorted schedule, the popped prefix is exactly the entries with
`at ≤ now`. -/
theorem sorted_takeWhile_eq_filter (now : Nat) :
    ∀ (l : List ScheduleEntry),
    l.Pairwise (fun a b => seLt a b = true) →
    l.takeWhile (fun se => decide (se.at_ ≤ now)) =
      l.filter (fun se => decide (se.at_ ≤ now)) := by
  intro l
  induction l with
  | nil => simp
  | cons se rest ih =>
      intro h
      rw [List.pairwise_cons] at h
      obtain ⟨hse, hrest⟩ := h
      by_cases hle : se.at_ ≤ now
      · simp [List.takeWhile_cons, List.filter_cons, hle, ih hrest]
      · have hall : ∀ z ∈ rest, ¬(z.at_ ≤ now) := by
          intro z hz
          have := seLt_at_le se z (hse z hz)
          omega
        have hnil : rest.filter (fun se => decide (se.at_ ≤ now)) = [] :=
          List.filter_eq_nil_iff.mpr (by intro z hz; simpa using hall z hz)
        simp [List.takeWhile_cons, List.filter_cons, hle, hnil]

theorem sorted_dropWhile_mem (now : Nat) (l : List ScheduleEntry)
    (hnd : l.Pairwise (fun a b => seLt a b = true)) (z : ScheduleEntry)
    (hz : z ∈ l.dropWhile (fun se => decide (se.at_ ≤ now))) :
    z ∈ l ∧ ¬(z.at_ ≤ now) := by
  induction l with
  | nil => simp at hz
  | cons se rest ih =>
      rw [List.pairwise_cons] at hnd
      obtain ⟨hse, hrest⟩ := hnd
      by_cases hle : se.at_ ≤ now
      · rw [List.dropWhile_cons_of_pos (by simpa using hle)] at hz
        obtain ⟨h1, h2⟩ := ih hrest hz
        exact ⟨List.mem_cons_of_mem se h1, h2⟩
      · rw [List.dropWhile_cons_of_neg (by simpa using hle)] at hz
        rcases List.mem_cons.mp hz with hc | hc
        · subst hc; exact ⟨List.mem_cons_self z _, hle⟩
        · have := seLt_at_le se z (hse z hc)
          exact ⟨List.mem_cons_of_mem se hc, by omega⟩

/-- Count of a key among the ripe outputs, as a `countP` on the entries. -/
theorem count_filterMap_ripe (k : KeyDelayOrRecv) :
    ∀ l : List ScheduleEntry,
    (l.filterMap ripeOf).count k =
      l.countP (fun se => ripeOf se == some k) := by
  intro l
  induction l with
  | nil => simp
  | cons se rest ih =>
      cases hev : ripeOf se with
      | none => simp [List.filterMap_cons, hev, List.countP_cons, ih]
      | some k2 =>
          by_cases hk : k2 = k
          · subst hk
            simp [List.filterMap_cons, hev, List.countP_cons, ih,
              List.count_cons]
          · simp [List.filterMap_cons, hev, List.countP_cons, ih,
              List.count_cons, hk]
            try (intro hc; exact absurd hc.symm hk)

/-- If a list has a single entry satisfying `q` (by count), it splits around
that entry with `q`-free sides. -/
theorem countP_eq_one_split {α : Type} (q : α → Bool) :
    ∀ (l : List α) (x : α), l.countP q = 1 → x ∈ l → q x = true →
    ∃ l1 l2, l = l1 ++ x :: l2 ∧ (∀ z ∈ l1, q z = false) ∧
      (∀ z ∈ l2, q z = false) := by
  intro l
  induction l with
  | nil => intro x h hx; simp at hx
  | cons y ys ih =>
      intro x h hx hq
      by_cases hqy : q y = true
      · have hys : ys.countP q = 0 := by
          simpa [List.countP_cons, hqy] using h
        have hxy : x = y := by
          rcases List.mem_cons.mp hx with hc | hc
          · exact hc
          · exact absurd hq (by
              have := List.countP_eq_zero.mp hys x hc
              simpa using this)
        subst hxy
        exact ⟨[], ys, rfl, by simp, by
          intro z hz
          have := List.countP_eq_zero.mp hys z hz
          simpa using this⟩
      · have hqyf : q y = false := by simpa using hqy
        have hys : ys.countP q = 1 := by
          simp [List.countP_cons, hqyf] at h
          exact h
        have hxys : x ∈ ys := by
          rcases List.mem_cons.mp hx with hc | hc
          · subst hc; exact absurd hq (by simp [hqyf])
          · exact hc
        obtain ⟨l1, l2, hl, h1, h2⟩ := ih x hys hxys hq
        exact ⟨y :: l1, l2, by simp [hl], by
          intro z hz
          rcases List.mem_cons.mp hz with hc | hc
          · subst hc; exact hqyf
          · exact h1 z hc, h2⟩

/-- Whether a schedule entry refers to the given key (in any of its three
event forms). -/
def seMentions (k : KeyDelayOrRecv) (se : ScheduleEntry) : Bool :=
  match se.event with
  | .ripe k2 => k2 == k
  | .unsetResolution re => re.key == k
  | .setResolution re => re.key == k

/-- Whether a schedule entry carries a resolution-set mutation for the key. -/
def resOpK (k : KeyDelayOrRecv) (se : ScheduleEntry) : Bool :=
  match se.event with
  | .ripe _ => false
  | .unsetResolution re => re.key == k
  | .setResolution re => re.key == k

theorem foldl_applyOp_preserves (k : KeyDelayOrRecv) :
    ∀ (ops : List ScheduleEntry) (res : List ResolutionEntry),
    (∀ se ∈ ops, resOpK k se = false) →
    ((ops.foldl applyOp res).countP (fun re => re.key == k) =
      res.countP (fun re => re.key == k)) ∧
    (∀ re0 : ResolutionEntry, re0.key = k → re0 ∈ res →
      re0 ∈ ops.foldl applyOp res) := by
  intro ops
  induction ops with
  | nil => intro res h; exact ⟨rfl, fun _ _ hm => hm⟩
  | cons op rest ih =>
      intro res h
      have hop : resOpK k op = false := h op (List.mem_cons_self op rest)
      have hrest : ∀ se ∈ rest, resOpK k se = false :=
        fun se hse => h se (List.mem_cons_of_mem op hse)
      rw [List.foldl_cons]
      cases hev : op.event with
      | ripe k2 =>
          have : applyOp res op = res := by simp [applyOp, hev]
          rw [this]
          exact ih res hrest
      | unsetResolution re =>
          have hkey : (re.key == k) = false := by simpa [resOpK, hev] using hop
          have : applyOp res op = removeFirst re res := by simp [applyOp, hev]
          rw [this]
          obtain ⟨hc, hm⟩ := ih (removeFirst re res) hrest
          refine ⟨?_, ?_⟩
          · rw [hc, countP_removeFirst_neg (fun r0 => r0.key == k) re res hkey]
          · intro re0 hre0 hmem
            refine hm re0 hre0 (mem_removeFirst_of_ne re re0 res hmem ?_)
            intro hcon
            rw [hcon] at hre0
            rw [hre0] at hkey
            simp at hkey
      | setResolution re =>
          have hkey : (re.key == k) = false := by simpa [resOpK, hev] using hop
          have : applyOp res op = insertSorted reLt re res := by
            simp [applyOp, hev]
          rw [this]
          obtain ⟨hc, hm⟩ := ih (insertSorted reLt re res) hrest
          refine ⟨?_, ?_⟩
          · rw [hc,
              countP_insertSorted_neg reLt (fun r0 => r0.key == k) re res hkey]
          · intro re0 hre0 hmem
            exact hm re0 hre0 ((mem_insertSorted reLt re re0 res).mpr
              (Or.inr hmem))

/-- Claim C9: inserting a delay event `d` with key `k` into the timer wheel at
instant `now`, then selecting the ripe keys at `now + d.delay_for`, yields
`k` exactly once in the output and removes every entry of `k` (its schedule
entries and its resolution entry) from the wheel.  Hypotheses: the wheel's two
ordered sets are sorted (the `BTreeSet` invariant) and hold no entry for `k`
(its key is fresh, as guaranteed by the slotmap key allocation and asserted at
the insertion sites). -/
theorem insert_delay_select_ripe_once (w : ReceivesAndDelays) (now key : Nat)
    (event : EventDelay)
    (hs : w.schedule.Pairwise (fun a b => seLt a b = true))
    (hfs : ∀ se ∈ w.schedule, seMentions (KeyDelayOrRecv.delay key) se = false)
    (hfr : ∀ re ∈ w.resolution,
      (re.key == KeyDelayOrRecv.delay key) = false) :
    ((w.insert_delay now key event).select_ripe_keys
        (now + event.delay_for)).1.count (KeyDelayOrRecv.delay key) = 1 ∧
    (∀ se ∈ ((w.insert_delay now key event).select_ripe_keys
        (now + event.delay_for)).2.schedule,
      seMentions (KeyDelayOrRecv.delay key) se = false) ∧
    (∀ re ∈ ((w.insert_delay now key event).select_ripe_keys
        (now + event.delay_for)).2.resolution,
      (re.key == KeyDelayOrRecv.delay key) = false) := by
  set kk := KeyDelayOrRecv.delay key with hkk
  set atv := now + event.delay_for with hatv
  set re : ResolutionEntry := ⟨event.delay_step, kk⟩ with hre
  set unsetE : ScheduleEntry := ⟨atv, .unsetResolution re⟩ with hunsetE
  set ripeE : ScheduleEntry := ⟨atv, .ripe kk⟩ with hripeE
  set p : ScheduleEntry → Bool := fun se => decide (se.at_ ≤ atv) with hp
  have hw1s : (w.insert_delay now key event).schedule =
      insertSorted seLt ripeE (insertSorted seLt unsetE w.schedule) := rfl
  have hw1r : (w.insert_delay now key event).resolution =
      insertSorted reLt re w.resolution := rfl
  have hunsetE_not : unsetE ∉ w.schedule := by
    intro hc
    have := hfs unsetE hc
    simp [seMentions, hunsetE, hre] at this
  have hripeE_not : ripeE ∉ insertSorted seLt unsetE w.schedule := by
    intro hc
    rcases (mem_insertSorted seLt unsetE ripeE w.schedule).mp hc with hc | hc
    · simp [hripeE, hunsetE] at hc
    · have := hfs ripeE hc
      simp [seMentions, hripeE] at this
  have hsorted1 : (insertSorted seLt ripeE
      (insertSorted seLt unsetE w.schedule)).Pairwise
      (fun a b => seLt a b = true) :=
    insertSorted_pairwise seLt seLt_trans seLt_total ripeE _
      (insertSorted_pairwise seLt seLt_trans seLt_total unsetE _ hs)
  have hsel : (w.insert_delay now key event).select_ripe_keys atv =
      (((insertSorted seLt ripeE (insertSorted seLt unsetE
          w.schedule)).takeWhile p).filterMap ripeOf,
        { w.insert_delay now key event with
          schedule := (insertSorted seLt ripeE (insertSorted seLt unsetE
            w.schedule)).dropWhile p,
          resolution := ((insertSorted seLt ripeE (insertSorted seLt unsetE
            w.schedule)).takeWhile p).foldl applyOp
            (insertSorted reLt re w.resolution) }) := by
    rw [ReceivesAndDelays.select_ripe_keys, hw1s, hw1r, selectRipeGo_eq]
  have htake : (insertSorted seLt ripeE (insertSorted seLt unsetE
      w.schedule)).takeWhile p = (insertSorted seLt ripeE (insertSorted seLt
      unsetE w.schedule)).filter p :=
    sorted_takeWhile_eq_filter atv _ hsorted1
  have hbase_ripe : w.schedule.countP (fun se =>
      (ripeOf se == some kk) && p se) = 0 := by
    rw [List.countP_eq_zero]
    intro se hse
    have hm := hfs se hse
    cases hev : se.event with
    | ripe k2 =>
        simp [seMentions, hev] at hm
        simp [ripeOf, hev, hm]
    | unsetResolution re2 => simp [ripeOf, hev]
    | setResolution re2 => simp [ripeOf, hev]
  have hbase_res : w.schedule.countP (fun se => resOpK kk se && p se) = 0 := by
    rw [List.countP_eq_zero]
    intro se hse
    have hm := hfs se hse
    cases hev : se.event with
    | ripe k2 => simp [resOpK, hev]
    | unsetResolution re2 =>
        simp [seMentions, hev] at hm
        simp [resOpK, hev, hm]
    | setResolution re2 =>
        simp [seMentions, hev] at hm
        simp [resOpK, hev, hm]
  refine ⟨?_, ?_, ?_⟩
  · rw [hsel]
    rw [htake]
    rw [count_filterMap_ripe, List.countP_filter]
    rw [countP_insertSorted_pos seLt _ ripeE _
      (by simp [ripeOf, hripeE, hp]) hripeE_not]
    rw [countP_insertSorted_neg seLt _ unsetE _ (by simp [ripeOf, hunsetE])]
    rw [hbase_ripe]
  · rw [hsel]
    intro se hse
    simp only at hse
    obtain ⟨hmem, hgt⟩ := sorted_dropWhile_mem atv _ hsorted1 se hse
    rcases (mem_insertSorted seLt ripeE se _).mp hmem with hc | hc
    · subst hc
      exact absurd (by simp [hripeE, hp]) hgt
    · rcases (mem_insertSorted seLt unsetE se _).mp hc with hc2 | hc2
      · subst hc2
        exact absurd (by simp [hunsetE, hp]) hgt
      · exact hfs se hc2
  · rw [hsel]
    intro re2 hre2
    simp only at hre2
    rw [htake] at hre2
    have hcount1 : (insertSorted seLt ripeE (insertSorted seLt unsetE
        w.schedule)).countP (fun se => resOpK kk se && p se) = 1 := by
      rw [countP_insertSorted_neg seLt _ ripeE _ (by simp [resOpK, hripeE])]
      rw [countP_insertSorted_pos seLt _ unsetE _
        (by simp [resOpK, hunsetE, hre, hp]) hunsetE_not]
      rw [hbase_res]
    have hcount1f : ((insertSorted seLt ripeE (insertSorted seLt unsetE
        w.schedule)).filter p).countP (resOpK kk) = 1 := by
      rw [List.countP_filter]
      exact hcount1
    have hunsetE_take : unsetE ∈ (insertSorted seLt ripeE (insertSorted seLt
        unsetE w.schedule)).filter p := by
      rw [List.mem_filter]
      refine ⟨?_, by simp [hunsetE, hp]⟩
      exact (mem_insertSorted seLt ripeE unsetE _).mpr
        (Or.inr ((mem_insertSorted seLt unsetE unsetE _).mpr (Or.inl rfl)))
    obtain ⟨t1, t2, hsplit, ht1, ht2⟩ := countP_eq_one_split (resOpK kk)
      _ unsetE hcount1f hunsetE_take (by simp [resOpK, hunsetE, hre])
    rw [hsplit] at hre2
    rw [List.foldl_append, List.foldl_cons] at hre2
    have hres1_count : (insertSorted reLt re w.resolution).countP
        (fun r0 => r0.key == kk) = 1 := by
      rw [countP_insertSorted_pos reLt _ re _ (by simp [hre]) (by
        intro hc
        have := hfr re hc
        simp [hre] at this)]
      rw [List.countP_eq_zero.mpr (by
        intro r0 hr0
        simp [hfr r0 hr0])]
    have hres1_mem : re ∈ insertSorted reLt re w.resolution :=
      (mem_insertSorted reLt re re _).mpr (Or.inl rfl)
    obtain ⟨ht1c, ht1m⟩ := foldl_applyOp_preserves kk t1
      (insertSorted reLt re w.resolution) ht1
    have hmid_count : (t1.foldl applyOp (insertSorted reLt re
        w.resolution)).countP (fun r0 => r0.key == kk) = 1 := by
      rw [ht1c, hres1_count]
    have hmid_mem : re ∈ t1.foldl applyOp (insertSorted reLt re w.resolution) :=
      ht1m re (by simp [hre]) hres1_mem
    have happ : applyOp (t1.foldl applyOp (insertSorted reLt re w.resolution))
        unsetE = removeFirst re (t1.foldl applyOp (insertSorted reLt re
          w.resolution)) := by
      simp [applyOp, hunsetE]
    rw [happ] at hre2
    have hafter : (removeFirst re (t1.foldl applyOp (insertSorted reLt re
        w.resolution))).countP (fun r0 => r0.key == kk) = 0 := by
      have := countP_removeFirst_pos (fun r0 => r0.key == kk) re _
        (by simp [hre]) hmid_mem
      omega
    obtain ⟨ht2c, _⟩ := foldl_applyOp_preserves kk t2 _ ht2
    have hfinal : (t2.foldl applyOp (removeFirst re (t1.foldl applyOp
        (insertSorted reLt re w.resolution)))).countP
        (fun r0 => r0.key == kk) = 0 := by
      rw [ht2c, hafter]
    have := List.countP_eq_zero.mp hfinal re2 hre2
    simpa using this

/-- Witness for C6 (amended) at a concrete wheel: resolution head has
granularity 3, schedule head is at instant 7; from `now = 2` the next sleep is
`min (2+3) 7 = 5`. -/
theorem next_sleep_until_characterization_witness :
    ReceivesAndDelays.next_sleep_until
      ⟨[⟨7, .ripe (.delay 0)⟩], [⟨3, .delay 0⟩], []⟩ 2 = some 5 := by
  have h := (next_sleep_until_characterization
    ⟨[⟨7, .ripe (.delay 0)⟩], [⟨3, .delay 0⟩], []⟩ 2).2
    ⟨3, .delay 0⟩ ⟨7, .ripe (.delay 0)⟩ rfl rfl
  simpa using h

/-- Witness for C9: a delay of 7 ns with step 2 ns for key 3, inserted into
the empty wheel at instant 10, ripens exactly once at instant 17 and leaves no
trace in the wheel. -/
theorem insert_delay_select_ripe_once_witness :
    ((ReceivesAndDelays.empty.insert_delay 10 3
        ⟨7, 2⟩).select_ripe_keys 17).1.count (KeyDelayOrRecv.delay 3) = 1 ∧
    (∀ se ∈ ((ReceivesAndDelays.empty.insert_delay 10 3
        ⟨7, 2⟩).select_ripe_keys 17).2.schedule,
      seMentions (KeyDelayOrRecv.delay 3) se = false) ∧
    (∀ re ∈ ((ReceivesAndDelays.empty.insert_delay 10 3
        ⟨7, 2⟩).select_ripe_keys 17).2.resolution,
      (re.key == KeyDelayOrRecv.delay 3) = false) :=
  insert_delay_select_ripe_once ReceivesAndDelays.empty 10 3 ⟨7, 2⟩
    (by simp [ReceivesAndDelays.empty])
    (by simp [ReceivesAndDelays.empty])
    (by simp [ReceivesAndDelays.empty])

/-! ## 4.6 Interpreter (src/src/execution_graph/runner.rs), Bind class

`EventKey` (src/src/execution_graph.rs): a tagged slotmap index; slotmap keys
are modelled as `Nat`. -/

inductive EventKey where
  | bind (k : Nat)
  | send (k : Nat)
  | recv (k : Nat)
  | respond (k : Nat)
  | delay (k : Nat)
  deriving DecidableEq, Repr

/-- `RunError` (src/src/execution_graph/runner.rs:22). -/
inductive RunError where
  | eventIsNotReady
  | dummyName (n : String)
  | actorName (n : String)
  | unboundName (n : String)
  | noRequest
  | marshalling (e : String)
  deriving DecidableEq, Repr

/-- The old-generation `scenario::Msg` used by the `execution_graph` runner
(its defining module is not under src/; the variants `Exact`, `Bind` and
`Injected` are taken from their uses in runner.rs). -/
inductive Msg where
  | exact (v : Value)
  | bind (template : Value)
  | injected (key : String)
  deriving DecidableEq, Repr

/-- `VertexBind` (src/src/execution_graph.rs:191). -/
structure VertexBind where
  dst : Value
  src : Msg

/-- The parts of `ExecutionGraph.vertices` the Bind class reads: the bind
vertex table (total over valid keys) and the priority map. -/
structure BindGraph where
  binds : Nat → VertexBind
  priority : EventKey → Option Nat

/-- The runner state the Bind class touches: the ready set (a `BTreeSet`,
modelled as a duplicate-free list) and the flat variable bindings. -/
structure BindState where
  ready : List EventKey
  bindings : List (String × Value)

/-- Comparison of optional priorities (`Option<usize>`: `None < Some _`),
used by `sort_by_key`. -/
def optNatLe : Option Nat → Option Nat → Bool
  | none, _ => true
  | some _, none => false
  | some a, some b => a ≤ b

/-- Insertion sort by priority, as `Vec::sort_by_key` (stable). -/
def sortInsert {α : Type} (le : α → α → Bool) (x : α) : List α → List α
  | [] => [x]
  | y :: ys => if le x y then x :: y :: ys else y :: sortInsert le x ys

def sortByKey {α : Type} (le : α → α → Bool) : List α → List α
  | [] => []
  | x :: xs => sortInsert le x (sortByKey le xs)

/-- The collection and priority sort of the ready Bind keys
(runner.rs:267-281). -/
def readyBindKeysSorted (g : BindGraph) (s : BindState) : List Nat :=
  sortByKey (fun a b => optNatLe (g.priority (.bind a)) (g.priority (.bind b)))
    (s.ready.filterMap fun e =>
      match e with
      | .bind k => some k
      | _ => none)

/-- Modelled from the spec: `messages::bind_to_pattern` (module
src/src/messages.rs, not under src/) unifies a value against a pattern,
staging discovered bindings into an initially empty key/value map; the rules
are the spec's unification rules of §3.2.  `specUnify` implements exactly
those rules. -/
def messagesBindToPattern (value pattern : Value) :
    Bool × List (String × Value) :=
  specUnify value pattern []

/-- Modelled from the spec: `messages::render` (module src/src/messages.rs,
not under src/) substitutes bound variables into a template, failing on `$_`
and on unbound names — the rendering of §3.2, which `render`
(src/src/bindings.rs:160) implements. -/
def messagesRender (template : Value) (bindings : List (String × Value)) :
    Except String Value :=
  render template bindings

/-- The source-value computation of one Bind firing (runner.rs:291-300). -/
def bindSrcValue (vb : VertexBind) (bindings : List (String × Value)) :
    Except RunError Value :=
  match vb.src with
  | .exact value => .ok value
  | .bind template =>
      match messagesRender template bindings with
      | .ok v => .ok v
      | .error e => .error (.marshalling e)
  | .injected _ =>
      .error (.marshalling "cant use injected values in bind-nodes")

/-- The unification and staged-bindings consistency check of one Bind firing
(runner.rs:302-321): unify into a fresh map, then reject any staged binding
that contradicts an already-committed one.  Returns the staged bindings on
success. -/
def tryBind (vb : VertexBind) (value : Value)
    (bindings : List (String × Value)) : Option (List (String × Value)) :=
  let (ok, kv) := messagesBindToPattern value vb.dst
  if !ok then none
  else if kv.all (fun p =>
      match alookup bindings p.1 with
      | some v0 => p.2 == v0
      | none => true) then some kv
  else none

/-- The loop body of the Bind class of `Runner::fire_event`
(runner.rs:285-329): remove the key from the ready set, compute the source
value (a render failure aborts the whole call), attempt the bind; on success
commit the staged bindings and record the firing, on failure move on. -/
def fireBindGo (g : BindGraph) : List Nat → BindState → List EventKey →
    Except RunError (List EventKey × BindState)
  | [], s, fired => .ok (fired, s)
  | k :: rest, s, fired =>
      let vb := g.binds k
      match bindSrcValue vb s.bindings with
      | .error e => .error e
      | .ok value =>
          match tryBind vb value s.bindings with
          | none =>
              fireBindGo g rest
                { s with ready := removeFirst (EventKey.bind k) s.ready } fired
          | some kv =>
              fireBindGo g rest
                { ready := removeFirst (EventKey.bind k) s.ready,
                  bindings :=
                    kv.foldl (fun b p => ainsert b p.1 p.2) s.bindings }
                (fired ++ [EventKey.bind k])

/-- `Runner::fire_event(ReadyEventKey::Bind)` (runner.rs:266-330): fire every
ready Bind key in ascending definition-order priority. -/
def fireBindClass (g : BindGraph) (s : BindState) :
    Except RunError (List EventKey × BindState) :=
  fireBindGo g (readyBindKeysSorted g s) s []

theorem not_mem_removeFirst_self {α : Type} [DecidableEq α] (x : α)
    (l : List α) (h : l.Nodup) : x ∉ removeFirst x l := by
  induction l with
  | nil => simp [removeFirst]
  | cons y ys ih =>
      rw [List.nodup_cons] at h
      by_cases hxy : x = y
      · subst hxy
        rw [removeFirst, if_pos rfl]
        exact h.1
      · rw [removeFirst, if_neg hxy]
        intro hc
        rcases List.mem_cons.mp hc with hc | hc
        · exact hxy hc
        · exact (ih h.2) hc

theorem mem_removeFirst {α : Type} [DecidableEq α] (x z : α) (l : List α)
    (h : z ∈ removeFirst x l) : z ∈ l := by
  induction l with
  | nil => simp [removeFirst] at h
  | cons y ys ih =>
      by_cases hxy : x = y
      · subst hxy
        rw [removeFirst, if_pos rfl] at h
        exact List.mem_cons_of_mem _ h
      · rw [removeFirst, if_neg hxy] at h
        rcases List.mem_cons.mp h with hc | hc
        · exact hc ▸ List.mem_cons_self z _
        · exact List.mem_cons_of_mem y (ih hc)

theorem nodup_removeFirst {α : Type} [DecidableEq α] (x : α) (l : List α)
    (h : l.Nodup) : (removeFirst x l).Nodup := by
  induction l with
  | nil => simp [removeFirst]
  | cons y ys ih =>
      rw [List.nodup_cons] at h
      by_cases hxy : x = y
      · subst hxy
        rw [removeFirst, if_pos rfl]
        exact h.2
      · rw [removeFirst, if_neg hxy]
        rw [List.nodup_cons]
        exact ⟨fun hc => h.1 (mem_removeFirst x y ys hc), ih h.2⟩

/-- The Bind-class loop never fires a key outside its worklist and never adds
to the ready set. -/
theorem fireBindGo_frame (g : BindGraph) :
    ∀ (ks : List Nat) (s : BindState) (fired : List EventKey) (out),
    fireBindGo g ks s fired = .ok out →
    (∀ ek ∈ out.1, ek ∈ fired ∨ ∃ k ∈ ks, ek = EventKey.bind k) ∧
    (∀ ek ∈ out.2.ready, ek ∈ s.ready) := by
  intro ks
  induction ks with
  | nil =>
      intro s fired out h
      rw [fireBindGo] at h
      cases h
      exact ⟨fun ek hek => Or.inl hek, fun ek hek => hek⟩
  | cons k rest ih =>
      intro s fired out h
      rw [fireBindGo] at h
      cases hv : bindSrcValue (g.binds k) s.bindings with
      | error e => rw [hv] at h; exact absurd h (by simp)
      | ok value =>
          rw [hv] at h
          simp only at h
          cases ht : tryBind (g.binds k) value s.bindings with
          | none =>
              rw [ht] at h
              obtain ⟨h1, h2⟩ := ih _ _ _ h
              refine ⟨?_, ?_⟩
              · intro ek hek
                rcases h1 ek hek with hc | ⟨k2, hk2, hek2⟩
                · exact Or.inl hc
                · exact Or.inr ⟨k2, List.mem_cons_of_mem k hk2, hek2⟩
              · intro ek hek
                exact mem_removeFirst _ _ _ (h2 ek hek)
          | some kv =>
              rw [ht] at h
              obtain ⟨h1, h2⟩ := ih _ _ _ h
              refine ⟨?_, ?_⟩
              · intro ek hek
                rcases h1 ek hek with hc | ⟨k2, hk2, hek2⟩
                · rcases List.mem_append.mp hc with hc | hc
                  · exact Or.inl hc
                  · simp at hc
                    exact Or.inr ⟨k, List.mem_cons_self k rest, hc⟩
                · exact Or.inr ⟨k2, List.mem_cons_of_mem k hk2, hek2⟩
              · intro ek hek
                exact mem_removeFirst _ _ _ (h2 ek hek)

/-- Claim C2, amended: when a ready Bind key's turn is taken (it is at the
head of the remaining priority-ordered worklist), its source renders
successfully, and unification of the rendered value against `dst` fails, the
Bind does not fire — and its key is REMOVED from the ready set (it is not
re-attempted), contrary to the claim as stated.  `fireBindGo` is the Bind
class loop; `fired` accumulates the already-fired keys of this sweep. -/
theorem bind_unify_failure_removed_from_ready (g : BindGraph) (k : Nat)
    (rest : List Nat) (s : BindState) (fired : List EventKey) (out)
    (hnd : s.ready.Nodup)
    (hkrest : k ∉ rest)
    (hkfired : EventKey.bind k ∉ fired)
    (value : Value)
    (hrender : bindSrcValue (g.binds k) s.bindings = .ok value)
    (hfail : tryBind (g.binds k) value s.bindings = none)
    (h : fireBindGo g (k :: rest) s fired = .ok out) :
    EventKey.bind k ∉ out.1 ∧ EventKey.bind k ∉ out.2.ready := by
  rw [fireBindGo, hrender] at h
  simp only at h
  rw [hfail] at h
  obtain ⟨h1, h2⟩ := fireBindGo_frame g rest _ fired out h
  constructor
  · intro hc
    rcases h1 _ hc with hc2 | ⟨k2, hk2, hek2⟩
    · exact hkfired hc2
    · have : k = k2 := by injection hek2
      exact hkrest (this ▸ hk2)
  · intro hc
    have := h2 _ hc
    simp only at this
    exact not_mem_removeFirst_self (EventKey.bind k) s.ready hnd this

/-- Witness for the amended C2 at a concrete graph: one ready bind with
literal source `2` and pattern `1`; unification fails, nothing fires, and the
ready set is left empty. -/
theorem bind_unify_failure_removed_from_ready_witness :
    (fireBindGo
      ⟨fun _ => ⟨Value.num 1, Msg.exact (Value.num 2)⟩, fun _ => some 0⟩
      [0] ⟨[EventKey.bind 0], []⟩ [] = .ok ([], ⟨[], []⟩)) ∧
    (EventKey.bind 0 ∉ ([] : List EventKey) ∧
      EventKey.bind 0 ∉ ([] : List EventKey)) := by
  constructor
  · simp [fireBindGo, bindSrcValue, tryBind, messagesBindToPattern, specUnify,
      removeFirst]
  · exact bind_unify_failure_removed_from_ready
      ⟨fun _ => ⟨Value.num 1, Msg.exact (Value.num 2)⟩, fun _ => some 0⟩
      0 [] ⟨[EventKey.bind 0], []⟩ [] ([], ⟨[], []⟩)
      (by simp) (by simp) (by simp) (Value.num 2)
      (by simp [bindSrcValue])
      (by simp [tryBind, messagesBindToPattern, specUnify])
      (by simp [fireBindGo, bindSrcValue, tryBind, messagesBindToPattern,
        specUnify, removeFirst])

/-- Counterexample to Claim C2 as stated: in the same concrete graph — a
single ready Bind whose source renders to `2` and whose pattern is the
literal `1` — the Bind-class step fires nothing, and the Bind key does NOT
remain in the ready set: the resulting ready set is empty. -/
theorem bind_unify_failure_not_kept_ready :
    ∃ out, fireBindClass
      ⟨fun _ => ⟨Value.num 1, Msg.exact (Value.num 2)⟩, fun _ => some 0⟩
      ⟨[EventKey.bind 0], []⟩ = .ok out ∧
      out.1 = [] ∧ out.2.ready = [] := by
  refine ⟨([], ⟨[], []⟩), ?_, rfl, rfl⟩
  simp [fireBindClass, readyBindKeysSorted, sortByKey, sortInsert, fireBindGo,
    bindSrcValue, tryBind, messagesBindToPattern, specUnify, removeFirst]

/-! ## 4.6 Interpreter (src/src/execution_graph/runner.rs), RecvOrDelay class -/

/-- Association-list lookup for `Nat` keys. -/
def alookupNat {β : Type} : List (Nat × β) → Nat → Option β
  | [], _ => none
  | (k, v) :: rest, key => if k = key then some v else alookupNat rest key

/-- An observed envelope: its sender address and an opaque identity standing
for the `elfo::Envelope` payload (which only the marshalling oracle
inspects). -/
structure Envelope where
  sender : Nat
  id : Nat
  deriving DecidableEq, Repr

/-- `VertexRecv` (src/src/execution_graph.rs:175). -/
structure VertexRecv where
  match_type : String
  match_from : Option String
  match_to : Option String
  match_message : Value

/-- `Actors` (runner.rs:95): name/address tables plus the excluded set. -/
structure Actors where
  by_name : List (String × Nat)
  by_addr : List (Nat × String)
  excluded : List String
  deriving Repr

/-- `Dummies` (runner.rs:103): like `Actors`, with a proxy index per entry. -/
structure Dummies where
  by_name : List (String × (Nat × Nat))
  by_addr : List (Nat × (String × Nat))
  excluded : List String
  deriving Repr

/-- `Actors::can_bind` (runner.rs:621). -/
def Actors.can_bind (a : Actors) (actor_name : String) (addr : Nat) : Bool :=
  match a.excluded.contains actor_name, alookup a.by_name actor_name,
      alookupNat a.by_addr addr with
  | true, _, _ => false
  | false, some _, none => false
  | false, none, some _ => false
  | false, none, none => true
  | false, some same_addr, some same_name =>
      same_name == actor_name && same_addr == addr

/-- `Dummies::can_bind` (runner.rs:684). -/
def Dummies.can_bind (d : Dummies) (actor_name : String) (addr : Nat) : Bool :=
  match d.excluded.contains actor_name, alookup d.by_name actor_name,
      alookupNat d.by_addr addr with
  | true, _, _ => false
  | false, some _, none => false
  | false, none, some _ => false
  | false, none, none => true
  | false, some same_addr, some same_name =>
      same_name.1 == actor_name && same_addr.1 == addr

/-- `Dummies::exclude` (runner.rs:736). -/
def Dummies.exclude (d : Dummies) (actor_name : String) :
    Except RunError Dummies :=
  if (alookup d.by_name actor_name).isSome then
    .error (.dummyName actor_name)
  else .ok { d with excluded := actor_name :: d.excluded }

/-- `Actors::bind` (runner.rs:635). -/
def Actors.bind (a : Actors) (actor_name : String) (addr : Nat)
    (dummies : Dummies) : Except RunError (Bool × Actors × Dummies) :=
  if a.excluded.contains actor_name then .error (.dummyName actor_name)
  else
    match alookup a.by_name actor_name, alookupNat a.by_addr addr with
    | some _, none => .ok (false, a, dummies)
    | none, some _ => .ok (false, a, dummies)
    | none, none =>
        match dummies.exclude actor_name with
        | .error e => .error e
        | .ok dummies2 =>
            .ok (true,
              { a with
                by_name := ainsert a.by_name actor_name addr,
                by_addr := ainsertNat a.by_addr addr actor_name },
              dummies2)
    | some existing_addr, some _ => .ok (existing_addr == addr, a, dummies)

/-- The recv side of the graph: the recv vertex table and the priority map. -/
structure RecvGraph where
  recvs : Nat → VertexRecv
  priority : EventKey → Option Nat

/-- The marshalling oracle: `Marshaller::bind` keyed by the fully qualified
type name (§6.2 — the registry is an external collaborator). -/
def MarshallerBind : Type :=
  String → Envelope → Value → Option (List (String × Value))

/-- The runner state the RecvOrDelay class touches. -/
structure RecvState where
  ready : List EventKey
  bindings : List (String × Value)
  envelopes : List (Nat × Envelope)
  actors : Actors
  dummies : Dummies

/-- The collection and priority sort of the ready Recv keys
(runner.rs:452-466). -/
def readyRecvKeysSorted (g : RecvGraph) (s : RecvState) : List Nat :=
  sortByKey (fun a b => optNatLe (g.priority (.recv a)) (g.priority (.recv b)))
    (s.ready.filterMap fun e =>
      match e with
      | .recv k => some k
      | _ => none)

/-- One candidate test of the inner matching loop (runner.rs:483-567): the
`from` constraint, the `to` constraint, the marshaller unification, the
staged-bindings consistency check; on success the bindings are committed, the
learned actor binding registered, the envelope stashed under the recv key,
and the key removed from the ready set.  `.ok none` means the candidate was
rejected and the loop continues. -/
def tryRecvCandidate (g : RecvGraph) (mbind : MarshallerBind) (st : RecvState)
    (sent_from : Nat) (sent_to_opt : Option Nat) (env : Envelope)
    (recv_key : Nat) : Except RunError (Option RecvState) :=
  let vr := g.recvs recv_key
  let from_ok :=
    match vr.match_from with
    | some from_name => st.actors.can_bind from_name sent_from
    | none => true
  if !from_ok then .ok none
  else
    let to_ok :=
      match vr.match_to, sent_to_opt with
      | some bind_to_name, some sent_to_address =>
          st.dummies.can_bind bind_to_name sent_to_address
      | some _, none => false
      | _, _ => true
    if !to_ok then .ok none
    else
      match mbind vr.match_type env vr.match_message with
      | none => .ok none
      | some kv =>
          if kv.all (fun p =>
              match alookup st.bindings p.1 with
              | some v0 => p.2 == v0
              | none => true) then
            let bindings2 := kv.foldl (fun b p => ainsert b p.1 p.2) st.bindings
            match vr.match_from with
            | some from_name =>
                match st.actors.bind from_name sent_from st.dummies with
                | .error e => .error e
                | .ok (_, actors2, dummies2) =>
                    .ok (some { st with
                      bindings := bindings2,
                      actors := actors2,
                      dummies := dummies2,
                      envelopes := ainsertNat st.envelopes recv_key env,
                      ready := removeFirst (EventKey.recv recv_key) st.ready })
            | none =>
                .ok (some { st with
                  bindings := bindings2,
                  envelopes := ainsertNat st.envelopes recv_key env,
                  ready := removeFirst (EventKey.recv recv_key) st.ready })
          else .ok none

/-- The inner candidate loop (runner.rs:483-568): first matching candidate
wins, then `break`. -/
def findRecvMatch (g : RecvGraph) (mbind : MarshallerBind) (st : RecvState)
    (sent_from : Nat) (sent_to_opt : Option Nat) (env : Envelope) :
    List Nat → Except RunError (Option (Nat × RecvState))
  | [] => .ok none
  | k :: rest =>
      match tryRecvCandidate g mbind st sent_from sent_to_opt env k with
      | .error e => .error e
      | .ok (some st2) => .ok (some (k, st2))
      | .ok none => findRecvMatch g mbind st sent_from sent_to_opt env rest

/-- The proxy loop of the RecvOrDelay class (runner.rs:470-569): each proxy is
`try_recv`ed once — the head of its queue is consumed whether or not any
candidate matches — and the envelope is matched against the (fixed) candidate
list.  Proxies are pairs (address, queue); the proxy index is the position
(index 0 is the root proxy, whose receipts count as routed). -/
def recvSweepGo (g : RecvGraph) (mbind : MarshallerBind) (cands : List Nat) :
    List (Nat × List Envelope) → Nat → RecvState → List EventKey →
    Except RunError (List EventKey × RecvState × List (Nat × List Envelope))
  | [], _, st, fired => .ok (fired, st, [])
  | (addr, queue) :: rest, idx, st, fired =>
      match queue with
      | [] =>
          match recvSweepGo g mbind cands rest (idx + 1) st fired with
          | .error e => .error e
          | .ok (fired2, st2, rest2) => .ok (fired2, st2, (addr, []) :: rest2)
      | env :: qrest =>
          let sent_to_opt := if idx ≠ 0 then some addr else none
          match findRecvMatch g mbind st env.sender sent_to_opt env cands with
          | .error e => .error e
          | .ok none =>
              match recvSweepGo g mbind cands rest (idx + 1) st fired with
              | .error e => .error e
              | .ok (fired2, st2, rest2) =>
                  .ok (fired2, st2, (addr, qrest) :: rest2)
          | .ok (some (k, st2)) =>
              match recvSweepGo g mbind cands rest (idx + 1) st2
                  (fired ++ [EventKey.recv k]) with
              | .error e => .error e
              | .ok (fired2, st3, rest2) =>
                  .ok (fired2, st3, (addr, qrest) :: rest2)

/-- The flattened envelope identities of a proxy list. -/
def flatEnvIds (proxies : List (Nat × List Envelope)) : List Nat :=
  proxies.flatMap (fun p => p.2.map (fun e => e.id))

theorem optNatLe_trans : ∀ a b c, optNatLe a b = true → optNatLe b c = true →
    optNatLe a c = true := by
  intro a b c
  cases a <;> cases b <;> cases c <;> simp [optNatLe] <;> omega

theorem optNatLe_total : ∀ a b, optNatLe a b = true ∨ optNatLe b a = true := by
  intro a b
  cases a <;> cases b <;> simp [optNatLe] <;> omega

theorem mem_sortInsert {α : Type} (le : α → α → Bool) (x z : α) (l : List α) :
    z ∈ sortInsert le x l ↔ z = x ∨ z ∈ l := by
  induction l with
  | nil => simp [sortInsert]
  | cons y ys ih =>
      by_cases hle : le x y = true
      · simp [sortInsert, hle]
      · simp [sortInsert, hle, ih]
        tauto

theorem sortInsert_pairwise {α : Type} (le : α → α → Bool)
    (htr : ∀ a b c, le a b = true → le b c = true → le a c = true)
    (hto : ∀ a b, le a b = true ∨ le b a = true)
    (x : α) (l : List α) (h : l.Pairwise (fun a b => le a b = true)) :
    (sortInsert le x l).Pairwise (fun a b => le a b = true) := by
  induction l with
  | nil => simp [sortInsert]
  | cons y ys ih =>
      rw [List.pairwise_cons] at h
      obtain ⟨hy, hys⟩ := h
      by_cases hle : le x y = true
      · rw [sortInsert, if_pos hle]
        refine List.pairwise_cons.mpr ⟨?_, List.pairwise_cons.mpr ⟨hy, hys⟩⟩
        intro z hz
        rcases List.mem_cons.mp hz with hz | hz
        · subst hz; exact hle
        · exact htr _ _ _ hle (hy z hz)
      · rw [sortInsert, if_neg hle]
        refine List.pairwise_cons.mpr ⟨?_, ih hys⟩
        intro z hz
        rcases (mem_sortInsert le x z ys).mp hz with hz | hz
        · subst hz
          rcases hto y z with hc | hc
          · exact hc
          · exact absurd hc hle
        · exact hy z hz

theorem sortByKey_pairwise {α : Type} (le : α → α → Bool)
    (htr : ∀ a b c, le a b = true → le b c = true → le a c = true)
    (hto : ∀ a b, le a b = true ∨ le b a = true) :
    ∀ l : List α, (sortByKey le l).Pairwise (fun a b => le a b = true) := by
  intro l
  induction l with
  | nil => simp [sortByKey]
  | cons x xs ih =>
      rw [sortByKey]
      exact sortInsert_pairwise le htr hto x _ ih

/-- Inner loop: the first matching candidate (in list order) wins; every
candidate before it was rejected; if none matched, all were rejected. -/
theorem findRecvMatch_first (g : RecvGraph) (mbind : MarshallerBind)
    (st : RecvState) (sent_from : Nat) (sent_to_opt : Option Nat)
    (env : Envelope) :
    ∀ (cands : List Nat) (out : Option (Nat × RecvState)),
    findRecvMatch g mbind st sent_from sent_to_opt env cands = .ok out →
    (out = none → ∀ k ∈ cands,
      tryRecvCandidate g mbind st sent_from sent_to_opt env k = .ok none) ∧
    (∀ k st2, out = some (k, st2) →
      ∃ pre post, cands = pre ++ k :: post ∧
        (∀ k2 ∈ pre,
          tryRecvCandidate g mbind st sent_from sent_to_opt env k2 = .ok none) ∧
        tryRecvCandidate g mbind st sent_from sent_to_opt env k =
          .ok (some st2)) := by
  intro cands
  induction cands with
  | nil =>
      intro out h
      rw [findRecvMatch] at h
      cases h
      exact ⟨fun _ k hk => absurd hk (by simp), fun k st2 hc => by cases hc⟩
  | cons k0 rest ih =>
      intro out h
      rw [findRecvMatch] at h
      cases ht : tryRecvCandidate g mbind st sent_from sent_to_opt env k0 with
      | error e => rw [ht] at h; exact absurd h (by simp)
      | ok o =>
          rw [ht] at h
          cases o with
          | some st2 =>
              simp only at h
              cases h
              constructor
              · intro hc
                exact absurd hc (by simp)
              · intro k st2b hc
                injection hc with hc2
                injection hc2 with hk hst
                subst hk
                subst hst
                refine ⟨[], rest, rfl, ?_, ht⟩
                intro k2 hk2
                exact absurd hk2 (by simp)
          | none =>
              simp only at h
              obtain ⟨h1, h2⟩ := ih out h
              refine ⟨?_, ?_⟩
              · intro hnone k hk
                rcases List.mem_cons.mp hk with hk | hk
                · subst hk; exact ht
                · exact h1 hnone k hk
              · intro k st2 hsome
                obtain ⟨pre, post, hsplit, hpre, hmatch⟩ := h2 k st2 hsome
                refine ⟨k0 :: pre, post, by simp [hsplit], ?_, hmatch⟩
                intro k2 hk2
                rcases List.mem_cons.mp hk2 with hk2 | hk2
                · subst hk2; exact ht
                · exact hpre k2 hk2

/-- Proxy loop: every proxy queue loses exactly its head envelope, whether or
not anything matched — a tested envelope is never requeued. -/
theorem recvSweepGo_queues (g : RecvGraph) (mbind : MarshallerBind)
    (cands : List Nat) :
    ∀ (proxies : List (Nat × List Envelope)) (idx : Nat) (st : RecvState)
      (fired : List EventKey) out,
    recvSweepGo g mbind cands proxies idx st fired = .ok out →
    out.2.2 = proxies.map (fun p => (p.1, p.2.tail)) := by
  intro proxies
  induction proxies with
  | nil =>
      intro idx st fired out h
      rw [recvSweepGo] at h
      cases h
      rfl
  | cons p rest ih =>
      intro idx st fired out h
      obtain ⟨addr, queue⟩ := p
      rw [recvSweepGo.eq_def] at h
      simp only at h
      cases queue with
      | nil =>
          simp only at h
          cases hrec : recvSweepGo g mbind cands rest (idx + 1) st fired with
          | error e => rw [hrec] at h; exact absurd h (by simp)
          | ok out2 =>
              obtain ⟨fired2, st2, rest2⟩ := out2
              rw [hrec] at h
              simp only at h
              cases h
              have h4 : rest2 = rest.map (fun p => (p.1, p.2.tail)) :=
                ih _ _ _ _ hrec
              simp [h4]
      | cons env qrest =>
          simp only at h
          cases hf : findRecvMatch g mbind st env.sender
              (if idx ≠ 0 then some addr else none) env cands with
          | error e => rw [hf] at h; exact absurd h (by simp)
          | ok o =>
              rw [hf] at h
              cases o with
              | none =>
                  simp only at h
                  cases hrec : recvSweepGo g mbind cands rest (idx + 1) st
                      fired with
                  | error e => rw [hrec] at h; exact absurd h (by simp)
                  | ok out2 =>
                      obtain ⟨fired2, st2, rest2⟩ := out2
                      rw [hrec] at h
                      simp only at h
                      cases h
                      have h4 : rest2 = rest.map (fun p => (p.1, p.2.tail)) :=
                        ih _ _ _ _ hrec
                      simp [h4]
              | some pr =>
                  obtain ⟨k, st2⟩ := pr
                  simp only at h
                  cases hrec : recvSweepGo g mbind cands rest (idx + 1) st2
                      (fired ++ [EventKey.recv k]) with
                  | error e => rw [hrec] at h; exact absurd h (by simp)
                  | ok out2 =>
                      obtain ⟨fired2, st3, rest2⟩ := out2
                      rw [hrec] at h
                      simp only at h
                      cases h
                      have h4 : rest2 = rest.map (fun p => (p.1, p.2.tail)) :=
                        ih _ _ _ _ hrec
                      simp [h4]

theorem flatEnvIds_cons (p : Nat × List Envelope)
    (rest : List (Nat × List Envelope)) :
    flatEnvIds (p :: rest) = p.2.map (fun e => e.id) ++ flatEnvIds rest := by
  simp [flatEnvIds]

theorem flatEnvIds_tails_subset :
    ∀ (proxies : List (Nat × List Envelope)) (x : Nat),
    x ∈ flatEnvIds (proxies.map (fun q => (q.1, q.2.tail))) →
    x ∈ flatEnvIds proxies := by
  intro proxies
  induction proxies with
  | nil => intro x h; simpa [flatEnvIds] using h
  | cons p rest ih =>
      intro x h
      rw [List.map_cons, flatEnvIds_cons] at h
      rw [flatEnvIds_cons]
      rcases List.mem_append.mp h with h | h
      · refine List.mem_append_left _ ?_
        obtain ⟨e, he, hx⟩ := List.mem_map.mp h
        exact List.mem_map.mpr ⟨e, List.mem_of_mem_tail he, hx⟩
      · exact List.mem_append_right _ (ih x h)

/-- A consumed (head) envelope's identity never appears in the post-sweep
queues: once tested, an envelope is gone for all later steps. -/
theorem head_id_not_in_tails :
    ∀ (proxies : List (Nat × List Envelope)),
    (flatEnvIds proxies).Nodup →
    ∀ p ∈ proxies, ∀ e : Envelope, p.2.head? = some e →
    e.id ∉ flatEnvIds (proxies.map (fun q => (q.1, q.2.tail))) := by
  intro proxies
  induction proxies with
  | nil => intro _ p hp; simp at hp
  | cons q rest ih =>
      intro hnd p hp e he
      rw [flatEnvIds_cons] at hnd
      rw [List.nodup_append] at hnd
      obtain ⟨hn1, hn2, hn3⟩ := hnd
      rw [List.map_cons, flatEnvIds_cons]
      intro hc
      rcases List.mem_cons.mp hp with hp | hp
      · subst hp
        cases hq : p.2 with
        | nil => rw [hq] at he; simp at he
        | cons e0 qt =>
            rw [hq] at he
            simp at he
            subst he
            rcases List.mem_append.mp hc with hc | hc
            · rw [hq] at hn1
              simp only [List.map_cons] at hn1
              rw [List.nodup_cons] at hn1
              exact hn1.1 (by simpa [hq] using hc)
            · have h3 : e0.id ∈ flatEnvIds rest :=
                flatEnvIds_tails_subset rest _ hc
              exact hn3 (by simp [hq]) h3
      · have hein : e.id ∈ flatEnvIds rest := by
          have hmem : e ∈ p.2 := by
            cases hq : p.2 with
            | nil => rw [hq] at he; simp at he
            | cons e0 qt => rw [hq] at he; simp at he; simp [hq, he]
          rw [flatEnvIds]
          exact List.mem_flatMap.mpr ⟨p, hp, List.mem_map.mpr ⟨e, hmem, rfl⟩⟩
        rcases List.mem_append.mp hc with hc | hc
        · obtain ⟨e2, he2, hx⟩ := List.mem_map.mp hc
          exact hn3 (List.mem_map.mpr
            ⟨e2, List.mem_of_mem_tail he2, hx⟩) hein
        · exact (ih hn2 p hp e he) hc

/-- C4: In every RecvOrDelay step, each received envelope is consumed by at
most one Recv event: the ready Recv candidates are sorted in ascending
definition-order priority; for each envelope the first candidate that matches
(per `tryRecvCandidate`: sender/recipient bindable and the payload matcher
unified consistently) wins, every earlier candidate having been rejected;
every proxy queue loses exactly its tested head envelope — matched or not —
so (the envelope identities being distinct) an envelope tested in this step
never reappears in the queues any later step will read. -/
theorem recv_envelope_consumed_at_most_once
    (g : RecvGraph) (mbind : MarshallerBind) (st0 : RecvState)
    (proxies : List (Nat × List Envelope)) (idx : Nat)
    (fired0 fired : List EventKey) (st2 : RecvState)
    (proxies2 : List (Nat × List Envelope))
    (hrun : recvSweepGo g mbind (readyRecvKeysSorted g st0) proxies idx st0
      fired0 = .ok (fired, st2, proxies2))
    (hnd : (flatEnvIds proxies).Nodup) :
    (readyRecvKeysSorted g st0).Pairwise (fun a b =>
      optNatLe (g.priority (.recv a)) (g.priority (.recv b)) = true) ∧
    (∀ (st : RecvState) (sf : Nat) (sto : Option Nat) (env : Envelope)
        (out : Option (Nat × RecvState)),
      findRecvMatch g mbind st sf sto env (readyRecvKeysSorted g st0) =
        .ok out →
      (out = none → ∀ k ∈ readyRecvKeysSorted g st0,
        tryRecvCandidate g mbind st sf sto env k = .ok none) ∧
      (∀ k stk, out = some (k, stk) →
        ∃ pre post, readyRecvKeysSorted g st0 = pre ++ k :: post ∧
          (∀ k2 ∈ pre, tryRecvCandidate g mbind st sf sto env k2 = .ok none) ∧
          tryRecvCandidate g mbind st sf sto env k = .ok (some stk))) ∧
    proxies2 = proxies.map (fun p => (p.1, p.2.tail)) ∧
    (∀ p ∈ proxies, ∀ e : Envelope, p.2.head? = some e →
      e.id ∉ flatEnvIds proxies2) := by
  have h3 : proxies2 = proxies.map (fun p => (p.1, p.2.tail)) :=
    recvSweepGo_queues g mbind _ proxies idx st0 fired0 _ hrun
  refine ⟨?_, ?_, h3, ?_⟩
  · rw [readyRecvKeysSorted]
    exact sortByKey_pairwise
      (fun a b => optNatLe (g.priority (.recv a)) (g.priority (.recv b)))
      (fun a b c hab hbc => optNatLe_trans _ _ _ hab hbc)
      (fun a b => optNatLe_total _ _) _
  · intro st sf sto env out h
    exact findRecvMatch_first g mbind st sf sto env _ out h
  · intro p hp e he
    rw [h3]
    exact head_id_not_in_tails proxies hnd p hp e he

theorem recv_envelope_consumed_at_most_once_witness :
    recvSweepGo
      { recvs := fun _ => ⟨"T", none, none, Value.str "$m"⟩,
        priority := fun _ => some 0 }
      (fun _ _ _ => some [("$m", Value.num 7)])
      (readyRecvKeysSorted
        { recvs := fun _ => ⟨"T", none, none, Value.str "$m"⟩,
          priority := fun _ => some 0 }
        { ready := [EventKey.recv 1], bindings := [], envelopes := [],
          actors := ⟨[], [], []⟩, dummies := ⟨[], [], []⟩ })
      [(9, [⟨5, 42⟩])] 0
      { ready := [EventKey.recv 1], bindings := [], envelopes := [],
        actors := ⟨[], [], []⟩, dummies := ⟨[], [], []⟩ }
      []
      = .ok ([EventKey.recv 1],
          { ready := [], bindings := [("$m", Value.num 7)],
            envelopes := [(1, ⟨5, 42⟩)],
            actors := ⟨[], [], []⟩, dummies := ⟨[], [], []⟩ },
          [(9, [])]) ∧
    (flatEnvIds [(9, [(⟨5, 42⟩ : Envelope)])]).Nodup ∧
    (42 : Nat) ∉ flatEnvIds [((9 : Nat), ([] : List Envelope))] := by
  have hrun : recvSweepGo
      { recvs := fun _ => ⟨"T", none, none, Value.str "$m"⟩,
        priority := fun _ => some 0 }
      (fun _ _ _ => some [("$m", Value.num 7)])
      (readyRecvKeysSorted
        { recvs := fun _ => ⟨"T", none, none, Value.str "$m"⟩,
          priority := fun _ => some 0 }
        { ready := [EventKey.recv 1], bindings := [], envelopes := [],
          actors := ⟨[], [], []⟩, dummies := ⟨[], [], []⟩ })
      [(9, [⟨5, 42⟩])] 0
      { ready := [EventKey.recv 1], bindings := [], envelopes := [],
        actors := ⟨[], [], []⟩, dummies := ⟨[], [], []⟩ }
      []
      = .ok ([EventKey.recv 1],
          { ready := [], bindings := [("$m", Value.num 7)],
            envelopes := [(1, ⟨5, 42⟩)],
            actors := ⟨[], [], []⟩, dummies := ⟨[], [], []⟩ },
          [(9, [])]) := by
    simp [recvSweepGo, readyRecvKeysSorted, sortByKey, sortInsert,
      findRecvMatch, tryRecvCandidate, alookup, ainsert, ainsertNat,
      removeFirst]
  have hnd : (flatEnvIds [((9 : Nat), [(⟨5, 42⟩ : Envelope)])]).Nodup := by
    simp [flatEnvIds]
  have h := recv_envelope_consumed_at_most_once
    { recvs := fun _ => ⟨"T", none, none, Value.str "$m"⟩,
      priority := fun _ => some 0 }
    (fun _ _ _ => some [("$m", Value.num 7)])
    { ready := [EventKey.recv 1], bindings := [], envelopes := [],
      actors := ⟨[], [], []⟩, dummies := ⟨[], [], []⟩ }
    [(9, [⟨5, 42⟩])] 0 []
    [EventKey.recv 1]
    { ready := [], bindings := [("$m", Value.num 7)],
      envelopes := [(1, ⟨5, 42⟩)],
      actors := ⟨[], [], []⟩, dummies := ⟨[], [], []⟩ }
    [(9, [])] hrun hnd
  have h4 := h.2.2.2 (9, [⟨5, 42⟩]) (by simp) ⟨5, 42⟩ rfl
  exact ⟨hrun, hnd, by simpa using h4⟩

/-- The errors `choose_effective_path` and `sanitize_path` can construct
(sources.rs:192-200, 217, 243-252). -/
inductive ResolveError where
  | invalidPath (p : String)
  | fileNotFound (p : String)
  deriving DecidableEq, Repr

/-- The errors the read-and-parse step can construct (sources.rs:226-228):
`LoadError::Io` and `LoadError::Syntax`, tagged with the effective path. -/
inductive ParseError where
  | ioError (p : String)
  | syntaxError (p : String)
  deriving DecidableEq, Repr

/-- `LoadError` (sources.rs:46-68); filesystem paths are modelled as plain
path strings. -/
inductive LoadError where
  | ioError (p : String)
  | syntaxError (p : String)
  | invalidPath (p : String)
  | fileNotFound (p : String)
  | sourceFileCyclicDependency (p : String)
  | duplicateSubroutine (n : String)
  deriving DecidableEq, Repr

/-- `ResolveError` embedded in `LoadError`. -/
def ResolveError.toLoadError : ResolveError → LoadError
  | .invalidPath p => .invalidPath p
  | .fileNotFound p => .fileNotFound p

/-- `ParseError` embedded in `LoadError`. -/
def ParseError.toLoadError : ParseError → LoadError
  | .ioError p => .ioError p
  | .syntaxError p => .syntaxError p

/-- The slice of `Scenario` the loader reads (scenario.rs: `subs`, each entry
a subs.rs `DefDeclareSub` with a subroutine name and a file name). -/
structure ScenarioSrc where
  subs : List (String × String)
  deriving DecidableEq, Repr

/-- `Source` (sources.rs:81-85): the stored effective path, the parsed
scenario, and the resolved subroutine table (SubroutineName to KeySource). -/
structure Source where
  source_file : String
  scenario : ScenarioSrc
  subs : List (String × Nat)
  deriving DecidableEq, Repr

/-- `Sources` (sources.rs:76-79): the by-effective-path cache and the slotmap
of sources, modelled as association lists with a fresh-key counter for the
slotmap's key allocation. -/
structure Sources where
  by_effective_path : List (String × Nat)
  sources : List (Nat × Source)
  next_key : Nat
  deriving DecidableEq, Repr

/-- The loader's external collaborators, fixed for a run: `resolve` stands
for `sanitize_path` + `choose_effective_path` on (this_dir, this_file)
(sources.rs:191-220, 243-252 — it consults the filesystem and can only fail
with `InvalidPath` or `FileNotFound`); `parse` stands for
`std::fs::read_to_string` + `serde_yaml::from_str` on the effective path
(sources.rs:226-228 — it can only fail with `Io` or `Syntax`); `base_dir`
stands for `Source::base_dir` of the file stored at an effective path
(sources.rs:254-258). -/
structure LoaderWorld where
  resolve : String → String → Except ResolveError String
  parse : String → Except ParseError ScenarioSrc
  base_dir : String → String

/-- A default `Source` for total slotmap lookup (indexing a `SlotMap` with a
key it issued cannot fail in the source; the default is never reached from a
key the map holds). -/
def defaultSource : Source := { source_file := "", scenario := ⟨[]⟩, subs := [] }

/-- Recording a loaded subroutine in the parent entry's `subs` table
(sources.rs:179-182): shared between `loadSubs` and its spec-side mirror. -/
def recordSub (s2 : Sources) (source_key : Nat) (sub_name : String)
    (sub_key : Nat) : Sources :=
  let src := (alookupNat s2.sources source_key).getD defaultSource
  let src2 := { src with subs := ainsert src.subs sub_name sub_key }
  { s2 with sources := ainsertNat s2.sources source_key src2 }

/-- `LoaderContext::read_scenario` (sources.rs:222-240): return the cached
key for an effective path, or parse the file, store it under a fresh key and
cache the path. -/
def readScenario (w : LoaderWorld) (s : Sources) (effective_path : String) :
    Except LoadError (Nat × Sources) :=
  match alookup s.by_effective_path effective_path with
  | some key => .ok (key, s)
  | none =>
      match w.parse effective_path with
      | .error e => .error e.toLoadError
      | .ok scen =>
          .ok (s.next_key,
            { by_effective_path :=
                ainsert s.by_effective_path effective_path s.next_key,
              sources := ainsertNat s.sources s.next_key
                { source_file := effective_path, scenario := scen,
                  subs := [] },
              next_key := s.next_key + 1 })

mutual

/-- `LoaderContext::load_inner` (sources.rs:159-189), with a fuel argument in
place of Rust's filesystem-bounded recursion (`none` = out of fuel): resolve
the effective path, read-or-reuse the scenario, fail with
`SourceFileCyclicDependency` when the key is already on the stack of the
active loading path, then load the declared subroutines with the key pushed
(the push/pop of `PopOnDrop` leaves every child call seeing
`parent_keys ++ [source_key]`). -/
def loadInner (w : LoaderWorld) : Nat → String → String → List Nat →
    Sources → Option (Except LoadError (Nat × Sources))
  | 0, _, _, _, _ => none
  | fuel + 1, this_dir, this_file, parent_keys, s =>
      match w.resolve this_dir this_file with
      | .error e => some (.error e.toLoadError)
      | .ok effective_path =>
          match readScenario w s effective_path with
          | .error e => some (.error e)
          | .ok (source_key, s1) =>
              if source_key ∈ parent_keys then
                some (.error (.sourceFileCyclicDependency effective_path))
              else
                loadSubs w fuel (w.base_dir effective_path)
                  ((alookupNat s1.sources source_key).getD
                    defaultSource).scenario.subs
                  source_key (parent_keys ++ [source_key]) s1
termination_by n d f pk s => (n, 0)

/-- The subroutine loop of `load_inner` (sources.rs:170-186): each declared
sub is loaded (with the parent key on the stack) and recorded in the parent's
`subs` table; a name already present is a `DuplicateSubroutine` error. -/
def loadSubs (w : LoaderWorld) : Nat → String → List (String × String) →
    Nat → List Nat → Sources → Option (Except LoadError (Nat × Sources))
  | _, _, [], source_key, _, s => some (.ok (source_key, s))
  | fuel, base, (sub_name, file_name) :: rest, source_key, pk, s =>
      match loadInner w fuel base file_name pk s with
      | none => none
      | some (.error e) => some (.error e)
      | some (.ok (sub_key, s2)) =>
          let src := (alookupNat s2.sources source_key).getD defaultSource
          if (alookup src.subs sub_name).isSome then
            some (.error (.duplicateSubroutine sub_name))
          else
            loadSubs w fuel base rest source_key pk
              (recordSub s2 source_key sub_name sub_key)
termination_by n b l key pk s => (n, l.length + 1)

end

mutual

/-- Spec-side predicate (the claim's wording): somewhere along the active
loading path reached from this call, a newly resolved source key is already
on the stack of keys, and the cyclic-dependency error names that call's
effective path.  Compared against `loadInner` below. -/
def specCyclicHit (w : LoaderWorld) : Nat → String → String → List Nat →
    Sources → String → Prop
  | 0, _, _, _, _, _ => False
  | fuel + 1, this_dir, this_file, parent_keys, s, p =>
      ∃ effective_path source_key s1,
        w.resolve this_dir this_file = .ok effective_path ∧
        readScenario w s effective_path = .ok (source_key, s1) ∧
        ((p = effective_path ∧ source_key ∈ parent_keys) ∨
         (source_key ∉ parent_keys ∧
          specSubsCyclicHit w fuel (w.base_dir effective_path)
            ((alookupNat s1.sources source_key).getD
              defaultSource).scenario.subs
            source_key (parent_keys ++ [source_key]) s1 p))
termination_by n d f pk s p => (n, 0)

/-- Spec-side companion of `specCyclicHit` for the subroutine loop: the hit
happens while loading one of the declared subs — either inside the sub named
first, or further down the list after the first sub loads cleanly. -/
def specSubsCyclicHit (w : LoaderWorld) : Nat → String →
    List (String × String) → Nat → List Nat → Sources → String → Prop
  | _, _, [], _, _, _, _ => False
  | fuel, base, (sub_name, file_name) :: rest, source_key, pk, s, p =>
      specCyclicHit w fuel base file_name pk s p ∨
      ∃ sub_key s2,
        loadInner w fuel base file_name pk s = some (.ok (sub_key, s2)) ∧
        alookup ((alookupNat s2.sources source_key).getD
          defaultSource).subs sub_name = none ∧
        specSubsCyclicHit w fuel base rest source_key pk
          (recordSub s2 source_key sub_name sub_key) p
termination_by n b l key pk s p => (n, l.length + 1)

end

theorem readScenario_hit (w : LoaderWorld) (s : Sources) (ep : String)
    (k : Nat) (h : alookup s.by_effective_path ep = some k) :
    readScenario w s ep = .ok (k, s) := by
  simp [readScenario, h]

theorem readScenario_fresh (w : LoaderWorld) (s : Sources) (ep : String)
    (scen : ScenarioSrc) (h : alookup s.by_effective_path ep = none)
    (hp : w.parse ep = .ok scen) :
    readScenario w s ep = .ok (s.next_key,
      { by_effective_path := ainsert s.by_effective_path ep s.next_key,
        sources := ainsertNat s.sources s.next_key
          { source_file := ep, scenario := scen, subs := [] },
        next_key := s.next_key + 1 }) := by
  simp [readScenario, h, hp]

/-- The by-effective-path cache only grows: every mapping of the first store
is a mapping of the second. -/
def cachePreserves (s s2 : Sources) : Prop :=
  ∀ p k, alookup s.by_effective_path p = some k →
    alookup s2.by_effective_path p = some k

theorem cachePreserves_refl (s : Sources) : cachePreserves s s :=
  fun _ _ h => h

theorem cachePreserves_trans {a b c : Sources} (h1 : cachePreserves a b)
    (h2 : cachePreserves b c) : cachePreserves a c :=
  fun p k h => h2 p k (h1 p k h)

theorem readScenario_mono (w : LoaderWorld) (s : Sources) (ep : String)
    (k : Nat) (s2 : Sources) (h : readScenario w s ep = .ok (k, s2)) :
    cachePreserves s s2 ∧ alookup s2.by_effective_path ep = some k := by
  simp only [readScenario] at h
  cases hc : alookup s.by_effective_path ep with
  | some k0 =>
      rw [hc] at h
      simp only [Except.ok.injEq, Prod.mk.injEq] at h
      obtain ⟨h1, h2⟩ := h
      subst h1; subst h2
      exact ⟨cachePreserves_refl s, hc⟩
  | none =>
      rw [hc] at h
      cases hp : w.parse ep with
      | error e => rw [hp] at h; simp at h
      | ok scen =>
          rw [hp] at h
          simp only [Except.ok.injEq, Prod.mk.injEq] at h
          obtain ⟨h1, h2⟩ := h
          subst h1
          subst h2
          constructor
          · intro p k0 hpk
            rw [alookup_ainsert]
            by_cases he : ep = p
            · subst he; rw [hc] at hpk; cases hpk
            · simp [he, hpk]
          · simp [alookup_ainsert]

theorem loadInner_zero (w : LoaderWorld) (d f : String) (pk : List Nat)
    (s : Sources) : loadInner w 0 d f pk s = none := by
  rw [loadInner]

/-- Cache monotonicity through a load, and the returned key is the final
cache's entry for the call's resolved effective path. -/
theorem loader_mono (w : LoaderWorld) : ∀ fuel : Nat,
    (∀ d f pk s k s2, loadInner w fuel d f pk s = some (.ok (k, s2)) →
      cachePreserves s s2 ∧
      ∃ ep, w.resolve d f = .ok ep ∧
        alookup s2.by_effective_path ep = some k) ∧
    (∀ base l key pk s k s2,
      loadSubs w fuel base l key pk s = some (.ok (k, s2)) →
      cachePreserves s s2 ∧ k = key) := by
  intro fuel
  induction fuel with
  | zero =>
      constructor
      · intro d f pk s k s2 h
        rw [loadInner_zero] at h
        cases h
      · intro base l key pk s k s2 h
        cases l with
        | nil =>
            rw [loadSubs] at h
            simp only [Option.some.injEq, Except.ok.injEq,
              Prod.mk.injEq] at h
            obtain ⟨h1, h2⟩ := h
            subst h2
            exact ⟨cachePreserves_refl s, h1.symm⟩
        | cons x rest =>
            obtain ⟨sub_name, file_name⟩ := x
            rw [loadSubs] at h
            rw [loadInner_zero] at h
            simp at h
      | succ n ih =>
      have hLI : ∀ d f pk s k s2,
          loadInner w (n + 1) d f pk s = some (.ok (k, s2)) →
          cachePreserves s s2 ∧
          ∃ ep, w.resolve d f = .ok ep ∧
            alookup s2.by_effective_path ep = some k := by
        intro d f pk s k s2 h
        rw [loadInner] at h
        cases hr : w.resolve d f with
        | error e => rw [hr] at h; simp at h
        | ok ep =>
            rw [hr] at h
            simp only at h
            cases hrs : readScenario w s ep with
            | error e => rw [hrs] at h; simp at h
            | ok pr =>
                obtain ⟨source_key, s1⟩ := pr
                rw [hrs] at h
                simp only at h
                by_cases hmem : source_key ∈ pk
                · rw [if_pos hmem] at h; simp at h
                · rw [if_neg hmem] at h
                  obtain ⟨hpres, hkey⟩ := ih.2 _ _ _ _ _ _ _ h
                  obtain ⟨hpres0, hcache⟩ :=
                    readScenario_mono w s ep source_key s1 hrs
                  subst hkey
                  exact ⟨cachePreserves_trans hpres0 hpres,
                    ep, rfl, hpres _ _ hcache⟩
      refine ⟨hLI, ?_⟩
      intro base l key pk s k s2 h
      induction l generalizing s with
      | nil =>
          rw [loadSubs] at h
          simp only [Option.some.injEq, Except.ok.injEq, Prod.mk.injEq] at h
          obtain ⟨h1, h2⟩ := h
          subst h2
          exact ⟨cachePreserves_refl s, h1.symm⟩
      | cons x rest ihl =>
          obtain ⟨sub_name, file_name⟩ := x
          rw [loadSubs] at h
          cases hli : loadInner w (n + 1) base file_name pk s with
          | none => rw [hli] at h; simp at h
          | some r =>
              cases r with
              | error e => rw [hli] at h; simp at h
              | ok pr =>
                  obtain ⟨sub_key, s3⟩ := pr
                  rw [hli] at h
                  simp only at h
                  by_cases hdup : (alookup ((alookupNat s3.sources key).getD
                      defaultSource).subs sub_name).isSome = true
                  · rw [if_pos hdup] at h; simp at h
                  · rw [if_neg hdup] at h
                    obtain ⟨hp1, _⟩ := hLI _ _ _ _ _ _ hli
                    obtain ⟨hp2, hk⟩ := ihl _ h
                    refine ⟨?_, hk⟩
                    refine cachePreserves_trans hp1 (cachePreserves_trans ?_ hp2)
                    intro p k0 hpk
                    simpa [recordSub] using hpk

/-- Two loads that resolve to the same effective path, the second starting
from the first's final store, return the same key: the file is shared, not
re-allocated. -/
theorem loader_dedup (w : LoaderWorld)
    (fuel1 fuel2 : Nat) (d1 f1 d2 f2 : String) (pk1 pk2 : List Nat)
    (s0 s1 s2 : Sources) (k1 k2 : Nat) (ep : String)
    (hr1 : w.resolve d1 f1 = .ok ep) (hr2 : w.resolve d2 f2 = .ok ep)
    (h1 : loadInner w fuel1 d1 f1 pk1 s0 = some (.ok (k1, s1)))
    (h2 : loadInner w fuel2 d2 f2 pk2 s1 = some (.ok (k2, s2))) :
    k1 = k2 := by
  obtain ⟨_, ep1, hre1, hc1⟩ := (loader_mono w fuel1).1 _ _ _ _ _ _ h1
  rw [hr1] at hre1
  injection hre1 with he
  subst he
  cases fuel2 with
  | zero => rw [loadInner_zero] at h2; cases h2
  | succ n =>
      rw [loadInner] at h2
      rw [hr2] at h2
      simp only at h2
      rw [readScenario_hit w s1 ep k1 hc1] at h2
      simp only at h2
      by_cases hmem : k1 ∈ pk2
      · rw [if_pos hmem] at h2; simp at h2
      · rw [if_neg hmem] at h2
        exact (((loader_mono w n).2 _ _ _ _ _ _ _ h2).2).symm

theorem resolveErrorToLoadErrorNeCyclic (e : ResolveError) (p : String) :
    e.toLoadError ≠ .sourceFileCyclicDependency p := by
  cases e <;> simp [ResolveError.toLoadError]

theorem parseErrorToLoadErrorNeCyclic (e : ParseError) (p : String) :
    e.toLoadError ≠ .sourceFileCyclicDependency p := by
  cases e <;> simp [ParseError.toLoadError]

theorem readScenario_error (w : LoaderWorld) (s : Sources) (ep : String)
    (e : LoadError) (h : readScenario w s ep = .error e) :
    ∃ pe, w.parse ep = .error pe ∧ e = ParseError.toLoadError pe := by
  simp only [readScenario] at h
  cases hc : alookup s.by_effective_path ep with
  | some k0 => rw [hc] at h; simp at h
  | none =>
      rw [hc] at h
      cases hp : w.parse ep with
      | error pe =>
          rw [hp] at h
          simp only [Except.error.injEq] at h
          exact ⟨pe, rfl, h.symm⟩
      | ok scen => rw [hp] at h; simp at h

/-- The cyclic-dependency error is raised exactly when, somewhere along the
active loading path, a newly resolved key is already on the stack. -/
theorem loader_cyclic (w : LoaderWorld) : ∀ fuel : Nat,
    (∀ d f pk s p, loadInner w fuel d f pk s =
        some (.error (.sourceFileCyclicDependency p)) ↔
      specCyclicHit w fuel d f pk s p) ∧
    (∀ base l key pk s p, loadSubs w fuel base l key pk s =
        some (.error (.sourceFileCyclicDependency p)) ↔
      specSubsCyclicHit w fuel base l key pk s p) := by
  intro fuel
  induction fuel with
  | zero =>
      constructor
      · intro d f pk s p
        rw [loadInner_zero, specCyclicHit]
        simp
      · intro base l key pk s p
        cases l with
        | nil =>
            rw [loadSubs, specSubsCyclicHit]
            simp
        | cons x rest =>
            obtain ⟨sub_name, file_name⟩ := x
            rw [loadSubs, specSubsCyclicHit]
            rw [loadInner_zero, specCyclicHit]
            simp [loadInner_zero]
  | succ n ih =>
      have hCI : ∀ d f pk s p,
          loadInner w (n + 1) d f pk s =
            some (.error (.sourceFileCyclicDependency p)) ↔
          specCyclicHit w (n + 1) d f pk s p := by
        intro d f pk s p
        rw [loadInner, specCyclicHit]
        cases hr : w.resolve d f with
        | error e =>
            simp only
            constructor
            · intro h
              injection h with h
              injection h with h
              exact absurd h (resolveErrorToLoadErrorNeCyclic e p)
            · intro ⟨ep', k', s1', h1, _, _⟩
              cases h1
        | ok ep =>
            simp only
            cases hrs : readScenario w s ep with
            | error e =>
                simp only
                constructor
                · intro h
                  injection h with h
                  injection h with h
                  obtain ⟨pe, _, hpe⟩ := readScenario_error w s ep e hrs
                  subst hpe
                  exact absurd h (parseErrorToLoadErrorNeCyclic pe p)
                · intro ⟨ep', k', s1', h1, h2, _⟩
                  injection h1 with h1
                  subst h1
                  rw [hrs] at h2
                  cases h2
            | ok pr =>
                obtain ⟨source_key, s1⟩ := pr
                simp only
                by_cases hmem : source_key ∈ pk
                · rw [if_pos hmem]
                  constructor
                  · intro h
                    injection h with h
                    injection h with h
                    injection h with h
                    exact ⟨ep, source_key, s1, rfl, hrs,
                      Or.inl ⟨h.symm, hmem⟩⟩
                  · intro ⟨ep', k', s1', h1, h2, h3⟩
                    injection h1 with h1
                    subst h1
                    rw [hrs] at h2
                    injection h2 with h2
                    rw [Prod.mk.injEq] at h2
                    obtain ⟨hk, hs⟩ := h2
                    subst hk
                    subst hs
                    rcases h3 with ⟨hpe, _⟩ | ⟨hnm, _⟩
                    · subst hpe; rfl
                    · exact absurd hmem hnm
                · rw [if_neg hmem]
                  rw [ih.2]
                  constructor
                  · intro h
                    exact ⟨ep, source_key, s1, rfl, hrs, Or.inr ⟨hmem, h⟩⟩
                  · intro ⟨ep', k', s1', h1, h2, h3⟩
                    injection h1 with h1
                    subst h1
                    rw [hrs] at h2
                    injection h2 with h2
                    rw [Prod.mk.injEq] at h2
                    obtain ⟨hk, hs⟩ := h2
                    subst hk
                    subst hs
                    rcases h3 with ⟨_, hm⟩ | ⟨_, h⟩
                    · exact absurd hm hmem
                    · exact h
      refine ⟨hCI, ?_⟩
      intro base l key pk s p
      induction l generalizing s with
      | nil =>
          rw [loadSubs, specSubsCyclicHit]
          simp
      | cons x rest ihl =>
          obtain ⟨sub_name, file_name⟩ := x
          rw [loadSubs, specSubsCyclicHit]
          cases hli : loadInner w (n + 1) base file_name pk s with
          | none =>
              simp only
              constructor
              · intro h; cases h
              · intro h
                rcases h with h | ⟨sub_key, s2, h1, _, _⟩
                · have h2 := (hCI base file_name pk s p).mpr h
                  rw [hli] at h2
                  exact h2
                · simp at h1
          | some r =>
              cases r with
              | error e =>
                  simp only
                  constructor
                  · intro h
                    injection h with h
                    injection h with h
                    refine Or.inl ((hCI base file_name pk s p).mp ?_)
                    rw [hli, h]
                  · intro h
                    rcases h with h | ⟨sub_key, s2, h1, _, _⟩
                    · have h2 := (hCI base file_name pk s p).mpr h
                      rw [hli] at h2
                      exact h2
                    · simp at h1
              | ok pr =>
                  obtain ⟨sub_key0, s3⟩ := pr
                  simp only
                  by_cases hdup : (alookup ((alookupNat s3.sources key).getD
                      defaultSource).subs sub_name).isSome = true
                  · rw [if_pos hdup]
                    constructor
                    · intro h
                      simp at h
                    · intro h
                      rcases h with h | ⟨sub_key, s2, h1, h2, _⟩
                      · have h2 := (hCI base file_name pk s p).mpr h
                        rw [hli] at h2
                        simp at h2
                      · simp only [Option.some.injEq, Except.ok.injEq,
                          Prod.mk.injEq] at h1
                        obtain ⟨hk, hs⟩ := h1
                        subst hk
                        subst hs
                        rw [h2] at hdup
                        simp at hdup
                  · rw [if_neg hdup]
                    have hnone : alookup ((alookupNat s3.sources key).getD
                        defaultSource).subs sub_name = none := by
                      cases hx : alookup ((alookupNat s3.sources key).getD
                          defaultSource).subs sub_name with
                      | none => rfl
                      | some v => rw [hx] at hdup; simp at hdup
                    rw [ihl (recordSub s3 key sub_name sub_key0)]
                    constructor
                    · intro h
                      exact Or.inr ⟨sub_key0, s3, rfl, hnone, h⟩
                    · intro h
                      rcases h with h | ⟨sub_key, s2, h1, h2, h3⟩
                      · have h2 := (hCI base file_name pk s p).mpr h
                        rw [hli] at h2
                        simp at h2
                      · simp only [Option.some.injEq, Except.ok.injEq,
                          Prod.mk.injEq] at h1
                        obtain ⟨hk, hs⟩ := h1
                        subst hk
                        subst hs
                        exact h3

/-- C7: During source loading, sources are cached by resolved effective path:
a path already cached yields its existing key with the store untouched; a
fresh path is parsed, stored under a freshly allocated key, and cached; a
whole load only grows the cache and returns the key its resolved path maps
to in the final cache — so the same file reached via two distinct routes is
loaded once and shares one key (fourth conjunct); and loading fails with
`SourceFileCyclicDependency` exactly when, somewhere along the active
loading path, a newly resolved key is already on the stack of keys. -/
theorem source_cache_and_cycle_detection (w : LoaderWorld) :
    (∀ s ep k, alookup s.by_effective_path ep = some k →
      readScenario w s ep = .ok (k, s)) ∧
    (∀ s ep scen, alookup s.by_effective_path ep = none →
      w.parse ep = .ok scen →
      readScenario w s ep = .ok (s.next_key,
        { by_effective_path := ainsert s.by_effective_path ep s.next_key,
          sources := ainsertNat s.sources s.next_key
            { source_file := ep, scenario := scen, subs := [] },
          next_key := s.next_key + 1 })) ∧
    (∀ fuel d f pk s k s2,
      loadInner w fuel d f pk s = some (.ok (k, s2)) →
      cachePreserves s s2 ∧
      ∃ ep, w.resolve d f = .ok ep ∧
        alookup s2.by_effective_path ep = some k) ∧
    (∀ fuel1 fuel2 d1 f1 d2 f2 pk1 pk2 s0 s1 s2 k1 k2 ep,
      w.resolve d1 f1 = .ok ep → w.resolve d2 f2 = .ok ep →
      loadInner w fuel1 d1 f1 pk1 s0 = some (.ok (k1, s1)) →
      loadInner w fuel2 d2 f2 pk2 s1 = some (.ok (k2, s2)) →
      k1 = k2) ∧
    (∀ fuel d f pk s p,
      loadInner w fuel d f pk s =
        some (.error (.sourceFileCyclicDependency p)) ↔
      specCyclicHit w fuel d f pk s p) := by
  refine ⟨readScenario_hit w, readScenario_fresh w, ?_, ?_, ?_⟩
  · intro fuel d f pk s k s2 h
    exact (loader_mono w fuel).1 d f pk s k s2 h
  · intro fuel1 fuel2 d1 f1 d2 f2 pk1 pk2 s0 s1 s2 k1 k2 ep h1 h2 h3 h4
    exact loader_dedup w fuel1 fuel2 d1 f1 d2 f2 pk1 pk2 s0 s1 s2 k1 k2 ep
      h1 h2 h3 h4
  · intro fuel d f pk s p
    exact (loader_cyclic w fuel).1 d f pk s p

theorem source_cache_and_cycle_detection_witness :
    readScenario
      { resolve := fun _ f => .ok f,
        parse := fun p => if p = "a" then .ok ⟨[("s", "a")]⟩
          else .error (.ioError p),
        base_dir := fun _ => "." }
      { by_effective_path := [("p", 5)], sources := [], next_key := 6 } "p"
      = .ok (5, { by_effective_path := [("p", 5)], sources := [],
                  next_key := 6 }) ∧
    specCyclicHit
      { resolve := fun _ f => .ok f,
        parse := fun p => if p = "a" then .ok ⟨[("s", "a")]⟩
          else .error (.ioError p),
        base_dir := fun _ => "." }
      2 "." "a" [] { by_effective_path := [], sources := [], next_key := 0 }
      "a" := by
  constructor
  · exact (source_cache_and_cycle_detection _).1 _ "p" 5 (by simp [alookup])
  · refine ((source_cache_and_cycle_detection _).2.2.2.2 2 "." "a" []
      { by_effective_path := [], sources := [], next_key := 0 } "a").mp ?_
    simp [loadInner, loadSubs, readScenario, alookup, ainsert, ainsertNat,
      alookupNat, defaultSource, recordSub]

/-- Generic association-list lookup (for keys that are not strings or
naturals, such as `EventKey`). -/
def klookup {α β : Type} [DecidableEq α] : List (α × β) → α → Option β
  | [], _ => none
  | (k, v) :: rest, key => if k = key then some v else klookup rest key

/-- Generic association-list insert-or-replace (`HashMap::insert`). -/
def kinsert {α β : Type} [DecidableEq α] : List (α × β) → α → β →
    List (α × β)
  | [], key, v => [(key, v)]
  | (k, w) :: rest, key, v =>
      if k = key then (k, v) :: rest else (k, w) :: kinsert rest key v

/-- `BuildErrorReason` (build.rs:33-66); scope keys are naturals. -/
inductive BuildErrorReason where
  | unknownEvent (n : String) (scope : Nat)
  | duplicateEventName (n : String) (scope : Nat)
  | notARequest (n : String) (scope : Nat)
  | unknownActor (n : String) (scope : Nat)
  | unknownDummy (n : String) (scope : Nat)
  | unknownSubroutine (n : String) (scope : Nat)
  | unknownFqn (n : String) (scope : Nat)
  | unknownAlias (n : String) (scope : Nat)
  | duplicateAlias (n : String) (scope : Nat)
  | duplicateActorName (n : String) (scope : Nat)
  | duplicateDummyName (n : String) (scope : Nat)
  deriving DecidableEq, Repr

/-- The marshalling registry as the compiler consults it (§6.2 — an external
collaborator): `resolve fqn = some b` means a marshaller is registered for
the fully qualified name, and `b` tells whether its `response()` is `Some`
(i.e. the type is a request type). -/
structure MarshallingRegistry where
  resolve : String → Option Bool

/-- `DefTypeAlias` (scenario.rs): `use` = type_name, `as` = type_alias. -/
structure DefTypeAlias where
  type_name : String
  type_alias : String
  deriving DecidableEq, Repr

/-- The `in`/`out` bind templates of a Call (subs.rs `DefBindInput` /
`DefBindOutput` as build.rs consumes them: a dst pattern and a src value to
be wrapped in `SrcMsg::Bind`). -/
structure DefBindIO where
  dst : Value
  src : Value
  deriving DecidableEq, Repr

/-- `DefEventKind` (scenario.rs) as build.rs destructures it; `Call` carries
its subroutine name, optional in/out binds and the actor/dummy mapping lists
(`unwrap_or_default` folded in: absent maps are empty lists). -/
inductive DefEventKind where
  | bindEv (dst : Value) (src : Msg)
  | recvEv (message_type : String) (message_data : Value)
      (also_match_data : List Value) (from_ : Option String)
      (to_ : Option String) (after_duration : Option Nat)
      (before_duration : Option Nat)
  | sendEv (from_ : String) (to_ : Option String) (message_type : String)
      (message_data : Msg)
  | respondEv (from_ : Option String) (to_request : String) (data : Msg)
  | delayEv (delay_for : Nat) (delay_step : Nat)
  | callEv (subroutine_name : String) (input : Option DefBindIO)
      (output : Option DefBindIO) (actors : List (String × String))
      (dummies : List (String × String))
  deriving DecidableEq, Repr

/-- `DefEvent` (scenario.rs): id, optional requirement, `happens_after`
prerequisites, and the kind. -/
structure DefEvent where
  id : String
  require : Option RequiredToBe
  prerequisites : List String
  kind : DefEventKind
  deriving DecidableEq, Repr

/-- The slice of a scenario build.rs reads: type aliases, the cast (actors
and dummies) and the event list. -/
structure BuildScenario where
  types : List DefTypeAlias
  actors : List String
  dummies : List String
  events : List DefEvent
  deriving DecidableEq, Repr

/-- A loaded source with its subroutine table resolved to subtrees: stands
for `KeyScenario` indexing into `Sources` (the loader guarantees the table
is acyclic, so the sources form a tree). -/
inductive SourceTree where
  | node (scenario : BuildScenario) (subroutines : List (String × SourceTree))

/-- `ScopeInfo` (execution.rs): who invoked this scope —
`(parent scope, call event name, subroutine name)` — or `none` for the
root.  The source key is the subtree itself in this model. -/
structure ScopeInfo where
  invoked_as : Option (Nat × String × String)
  deriving DecidableEq, Repr

/-- `BindScope` (execution.rs): a bind living in one scope, or bridging a
source scope and a destination scope. -/
inductive BindScope where
  | same (k : Nat)
  | two (src dst : Nat)
  deriving DecidableEq, Repr

/-- `EventBind` (execution.rs) as build.rs constructs it. -/
structure EventBind where
  dst : Value
  src : Msg
  scope : BindScope
  deriving DecidableEq, Repr

/-- `EventRecv` (execution.rs) as build.rs constructs it (build.rs:518-539):
resolved from/to keys, the resolved fqn, the payload matchers
(`message_data` first, then `also_match_data`), the windows, the scope. -/
structure EventRecv where
  from_ : Option Nat
  to_ : Option Nat
  fqn : String
  payload_matchers : List Value
  after_duration : Option Nat
  before_duration : Option Nat
  scope_key : Nat
  deriving DecidableEq, Repr

def defaultEventRecv : EventRecv :=
  { from_ := none, to_ := none, fqn := "", payload_matchers := [],
    after_duration := none, before_duration := none, scope_key := 0 }

/-- `EventSend` (execution.rs) as build.rs constructs it (build.rs:614-631). -/
structure EventSend where
  from_ : Nat
  to_ : Option Nat
  fqn : String
  payload : Msg
  scope_key : Nat
  deriving DecidableEq, Repr

/-- `EventRespond` (execution.rs) as build.rs constructs it
(build.rs:574-585). -/
structure EventRespond where
  respond_to : Nat
  request_type : String
  respond_from : Option Nat
  payload : Msg
  scope_key : Nat
  deriving DecidableEq, Repr

/-- `Builder` (build.rs:211-228): slotmaps become association lists with
fresh-key counters; `event_names`, `key_unblocks_values` and the requirement
map are keyed by `EventKey`. -/
structure Builder where
  next_scope : Nat
  scopes : List (Nat × ScopeInfo)
  next_actor : Nat
  actors : List (Nat × List (Nat × String))
  next_dummy : Nat
  dummies : List (Nat × List (Nat × String))
  event_names : List (EventKey × (Nat × String))
  definition_order : List EventKey
  next_delay : Nat
  events_delay : List (Nat × EventDelay)
  next_bind : Nat
  events_bind : List (Nat × EventBind)
  next_recv : Nat
  events_recv : List (Nat × EventRecv)
  next_send : Nat
  events_send : List (Nat × EventSend)
  next_respond : Nat
  events_respond : List (Nat × EventRespond)
  key_unblocks_values : List (EventKey × List EventKey)

/-- `SubgraphAdded` (build.rs:230-235). -/
structure SubgraphAdded where
  scope_key : Nat
  entry_points : List EventKey
  require : List (EventKey × RequiredToBe)

/-- `type_aliases` (build.rs:150-176): alias already present is
`DuplicateAlias`; an unresolvable fqn is `UnknownFqn`; otherwise the alias
maps to the fqn. -/
def type_aliases (m : MarshallingRegistry) (scope_key : Nat) :
    List DefTypeAlias → List (String × String) →
    Except BuildErrorReason (List (String × String))
  | [], acc => .ok acc
  | imp :: rest, acc =>
      if (alookup acc imp.type_alias).isSome then
        .error (.duplicateAlias imp.type_alias scope_key)
      else
        match m.resolve imp.type_name with
        | none => .error (.unknownFqn imp.type_name scope_key)
        | some _ =>
            type_aliases m scope_key rest
              (ainsert acc imp.type_alias imp.type_name)

/-- `ensure_uniqueness` (build.rs:178-196). -/
def ensure_uniqueness (scope_key : Nat)
    (mk : String → Nat → BuildErrorReason) :
    List String → List String → Except BuildErrorReason (List String)
  | [], acc => .ok acc
  | n :: rest, acc =>
      if n ∈ acc then .error (mk n scope_key)
      else ensure_uniqueness scope_key mk rest (acc ++ [n])

/-- `resolve_event_ids` (build.rs:198-209): each prerequisite name is looked
up in the accumulated name-to-key map of the current scope; a missing name
is `UnknownEvent`; the first error wins (`collect::<Result<Vec<_>,_>>`). -/
def resolve_event_ids (idx_keys : List (String × EventKey))
    (scope_key : Nat) : List String →
    Except BuildErrorReason (List EventKey)
  | [] => .ok []
  | n :: rest =>
      match alookup idx_keys n with
      | none => .error (.unknownEvent n scope_key)
      | some k =>
          match resolve_event_ids idx_keys scope_key rest with
          | .error e => .error e
          | .ok ks => .ok (k :: ks)

/-- `resolve_name_opt` (build.rs:688-707). -/
def resolve_name_opt (names : List (String × Nat)) (scope_key : Nat)
    (name_opt : Option String) (mk : String → Nat → BuildErrorReason) :
    Except BuildErrorReason (Option Nat) :=
  match name_opt with
  | none => .ok none
  | some n =>
      match alookup names n with
      | none => .error (mk n scope_key)
      | some k => .ok (some k)

/-- `key_unblocks_values.entry(k).or_default().insert(v)`
(build.rs:426-433, 456-465, 649-661). -/
def addUnblock (b : Builder) (k v : EventKey) : Builder :=
  let cur := (klookup b.key_unblocks_values k).getD []
  let kuv := kinsert b.key_unblocks_values k (cur ++ [v])
  { b with key_unblocks_values := kuv }

/-- The actor/dummy merge loop of `add_subgraph` (build.rs:274-293 and
299-318): each name of the scope either takes its key from the invocation
mapping (removing the entry and recording the scope-local alias in
`known_as`) or allocates a fresh arena entry.  Returns the unconsumed
mapping entries, the advanced counter, the updated arena and the scope's
name-to-key map. -/
def bindNames (this_scope_key : Nat) :
    List String → List (String × Nat) → Nat →
    List (Nat × List (Nat × String)) → List (String × Nat) →
    List (String × Nat) × Nat × List (Nat × List (Nat × String)) ×
      List (String × Nat)
  | [], mapping, nk, arena, acc => (mapping, nk, arena, acc)
  | n :: rest, mapping, nk, arena, acc =>
      match aremove mapping n with
      | some (key, mapping2) =>
          let ka := (alookupNat arena key).getD []
          bindNames this_scope_key rest mapping2 nk
            (ainsertNat arena key (ainsertNat ka this_scope_key n))
            (acc ++ [(n, key)])
      | none =>
          bindNames this_scope_key rest mapping (nk + 1)
            (ainsertNat arena nk [(this_scope_key, n)])
            (acc ++ [(n, nk)])

/-- The sub-mapping construction of the Call branch (build.rs:356-371): each
`(this_name, sub_name)` pair resolves `this_name` in the current scope's map
and records `sub_name` against the key. -/
def buildSubMapping (amap : List (String × Nat)) (scope_key : Nat)
    (mk : String → Nat → BuildErrorReason) :
    List (String × String) → List (String × Nat) →
    Except BuildErrorReason (List (String × Nat))
  | [], acc => .ok acc
  | (this_name, sub_name) :: rest, acc =>
      match alookup amap this_name with
      | none => .error (mk this_name scope_key)
      | some key => buildSubMapping amap scope_key mk rest
          (ainsert acc sub_name key)

/-- The two-bind wiring of the Call branch (build.rs:401-467): allocate the
entry bind (scope parent-to-child, named `id ++ "[ENTER SUB]"` — the
`with_suffix` of names.rs), draw an unblocks edge from it to every entry
point of the child; allocate the exit bind (scope child-to-parent), draw an
unblocks edge to it from every child event required to be Reached.  Returns
(builder, entry bind key, exit bind key) = (head_key, tail_key). -/
def addCallBindsCore (b : Builder) (this_scope_key : Nat)
    (added : SubgraphAdded) (this_name : String) (dstI : Value)
    (srcI : Msg) (dstO : Value) (srcO : Msg) :
    Builder × EventKey × EventKey :=
  let bind_in := b.next_bind
  let b1 := { b with
    next_bind := bind_in + 1,
    events_bind := ainsertNat b.events_bind bind_in
      ⟨dstI, srcI, .two this_scope_key added.scope_key⟩,
    event_names := kinsert b.event_names (EventKey.bind bind_in)
      (this_scope_key, this_name ++ "[ENTER SUB]") }
  let b2 := added.entry_points.foldl
    (fun bb ep => addUnblock bb (EventKey.bind bind_in) ep) b1
  let bind_out := b2.next_bind
  let b3 := { b2 with
    next_bind := bind_out + 1,
    events_bind := ainsertNat b2.events_bind bind_out
      ⟨dstO, srcO, .two added.scope_key this_scope_key⟩ }
  let b4 := added.require.foldl
    (fun bb pr => if pr.2 = RequiredToBe.reached
      then addUnblock bb pr.1 (EventKey.bind bind_out) else bb) b3
  (b4, EventKey.bind bind_in, EventKey.bind bind_out)

def addCallBinds (b : Builder) (this_scope_key : Nat)
    (added : SubgraphAdded) (this_name : String)
    (input output : Option DefBindIO) : Builder × EventKey × EventKey :=
  let din := match input with
    | some io => (io.dst, Msg.bind io.src)
    | none => (Value.null, Msg.exact Value.null)
  let dout := match output with
    | some io => (io.dst, Msg.bind io.src)
    | none => (Value.null, Msg.exact Value.null)
  addCallBindsCore b this_scope_key added this_name din.1 din.2 dout.1
    dout.2

/-- The tail of the Send branch after the alias and the cast-membership
checks (build.rs:610-633). -/
def sendFinish (scope : Nat) (dummy_names : List String)
    (amap dmap : List (String × Nat)) (from_ : String) (to_ : Option String)
    (fqn : String) (md : Msg) (b : Builder) :
    Except BuildErrorReason (Builder × EventKey × EventKey) :=
  if dummy_names.contains from_ then
    match resolve_name_opt dmap scope (some from_)
        BuildErrorReason.unknownDummy with
    | .error e => .error e
    | .ok fko =>
        match resolve_name_opt amap scope to_
            BuildErrorReason.unknownActor with
        | .error e => .error e
        | .ok tk =>
            let key := b.next_send
            let es := ainsertNat b.events_send key
              ⟨fko.getD 0, tk, fqn, md, scope⟩
            .ok ({ b with next_send := key + 1, events_send := es },
              .send key, .send key)
  else .error (.unknownDummy from_ scope)

mutual

/-- `Builder::add_subgraph` (build.rs:238-685) with a fuel argument bounding
the Call recursion (`none` = out of fuel): allocate the scope, resolve the
type aliases, check cast uniqueness, merge the invocation actor/dummy
mappings (leftover mapping entries are `UnknownActor`/`UnknownDummy`), run
the event loop, and finally record every name of the scope's name-to-key map
in `event_names`. -/
def addSubgraph (m : MarshallingRegistry) :
    Nat → SourceTree → Option (Nat × String × String) →
    List (String × Nat) → List (String × Nat) → Builder →
    Option (Except BuildErrorReason (Builder × SubgraphAdded))
  | 0, _, _, _, _, _ => none
  | fuel + 1, .node scenario subs, invoked_as, actor_mapping,
      dummy_mapping, b =>
      let this_scope_key := b.next_scope
      let scopes2 := ainsertNat b.scopes this_scope_key ⟨invoked_as⟩
      let b1 := { b with next_scope := this_scope_key + 1,
                         scopes := scopes2 }
      match type_aliases m this_scope_key scenario.types [] with
      | .error e => some (.error e)
      | .ok aliases =>
      match ensure_uniqueness this_scope_key
          BuildErrorReason.duplicateActorName scenario.actors [] with
      | .error e => some (.error e)
      | .ok actor_names =>
      match ensure_uniqueness this_scope_key
          BuildErrorReason.duplicateDummyName scenario.dummies [] with
      | .error e => some (.error e)
      | .ok dummy_names =>
      match bindNames this_scope_key actor_names actor_mapping
          b1.next_actor b1.actors [] with
      | ((an, _) :: _, _, _, _) =>
          some (.error (.unknownActor an this_scope_key))
      | ([], next_actor2, actors2, amap) =>
      match bindNames this_scope_key dummy_names dummy_mapping
          b1.next_dummy b1.dummies [] with
      | ((dn, _) :: _, _, _, _) =>
          some (.error (.unknownDummy dn this_scope_key))
      | ([], next_dummy2, dummies2, dmap) =>
      let b2 := { b1 with next_actor := next_actor2, actors := actors2,
                          next_dummy := next_dummy2, dummies := dummies2 }
      match addEvents m fuel subs this_scope_key aliases actor_names
          dummy_names amap dmap scenario.events [] [] [] b2 with
      | none => none
      | some (.error e) => some (.error e)
      | some (.ok (b3, ntk, eps, reqs)) =>
          let en2 := ntk.foldl
            (fun en p => kinsert en p.2 (this_scope_key, p.1))
            b3.event_names
          let b4 := { b3 with event_names := en2 }
          some (.ok (b4, { scope_key := this_scope_key,
                           entry_points := eps, require := reqs }))
termination_by n t inv am dm b => (n, 0, 0)

/-- The event loop of `add_subgraph` (build.rs:328-673): per event, resolve
the prerequisites against the names seen so far, build the event's vertex
(and, for a Call, the whole child scope), record the requirement, file the
event as an entry point (no prerequisites) or draw unblocks edges from each
prerequisite to its head key, reject a duplicate name, append the name with
the event's tail key to the scope's map, and push head and tail onto the
definition order. -/
def addEvents (m : MarshallingRegistry) :
    Nat → List (String × SourceTree) → Nat → List (String × String) →
    List String → List String → List (String × Nat) →
    List (String × Nat) → List DefEvent → List (String × EventKey) →
    List EventKey → List (EventKey × RequiredToBe) → Builder →
    Option (Except BuildErrorReason
      (Builder × List (String × EventKey) × List EventKey ×
        List (EventKey × RequiredToBe)))
  | _, _, _, _, _, _, _, _, [], ntk, eps, reqs, b =>
      some (.ok (b, ntk, eps, reqs))
  | fuel, subs, scope, aliases, actor_names, dummy_names, amap, dmap,
      e :: rest, ntk, eps, reqs, b =>
      match resolve_event_ids ntk scope e.prerequisites with
      | .error err => some (.error err)
      | .ok pres =>
          match addEventKind m fuel subs scope aliases actor_names
              dummy_names amap dmap ntk e.id e.kind b with
          | none => none
          | some (.error err) => some (.error err)
          | some (.ok (b2, head_key, tail_key)) =>
              let reqs2 := match e.require with
                | some r => kinsert reqs tail_key r
                | none => reqs
              let eps2 := if pres.isEmpty then eps ++ [head_key] else eps
              let b3 := pres.foldl (fun bb pr => addUnblock bb pr head_key) b2
              if (alookup ntk e.id).isSome then
                some (.error (.duplicateEventName e.id scope))
              else
                addEvents m fuel subs scope aliases actor_names dummy_names
                  amap dmap rest (ntk ++ [(e.id, tail_key)]) eps2 reqs2
                  { b3 with definition_order :=
                      b3.definition_order ++ [head_key, tail_key] }
termination_by n subs scope al an dn am dm evs ntk eps reqs b =>
  (n, evs.length + 1, 0)

/-- The kind match of the event loop (build.rs:340-635), producing the
updated builder and the event's (head_key, tail_key). -/
def addEventKind (m : MarshallingRegistry) :
    Nat → List (String × SourceTree) → Nat → List (String × String) →
    List String → List String → List (String × Nat) →
    List (String × Nat) → List (String × EventKey) → String →
    DefEventKind → Builder →
    Option (Except BuildErrorReason (Builder × EventKey × EventKey))
  | fuel, subs, scope, aliases, actor_names, dummy_names, amap, dmap, ntk,
      id, kind, b =>
      match kind with
      | .callEv sub_name input output cactors cdummies =>
          match alookup subs sub_name with
          | none => some (.error (.unknownSubroutine sub_name scope))
          | some subtree =>
              match buildSubMapping amap scope BuildErrorReason.unknownActor
                  cactors [] with
              | .error e => some (.error e)
              | .ok sam =>
              match buildSubMapping dmap scope BuildErrorReason.unknownDummy
                  cdummies [] with
              | .error e => some (.error e)
              | .ok sdm =>
              match addSubgraph m fuel subtree (some (scope, id, sub_name))
                  sam sdm b with
              | none => none
              | some (.error e) => some (.error e)
              | some (.ok (b2, added)) =>
                  let r := addCallBinds b2 scope added id input output
                  some (.ok (r.1, r.2.1, r.2.2))
      | .delayEv delay_for delay_step =>
          let key := b.next_delay
          let ed := ainsertNat b.events_delay key ⟨delay_for, delay_step⟩
          some (.ok ({ b with next_delay := key + 1, events_delay := ed },
            .delay key, .delay key))
      | .bindEv dst src =>
          let key := b.next_bind
          let eb := ainsertNat b.events_bind key ⟨dst, src, .same scope⟩
          some (.ok ({ b with next_bind := key + 1, events_bind := eb },
            .bind key, .bind key))
      | .recvEv mt md amd from_ to_ ad bd =>
          match alookup aliases mt with
          | none => some (.error (.unknownAlias mt scope))
          | some fqn =>
              match resolve_name_opt amap scope from_
                  BuildErrorReason.unknownActor with
              | .error e => some (.error e)
              | .ok fk =>
              match resolve_name_opt dmap scope to_
                  BuildErrorReason.unknownDummy with
              | .error e => some (.error e)
              | .ok tk =>
                  let key := b.next_recv
                  let er := ainsertNat b.events_recv key
                    ⟨fk, tk, fqn, md :: amd, ad, bd, scope⟩
                  let b2 := { b with next_recv := key + 1, events_recv := er }
                  some (.ok (b2, .recv key, .recv key))
      | .respondEv from_ to_request data =>
          match alookup ntk to_request with
          | none => some (.error (.unknownEvent to_request scope))
          | some ck =>
              match ck with
              | .recv recv_key =>
                  let request_fqn := ((alookupNat b.events_recv
                    recv_key).getD defaultEventRecv).fqn
                  match m.resolve request_fqn with
                  | none => some (.error (.notARequest to_request scope))
                  | some hasResponse =>
                      if hasResponse then
                        match resolve_name_opt dmap scope from_
                            BuildErrorReason.unknownDummy with
                        | .error e => some (.error e)
                        | .ok fk =>
                            let key := b.next_respond
                            let er := ainsertNat b.events_respond key
                              ⟨recv_key, request_fqn, fk, data, scope⟩
                            let b2 :=
                              { b with next_respond := key + 1, events_respond := er }
                            some (.ok (b2, .respond key, .respond key))
                      else some (.error (.notARequest to_request scope))
              | _ => some (.error (.notARequest to_request scope))
      | .sendEv from_ to_ mt md =>
          match alookup aliases mt with
          | none => some (.error (.unknownAlias mt scope))
          | some fqn =>
              match to_ with
              | some ta =>
                  if actor_names.contains ta then
                    some (sendFinish scope dummy_names amap dmap from_ to_
                      fqn md b)
                  else some (.error (.unknownActor ta scope))
              | none =>
                  some (sendFinish scope dummy_names amap dmap from_ to_
                    fqn md b)
termination_by n subs scope al an dn am dm ntk id k b => (n, 0, 1)

end

theorem resolve_event_ids_ok_iff (ntk : List (String × EventKey))
    (scope : Nat) : ∀ (names : List String) (ks : List EventKey),
    resolve_event_ids ntk scope names = .ok ks ↔
    List.Forall₂ (fun nm k => alookup ntk nm = some k) names ks := by
  intro names
  induction names with
  | nil =>
      intro ks
      rw [resolve_event_ids]
      constructor
      · intro h
        injection h with h
        subst h
        exact List.Forall₂.nil
      · intro h
        cases h
        rfl
  | cons n rest ih =>
      intro ks
      rw [resolve_event_ids]
      cases hn : alookup ntk n with
      | none =>
          simp only
          constructor
          · intro h; cases h
          · intro h
            cases h with
            | cons h1 h2 => rw [hn] at h1; cases h1
      | some k =>
          simp only
          cases hr : resolve_event_ids ntk scope rest with
          | error e =>
              simp only
              constructor
              · intro h; cases h
              · intro h
                cases h with
                | cons h1 h2 =>
                    have := (ih _).mpr h2
                    rw [hr] at this
                    cases this
          | ok ks0 =>
              simp only
              constructor
              · intro h
                injection h with h
                subst h
                exact List.Forall₂.cons hn ((ih ks0).mp hr)
              · intro h
                cases h with
                | cons h1 h2 =>
                    rw [hn] at h1
                    injection h1 with h1
                    subst h1
                    have := (ih _).mpr h2
                    rw [hr] at this
                    injection this with this
                    rw [this]

theorem resolve_event_ids_first_missing (ntk : List (String × EventKey))
    (scope : Nat) (n : String) (post : List String)
    (hn : alookup ntk n = none) :
    ∀ pre : List String, (∀ n2 ∈ pre, (alookup ntk n2).isSome) →
    resolve_event_ids ntk scope (pre ++ n :: post) =
      .error (.unknownEvent n scope) := by
  intro pre
  induction pre with
  | nil =>
      intro _
      rw [List.nil_append, resolve_event_ids, hn]
  | cons p rest ih =>
      intro hall
      rw [List.cons_append, resolve_event_ids]
      have hp := hall p (by simp)
      cases hp2 : alookup ntk p with
      | none => rw [hp2] at hp; cases hp
      | some k =>
          simp only
          rw [ih (fun n2 hn2 => hall n2 (by simp [hn2]))]

theorem addEvents_prereq_error (m : MarshallingRegistry) (fuel : Nat)
    (subs : List (String × SourceTree)) (scope : Nat)
    (al : List (String × String)) (an dn : List String)
    (amap dmap : List (String × Nat)) (e : DefEvent) (rest : List DefEvent)
    (ntk : List (String × EventKey)) (eps : List EventKey)
    (reqs : List (EventKey × RequiredToBe)) (b : Builder)
    (err : BuildErrorReason)
    (h : resolve_event_ids ntk scope e.prerequisites = .error err) :
    addEvents m fuel subs scope al an dn amap dmap (e :: rest) ntk eps reqs
      b = some (.error err) := by
  rw [addEvents, h]

theorem addEvents_names_domain (m : MarshallingRegistry) (fuel : Nat)
    (subs : List (String × SourceTree)) (scope : Nat)
    (al : List (String × String)) (an dn : List String)
    (amap dmap : List (String × Nat)) :
    ∀ (evs : List DefEvent) (ntk : List (String × EventKey))
      (eps : List EventKey) (reqs : List (EventKey × RequiredToBe))
      (b : Builder) r,
    addEvents m fuel subs scope al an dn amap dmap evs ntk eps reqs b =
      some (.ok r) →
    r.2.1.map Prod.fst = ntk.map Prod.fst ++ evs.map DefEvent.id := by
  intro evs
  induction evs with
  | nil =>
      intro ntk eps reqs b r h
      rw [addEvents] at h
      injection h with h
      injection h with h
      subst h
      simp
  | cons e rest ih =>
      intro ntk eps reqs b r h
      rw [addEvents] at h
      cases hres : resolve_event_ids ntk scope e.prerequisites with
      | error err => rw [hres] at h; simp at h
      | ok pres =>
          rw [hres] at h
          simp only at h
          cases hek : addEventKind m fuel subs scope al an dn amap dmap ntk
              e.id e.kind b with
          | none => rw [hek] at h; simp at h
          | some rr =>
              cases rr with
              | error err => rw [hek] at h; simp at h
              | ok tr =>
                  obtain ⟨b2, head_key, tail_key⟩ := tr
                  rw [hek] at h
                  simp only at h
                  by_cases hdup : (alookup ntk e.id).isSome = true
                  · rw [if_pos hdup] at h; simp at h
                  · rw [if_neg hdup] at h
                    have h2 := ih _ _ _ _ _ h
                    rw [h2]
                    simp

/-- C10: an event's happens_after prerequisites resolve only against events
declared earlier in the same source file's event list.  First conjunct: a
successful event loop extends the name-to-key map by exactly the processed
ids, in order — so when event i is reached, the map holds exactly the
earlier ids (the loop starts from the empty map in `addSubgraph`).  Second:
resolution succeeds exactly on names of that map, giving their keys.
Third: when the first unresolvable name of an event's prerequisite list is
n — an event declared later in the same scope, or the event itself —
compilation of that event fails with `UnknownEvent n`, even though n is
declared in the scope. -/
theorem prerequisites_resolve_earlier_only (m : MarshallingRegistry) :
    (∀ fuel subs scope al an dn amap dmap (evs : List DefEvent) ntk eps
        reqs b r,
      addEvents m fuel subs scope al an dn amap dmap evs ntk eps reqs b =
        some (.ok r) →
      r.2.1.map Prod.fst = ntk.map Prod.fst ++ evs.map DefEvent.id) ∧
    (∀ ntk scope names ks,
      resolve_event_ids ntk scope names = .ok ks ↔
      List.Forall₂ (fun nm k => alookup ntk nm = some k) names ks) ∧
    (∀ fuel subs scope al an dn amap dmap (e : DefEvent) rest ntk eps reqs
        b pre n post,
      e.prerequisites = pre ++ n :: post →
      (∀ n2 ∈ pre, (alookup ntk n2).isSome) →
      alookup ntk n = none →
      addEvents m fuel subs scope al an dn amap dmap (e :: rest) ntk eps
        reqs b = some (.error (.unknownEvent n scope))) := by
  refine ⟨?_, ?_, ?_⟩
  · intro fuel subs scope al an dn amap dmap evs ntk eps reqs b r h
    exact addEvents_names_domain m fuel subs scope al an dn amap dmap evs
      ntk eps reqs b r h
  · intro ntk scope names ks
    exact resolve_event_ids_ok_iff ntk scope names ks
  · intro fuel subs scope al an dn amap dmap e rest ntk eps reqs b pre n
      post hsplit hall hn
    refine addEvents_prereq_error m fuel subs scope al an dn amap dmap e
      rest ntk eps reqs b _ ?_
    rw [hsplit]
    exact resolve_event_ids_first_missing ntk scope n post hn pre hall

theorem prerequisites_resolve_earlier_only_witness :
    addEvents ⟨fun _ => none⟩ 1 [] 0 [] [] [] [] []
      [⟨"a", none, ["b"], .delayEv 1 1⟩, ⟨"b", none, [], .delayEv 1 1⟩]
      [] [] []
      ⟨0, [], 0, [], 0, [], [], [], 0, [], 0, [], 0, [], 0, [], 0, [], []⟩
      = some (.error (.unknownEvent "b" 0)) :=
  (prerequisites_resolve_earlier_only ⟨fun _ => none⟩).2.2 1 [] 0 [] [] []
    [] [] ⟨"a", none, ["b"], .delayEv 1 1⟩ [⟨"b", none, [], .delayEv 1 1⟩]
    [] [] []
    ⟨0, [], 0, [], 0, [], [], [], 0, [], 0, [], 0, [], 0, [], 0, [], []⟩
    [] "b" [] rfl (by simp) rfl

theorem alookupNat_ainsertNat {β : Type} (l : List (Nat × β)) (key k : Nat)
    (v : β) : alookupNat (ainsertNat l key v) k =
      if key = k then some v else alookupNat l k := by
  induction l with
  | nil => by_cases h : key = k <;> simp [ainsertNat, alookupNat, h]
  | cons hd tl ih =>
      obtain ⟨k0, w⟩ := hd
      by_cases h0 : k0 = key
      · subst h0
        by_cases h : k0 = k <;>
          simp [ainsertNat, alookupNat, h, ih]
      · by_cases h : k0 = k
        · subst h
          have : ¬ key = k0 := fun hc => h0 hc.symm
          simp [ainsertNat, alookupNat, h0, this]
        · simp [ainsertNat, alookupNat, h0, h, ih]

/-- C5: compiling a Respond event fails unless `to_request` names a
previously declared Recv event of the same scope whose resolved type the
registry reports as a request type: an unknown name is `UnknownEvent`; a
name mapped to a non-Recv event is `NotARequest`, as is a recv whose fqn is
unregistered or whose marshaller has no `response()`; otherwise the respond
vertex is allocated against that recv key and its fqn. -/
theorem respond_to_request_validation (m : MarshallingRegistry) (fuel : Nat)
    (subs : List (String × SourceTree)) (scope : Nat)
    (al : List (String × String)) (an dn : List String)
    (amap dmap : List (String × Nat)) (ntk : List (String × EventKey))
    (id : String) (from_ : Option String) (to_request : String) (data : Msg)
    (b : Builder) :
    (alookup ntk to_request = none →
      addEventKind m fuel subs scope al an dn amap dmap ntk id
        (.respondEv from_ to_request data) b =
        some (.error (.unknownEvent to_request scope))) ∧
    (∀ k, alookup ntk to_request = some k → (∀ rk, k ≠ .recv rk) →
      addEventKind m fuel subs scope al an dn amap dmap ntk id
        (.respondEv from_ to_request data) b =
        some (.error (.notARequest to_request scope))) ∧
    (∀ rk, alookup ntk to_request = some (.recv rk) →
      (m.resolve ((alookupNat b.events_recv rk).getD
          defaultEventRecv).fqn = none ∨
       m.resolve ((alookupNat b.events_recv rk).getD
          defaultEventRecv).fqn = some false) →
      addEventKind m fuel subs scope al an dn amap dmap ntk id
        (.respondEv from_ to_request data) b =
        some (.error (.notARequest to_request scope))) ∧
    (∀ rk fk, alookup ntk to_request = some (.recv rk) →
      m.resolve ((alookupNat b.events_recv rk).getD
        defaultEventRecv).fqn = some true →
      resolve_name_opt dmap scope from_ BuildErrorReason.unknownDummy =
        .ok fk →
      ∃ b2, addEventKind m fuel subs scope al an dn amap dmap ntk id
          (.respondEv from_ to_request data) b =
          some (.ok (b2, .respond b.next_respond, .respond b.next_respond))
        ∧ b2.next_respond = b.next_respond + 1
        ∧ alookupNat b2.events_respond b.next_respond = some
            { respond_to := rk,
              request_type := ((alookupNat b.events_recv rk).getD
                defaultEventRecv).fqn,
              respond_from := fk, payload := data, scope_key := scope }) := by
  refine ⟨?_, ?_, ?_, ?_⟩
  · intro h
    rw [addEventKind]
    simp only
    rw [h]
  · intro k h hne
    cases k with
    | recv rk => exact absurd rfl (hne rk)
    | bind k0 => rw [addEventKind]; simp only; rw [h]
    | send k0 => rw [addEventKind]; simp only; rw [h]
    | respond k0 => rw [addEventKind]; simp only; rw [h]
    | delay k0 => rw [addEventKind]; simp only; rw [h]
  · intro rk h hm
    rw [addEventKind]
    simp only
    rw [h]
    simp only
    rcases hm with hm | hm
    · rw [hm]
    · rw [hm]
      simp
  · intro rk fk h hm hf
    rw [addEventKind]
    simp only
    rw [h]
    simp only
    rw [hm]
    simp only [if_pos rfl]
    rw [hf]
    simp only
    refine ⟨_, rfl, rfl, ?_⟩
    rw [alookupNat_ainsertNat]
    simp

theorem respond_to_request_validation_witness :
    (addEventKind ⟨fun f => if f = "ReqT" then some true else none⟩ 1 [] 0
        [] [] [] [] [] [("r", EventKey.recv 0), ("d", EventKey.delay 0)]
        "x" (.respondEv none "zzz" (.exact .null))
        ⟨0, [], 0, [], 0, [], [], [], 0, [], 0, [], 1,
          [(0, ⟨none, none, "ReqT", [], none, none, 0⟩)], 0, [], 0, [], []⟩
      = some (.error (.unknownEvent "zzz" 0))) ∧
    (addEventKind ⟨fun f => if f = "ReqT" then some true else none⟩ 1 [] 0
        [] [] [] [] [] [("r", EventKey.recv 0), ("d", EventKey.delay 0)]
        "x" (.respondEv none "d" (.exact .null))
        ⟨0, [], 0, [], 0, [], [], [], 0, [], 0, [], 1,
          [(0, ⟨none, none, "ReqT", [], none, none, 0⟩)], 0, [], 0, [], []⟩
      = some (.error (.notARequest "d" 0))) ∧
    (∃ b2, addEventKind ⟨fun f => if f = "ReqT" then some true else none⟩ 1
        [] 0 [] [] [] [] [] [("r", EventKey.recv 0), ("d", EventKey.delay 0)]
        "x" (.respondEv none "r" (.exact .null))
        ⟨0, [], 0, [], 0, [], [], [], 0, [], 0, [], 1,
          [(0, ⟨none, none, "ReqT", [], none, none, 0⟩)], 0, [], 0, [], []⟩
      = some (.ok (b2, .respond 0, .respond 0)) ∧
      b2.next_respond = 1 ∧
      alookupNat b2.events_respond 0 = some
        { respond_to := 0, request_type := "ReqT", respond_from := none,
          payload := .exact .null, scope_key := 0 }) := by
  refine ⟨?_, ?_, ?_⟩
  · exact (respond_to_request_validation
      ⟨fun f => if f = "ReqT" then some true else none⟩ 1 [] 0 [] [] [] []
      [] [("r", EventKey.recv 0), ("d", EventKey.delay 0)] "x" none "zzz"
      (.exact .null)
      ⟨0, [], 0, [], 0, [], [], [], 0, [], 0, [], 1,
        [(0, ⟨none, none, "ReqT", [], none, none, 0⟩)], 0, [], 0, [],
        []⟩).1 (by simp [alookup])
  · exact (respond_to_request_validation
      ⟨fun f => if f = "ReqT" then some true else none⟩ 1 [] 0 [] [] [] []
      [] [("r", EventKey.recv 0), ("d", EventKey.delay 0)] "x" none "d"
      (.exact .null)
      ⟨0, [], 0, [], 0, [], [], [], 0, [], 0, [], 1,
        [(0, ⟨none, none, "ReqT", [], none, none, 0⟩)], 0, [], 0, [],
        []⟩).2.1 (EventKey.delay 0) (by simp [alookup])
      (fun rk => by simp)
  · obtain ⟨b2, h1, h2, h3⟩ := (respond_to_request_validation
      ⟨fun f => if f = "ReqT" then some true else none⟩ 1 [] 0 [] [] [] []
      [] [("r", EventKey.recv 0), ("d", EventKey.delay 0)] "x" none "r"
      (.exact .null)
      ⟨0, [], 0, [], 0, [], [], [], 0, [], 0, [], 1,
        [(0, ⟨none, none, "ReqT", [], none, none, 0⟩)], 0, [], 0, [],
        []⟩).2.2.2 0 none (by simp [alookup])
      (by simp [alookupNat, defaultEventRecv]) rfl
    exact ⟨b2, h1, h2, h3⟩

theorem klookup_kinsert {α β : Type} [DecidableEq α]
    (l : List (α × β)) (key k : α) (v : β) :
    klookup (kinsert l key v) k =
      if key = k then some v else klookup l k := by
  induction l with
  | nil => by_cases h : key = k <;> simp [kinsert, klookup, h]
  | cons hd tl ih =>
      obtain ⟨k0, w⟩ := hd
      by_cases h0 : k0 = key
      · subst h0
        by_cases h : k0 = k <;> simp [kinsert, klookup, h, ih]
      · by_cases h : k0 = k
        · subst h
          have hne : ¬ key = k0 := fun hc => h0 hc.symm
          simp [kinsert, klookup, h0, hne]
        · simp [kinsert, klookup, h0, h, ih]

theorem alookup_append_of_none {β : Type} :
    ∀ (l1 l2 : List (String × β)) (n : String),
    alookup l1 n = none → alookup (l1 ++ l2) n = alookup l2 n := by
  intro l1
  induction l1 with
  | nil => intro l2 n _; simp
  | cons hd tl ih =>
      intro l2 n h
      obtain ⟨k0, v0⟩ := hd
      rw [alookup] at h
      by_cases h0 : k0 = n
      · rw [if_pos h0] at h; cases h
      · rw [if_neg h0] at h
        rw [List.cons_append, alookup, if_neg h0]
        exact ih l2 n h

/-- `v` is recorded as unblocked by `k` in the builder's
`key_unblocks_values`. -/
def hasUnblock (b : Builder) (k v : EventKey) : Prop :=
  v ∈ (klookup b.key_unblocks_values k).getD []

theorem addUnblock_mem_self (b : Builder) (k v : EventKey) :
    hasUnblock (addUnblock b k v) k v := by
  simp [hasUnblock, addUnblock, klookup_kinsert]

theorem addUnblock_mem_mono (b : Builder) (k v k2 x : EventKey)
    (h : hasUnblock b k2 x) : hasUnblock (addUnblock b k v) k2 x := by
  simp only [hasUnblock, addUnblock] at h ⊢
  rw [klookup_kinsert]
  by_cases he : k = k2
  · subst he
    simp only [if_pos rfl, Option.getD_some]
    exact List.mem_append_left _ h
  · simp only [if_neg he]
    exact h

theorem foldl_addUnblock_preserve (k : EventKey) :
    ∀ (l : List EventKey) (b : Builder),
    (l.foldl (fun bb ep => addUnblock bb k ep) b).next_bind = b.next_bind ∧
    (l.foldl (fun bb ep => addUnblock bb k ep) b).events_bind =
      b.events_bind := by
  intro l
  induction l with
  | nil => intro b; exact ⟨rfl, rfl⟩
  | cons y ys ih =>
      intro b
      rw [List.foldl_cons]
      exact ih (addUnblock b k y)

theorem foldl_addUnblock_mono (k : EventKey) :
    ∀ (l : List EventKey) (b : Builder) (k2 x : EventKey),
    hasUnblock b k2 x →
    hasUnblock (l.foldl (fun bb ep => addUnblock bb k ep) b) k2 x := by
  intro l
  induction l with
  | nil => intro b k2 x h; exact h
  | cons y ys ih =>
      intro b k2 x h
      rw [List.foldl_cons]
      exact ih _ _ _ (addUnblock_mem_mono b k y k2 x h)

theorem foldl_addUnblock_mem (k : EventKey) :
    ∀ (l : List EventKey) (b : Builder), ∀ x ∈ l,
    hasUnblock (l.foldl (fun bb ep => addUnblock bb k ep) b) k x := by
  intro l
  induction l with
  | nil => intro b x hx; simp at hx
  | cons y ys ih =>
      intro b x hx
      rw [List.foldl_cons]
      rcases List.mem_cons.mp hx with hx | hx
      · subst hx
        exact foldl_addUnblock_mono k ys _ _ _ (addUnblock_mem_self b k x)
      · exact ih _ x hx

theorem foldl_reqUnblock_preserve (v : EventKey) :
    ∀ (l : List (EventKey × RequiredToBe)) (b : Builder),
    (l.foldl (fun bb pr => if pr.2 = RequiredToBe.reached
        then addUnblock bb pr.1 v else bb) b).next_bind = b.next_bind ∧
    (l.foldl (fun bb pr => if pr.2 = RequiredToBe.reached
        then addUnblock bb pr.1 v else bb) b).events_bind =
      b.events_bind := by
  intro l
  induction l with
  | nil => intro b; exact ⟨rfl, rfl⟩
  | cons y ys ih =>
      intro b
      rw [List.foldl_cons]
      by_cases hy : y.2 = RequiredToBe.reached
      · rw [if_pos hy]; exact ih _
      · rw [if_neg hy]; exact ih _

theorem foldl_reqUnblock_mono (v : EventKey) :
    ∀ (l : List (EventKey × RequiredToBe)) (b : Builder) (k2 x : EventKey),
    hasUnblock b k2 x →
    hasUnblock (l.foldl (fun bb pr => if pr.2 = RequiredToBe.reached
      then addUnblock bb pr.1 v else bb) b) k2 x := by
  intro l
  induction l with
  | nil => intro b k2 x h; exact h
  | cons y ys ih =>
      intro b k2 x h
      rw [List.foldl_cons]
      by_cases hy : y.2 = RequiredToBe.reached
      · rw [if_pos hy]
        exact ih _ _ _ (addUnblock_mem_mono _ _ _ _ _ h)
      · rw [if_neg hy]
        exact ih _ _ _ h

theorem foldl_reqUnblock_mem (v : EventKey) :
    ∀ (l : List (EventKey × RequiredToBe)) (b : Builder),
    ∀ pr ∈ l, pr.2 = RequiredToBe.reached →
    hasUnblock (l.foldl (fun bb pr2 => if pr2.2 = RequiredToBe.reached
      then addUnblock bb pr2.1 v else bb) b) pr.1 v := by
  intro l
  induction l with
  | nil => intro b pr hpr; simp at hpr
  | cons y ys ih =>
      intro b pr hpr hre
      rw [List.foldl_cons]
      rcases List.mem_cons.mp hpr with hpr | hpr
      · subst hpr
        rw [if_pos hre]
        exact foldl_reqUnblock_mono v ys _ _ _
          (addUnblock_mem_self b pr.1 v)
      · exact ih _ pr hpr hre

theorem addCallBindsCore_spec (b : Builder) (scope : Nat)
    (added : SubgraphAdded) (id : String) (dstI : Value) (srcI : Msg)
    (dstO : Value) (srcO : Msg) :
    ∃ b4, addCallBindsCore b scope added id dstI srcI dstO srcO =
        (b4, .bind b.next_bind, .bind (b.next_bind + 1)) ∧
      b4.next_bind = b.next_bind + 2 ∧
      b4.events_bind = ainsertNat (ainsertNat b.events_bind b.next_bind
          ⟨dstI, srcI, .two scope added.scope_key⟩) (b.next_bind + 1)
          ⟨dstO, srcO, .two added.scope_key scope⟩ ∧
      (∀ ep ∈ added.entry_points,
        hasUnblock b4 (.bind b.next_bind) ep) ∧
      (∀ pr ∈ added.require, pr.2 = RequiredToBe.reached →
        hasUnblock b4 pr.1 (.bind (b.next_bind + 1))) := by
  simp only [addCallBindsCore]
  set b1 := { b with
    next_bind := b.next_bind + 1,
    events_bind := ainsertNat b.events_bind b.next_bind
      ⟨dstI, srcI, .two scope added.scope_key⟩,
    event_names := kinsert b.event_names (EventKey.bind b.next_bind)
      (scope, id ++ "[ENTER SUB]") } with hb1
  obtain ⟨hnb2, heb2⟩ :=
    foldl_addUnblock_preserve (EventKey.bind b.next_bind)
      added.entry_points b1
  set b2 := added.entry_points.foldl
    (fun bb ep => addUnblock bb (EventKey.bind b.next_bind) ep) b1 with hb2
  have hnb2e : b2.next_bind = b.next_bind + 1 := hnb2
  have heb2e : b2.events_bind = ainsertNat b.events_bind b.next_bind
      ⟨dstI, srcI, .two scope added.scope_key⟩ := heb2
  set b3 := { b2 with
    next_bind := b2.next_bind + 1,
    events_bind := ainsertNat b2.events_bind b2.next_bind
      ⟨dstO, srcO, .two added.scope_key scope⟩ } with hb3
  obtain ⟨hnb4, heb4⟩ :=
    foldl_reqUnblock_preserve (EventKey.bind b2.next_bind) added.require b3
  set b4 := added.require.foldl
    (fun bb pr => if pr.2 = RequiredToBe.reached
      then addUnblock bb pr.1 (EventKey.bind b2.next_bind) else bb) b3
    with hb4
  refine ⟨b4, ?_, ?_, ?_, ?_, ?_⟩
  · rw [hnb2e]
  · rw [hnb4, hb3]
    simp [hnb2e]
  · rw [heb4, hb3]
    simp only
    rw [heb2e, hnb2e]
  · intro ep hep
    have h2 : hasUnblock b2 (.bind b.next_bind) ep :=
      foldl_addUnblock_mem (EventKey.bind b.next_bind)
        added.entry_points b1 ep hep
    have h3 : hasUnblock b3 (.bind b.next_bind) ep := h2
    exact foldl_reqUnblock_mono (EventKey.bind b2.next_bind)
      added.require b3 _ _ h3
  · intro pr hpr hre
    have h4 : hasUnblock b4 pr.1 (.bind b2.next_bind) :=
      foldl_reqUnblock_mem (EventKey.bind b2.next_bind)
        added.require b3 pr hpr hre
    rw [hnb2e] at h4
    exact h4

theorem addCallBinds_spec (b : Builder) (scope : Nat)
    (added : SubgraphAdded) (id : String)
    (input output : Option DefBindIO) :
    ∃ dstI srcI dstO srcO b4,
      addCallBinds b scope added id input output =
        (b4, .bind b.next_bind, .bind (b.next_bind + 1)) ∧
      b4.next_bind = b.next_bind + 2 ∧
      b4.events_bind = ainsertNat (ainsertNat b.events_bind b.next_bind
          ⟨dstI, srcI, .two scope added.scope_key⟩) (b.next_bind + 1)
          ⟨dstO, srcO, .two added.scope_key scope⟩ ∧
      (∀ ep ∈ added.entry_points,
        hasUnblock b4 (.bind b.next_bind) ep) ∧
      (∀ pr ∈ added.require, pr.2 = RequiredToBe.reached →
        hasUnblock b4 pr.1 (.bind (b.next_bind + 1))) := by
  rw [addCallBinds.eq_def]
  obtain ⟨b4, h1, h2, h3, h4, h5⟩ := addCallBindsCore_spec b scope added id
    (match input with
      | some io => (io.dst, Msg.bind io.src)
      | none => (Value.null, Msg.exact Value.null)).1
    (match input with
      | some io => (io.dst, Msg.bind io.src)
      | none => (Value.null, Msg.exact Value.null)).2
    (match output with
      | some io => (io.dst, Msg.bind io.src)
      | none => (Value.null, Msg.exact Value.null)).1
    (match output with
      | some io => (io.dst, Msg.bind io.src)
      | none => (Value.null, Msg.exact Value.null)).2
  exact ⟨_, _, _, _, b4, h1, h2, h3, h4, h5⟩

theorem addEventKind_call (m : MarshallingRegistry) (fuel : Nat)
    (subs : List (String × SourceTree)) (scope : Nat)
    (al : List (String × String)) (an dn : List String)
    (amap dmap : List (String × Nat)) (ntk : List (String × EventKey))
    (id sub_name : String) (input output : Option DefBindIO)
    (cactors cdummies : List (String × String)) (b : Builder)
    (subtree : SourceTree) (sam sdm : List (String × Nat)) (b2 : Builder)
    (added : SubgraphAdded)
    (hsub : alookup subs sub_name = some subtree)
    (ham : buildSubMapping amap scope BuildErrorReason.unknownActor
      cactors [] = .ok sam)
    (hdm : buildSubMapping dmap scope BuildErrorReason.unknownDummy
      cdummies [] = .ok sdm)
    (hrec : addSubgraph m fuel subtree (some (scope, id, sub_name)) sam
      sdm b = some (.ok (b2, added))) :
    addEventKind m fuel subs scope al an dn amap dmap ntk id
      (.callEv sub_name input output cactors cdummies) b =
      some (.ok ((addCallBinds b2 scope added id input output).1,
        (addCallBinds b2 scope added id input output).2.1,
        (addCallBinds b2 scope added id input output).2.2)) := by
  rw [addEventKind]
  simp only
  rw [hsub]
  simp only
  rw [ham]
  simp only
  rw [hdm]
  simp only
  rw [hrec]

theorem addEvents_call_step (m : MarshallingRegistry) (fuel : Nat)
    (subs : List (String × SourceTree)) (scope : Nat)
    (al : List (String × String)) (an dn : List String)
    (amap dmap : List (String × Nat)) (id : String)
    (req : Option RequiredToBe) (prereqs : List String)
    (sub_name : String) (input output : Option DefBindIO)
    (cactors cdummies : List (String × String)) (rest : List DefEvent)
    (ntk : List (String × EventKey)) (eps : List EventKey)
    (reqs : List (EventKey × RequiredToBe)) (b : Builder)
    (subtree : SourceTree) (sam sdm : List (String × Nat)) (b2 : Builder)
    (added : SubgraphAdded) (pres : List EventKey) (b4 : Builder)
    (hk tk : EventKey)
    (hsub : alookup subs sub_name = some subtree)
    (ham : buildSubMapping amap scope BuildErrorReason.unknownActor
      cactors [] = .ok sam)
    (hdm : buildSubMapping dmap scope BuildErrorReason.unknownDummy
      cdummies [] = .ok sdm)
    (hrec : addSubgraph m fuel subtree (some (scope, id, sub_name)) sam
      sdm b = some (.ok (b2, added)))
    (hres : resolve_event_ids ntk scope prereqs = .ok pres)
    (hdup : alookup ntk id = none)
    (hcall : addCallBinds b2 scope added id input output = (b4, hk, tk)) :
    addEvents m fuel subs scope al an dn amap dmap
      (⟨id, req, prereqs,
        .callEv sub_name input output cactors cdummies⟩ :: rest)
      ntk eps reqs b =
    addEvents m fuel subs scope al an dn amap dmap rest
      (ntk ++ [(id, tk)])
      (if pres.isEmpty then eps ++ [hk] else eps)
      (match req with
        | some r => kinsert reqs tk r
        | none => reqs)
      (let b3 := pres.foldl (fun bb pr => addUnblock bb pr hk) b4
       { b3 with definition_order := b3.definition_order ++ [hk, tk] }) := by
  have heq := addEventKind_call m fuel subs scope al an dn amap dmap ntk
    id sub_name input output cactors cdummies b subtree sam sdm b2 added
    hsub ham hdm hrec
  rw [hcall] at heq
  simp only at heq
  rw [addEvents]
  simp only [hres, heq, hdup, Option.isSome_none, Bool.false_eq_true,
    if_false]

/-- C3: for every Call event, the compiler produces exactly two Bind nodes
bridging parent and child scope.  First conjunct (the wiring helper, the
whole of build.rs:401-467): precisely two fresh bind keys are allocated —
the entry bind with cross-scope source=parent, destination=child and the
exit bind with source=child, destination=parent, all other bind entries
untouched; the entry bind has an unblocks edge to every entry point of the
child scope; every child event required to be Reached gets an unblocks edge
to the exit bind.  Second conjunct: the event loop, after compiling the
child scope, continues with the scope's name map extended by
call-name ↦ exit bind, so prerequisite edges in the parent scope that name
the call refer to the exit bind. -/
theorem call_produces_two_bridging_binds (m : MarshallingRegistry) :
    (∀ (b : Builder) (scope : Nat) (added : SubgraphAdded) (id : String)
        (input output : Option DefBindIO),
      ∃ dstI srcI dstO srcO b4,
        addCallBinds b scope added id input output =
          (b4, .bind b.next_bind, .bind (b.next_bind + 1)) ∧
        b4.next_bind = b.next_bind + 2 ∧
        alookupNat b4.events_bind b.next_bind =
          some ⟨dstI, srcI, .two scope added.scope_key⟩ ∧
        alookupNat b4.events_bind (b.next_bind + 1) =
          some ⟨dstO, srcO, .two added.scope_key scope⟩ ∧
        (∀ k, k ≠ b.next_bind → k ≠ b.next_bind + 1 →
          alookupNat b4.events_bind k = alookupNat b.events_bind k) ∧
        (∀ ep ∈ added.entry_points,
          hasUnblock b4 (.bind b.next_bind) ep) ∧
        (∀ pr ∈ added.require, pr.2 = RequiredToBe.reached →
          hasUnblock b4 pr.1 (.bind (b.next_bind + 1)))) ∧
    (∀ fuel subs scope al an dn amap dmap id req prereqs sub_name input
        output cactors cdummies rest ntk eps reqs b subtree sam sdm b2
        added pres,
      alookup subs sub_name = some subtree →
      buildSubMapping amap scope BuildErrorReason.unknownActor cactors []
        = .ok sam →
      buildSubMapping dmap scope BuildErrorReason.unknownDummy cdummies []
        = .ok sdm →
      addSubgraph m fuel subtree (some (scope, id, sub_name)) sam sdm b =
        some (.ok (b2, added)) →
      resolve_event_ids ntk scope prereqs = .ok pres →
      alookup ntk id = none →
      ∃ b4 hk tk eps2 reqs2 b5,
        addCallBinds b2 scope added id input output = (b4, hk, tk) ∧
        addEvents m fuel subs scope al an dn amap dmap
          (⟨id, req, prereqs,
            .callEv sub_name input output cactors cdummies⟩ :: rest)
          ntk eps reqs b =
        addEvents m fuel subs scope al an dn amap dmap rest
          (ntk ++ [(id, tk)]) eps2 reqs2 b5 ∧
        alookup (ntk ++ [(id, tk)]) id = some tk) := by
  constructor
  · intro b scope added id input output
    obtain ⟨dstI, srcI, dstO, srcO, b4, h1, h2, h3, h4, h5⟩ :=
      addCallBinds_spec b scope added id input output
    refine ⟨dstI, srcI, dstO, srcO, b4, h1, h2, ?_, ?_, ?_, h4, h5⟩
    · rw [h3, alookupNat_ainsertNat, if_neg (by omega),
        alookupNat_ainsertNat, if_pos rfl]
    · rw [h3, alookupNat_ainsertNat, if_pos rfl]
    · intro k hk1 hk2
      rw [h3, alookupNat_ainsertNat,
        if_neg (fun hc => hk2 hc.symm),
        alookupNat_ainsertNat, if_neg (fun hc => hk1 hc.symm)]
  · intro fuel subs scope al an dn amap dmap id req prereqs sub_name input
      output cactors cdummies rest ntk eps reqs b subtree sam sdm b2 added
      pres hsub ham hdm hrec hres hdup
    obtain ⟨dstI, srcI, dstO, srcO, b4, h1, _, _, _, _⟩ :=
      addCallBinds_spec b2 scope added id input output
    have halo : alookup (ntk ++ [(id, EventKey.bind (b2.next_bind + 1))])
        id = some (EventKey.bind (b2.next_bind + 1)) := by
      rw [alookup_append_of_none _ _ _ hdup]
      simp [alookup]
    exact ⟨b4, .bind b2.next_bind, .bind (b2.next_bind + 1), _, _, _, h1,
      addEvents_call_step m fuel subs scope al an dn amap dmap id req
        prereqs sub_name input output cactors cdummies rest ntk eps reqs b
        subtree sam sdm b2 added pres b4 (.bind b2.next_bind)
        (.bind (b2.next_bind + 1)) hsub ham hdm hrec hres hdup h1,
      halo⟩

theorem call_produces_two_bridging_binds_witness :
    (addCallBinds
        ⟨0, [], 0, [], 0, [], [], [], 0, [], 0, [], 0, [], 0, [], 0, [],
          []⟩ 0
        ⟨1, [EventKey.delay 0], [(EventKey.delay 0, RequiredToBe.reached)]⟩
        "c" none none).2.1 = .bind 0 ∧
    (addCallBinds
        ⟨0, [], 0, [], 0, [], [], [], 0, [], 0, [], 0, [], 0, [], 0, [],
          []⟩ 0
        ⟨1, [EventKey.delay 0], [(EventKey.delay 0, RequiredToBe.reached)]⟩
        "c" none none).2.2 = .bind 1 ∧
    hasUnblock (addCallBinds
        ⟨0, [], 0, [], 0, [], [], [], 0, [], 0, [], 0, [], 0, [], 0, [],
          []⟩ 0
        ⟨1, [EventKey.delay 0], [(EventKey.delay 0, RequiredToBe.reached)]⟩
        "c" none none).1 (.bind 0) (.delay 0) ∧
    hasUnblock (addCallBinds
        ⟨0, [], 0, [], 0, [], [], [], 0, [], 0, [], 0, [], 0, [], 0, [],
          []⟩ 0
        ⟨1, [EventKey.delay 0], [(EventKey.delay 0, RequiredToBe.reached)]⟩
        "c" none none).1 (.delay 0) (.bind 1) ∧
    (∃ b4 hk tk eps2 reqs2 b5,
      addCallBinds
        ⟨1, [(0, ⟨some (0, "c", "s")⟩)], 0, [], 0, [], [], [], 0, [], 0,
          [], 0, [], 0, [], 0, [], []⟩
        0 ⟨0, [], []⟩ "c" none none = (b4, hk, tk) ∧
      addEvents ⟨fun _ => none⟩ 1 [("s", .node ⟨[], [], [], []⟩ [])] 0 []
        [] [] [] []
        [⟨"c", none, [], .callEv "s" none none [] []⟩] [] [] []
        ⟨0, [], 0, [], 0, [], [], [], 0, [], 0, [], 0, [], 0, [], 0, [],
          []⟩ =
      addEvents ⟨fun _ => none⟩ 1 [("s", .node ⟨[], [], [], []⟩ [])] 0 []
        [] [] [] [] [] ([] ++ [("c", tk)]) eps2 reqs2 b5 ∧
      alookup ([] ++ [("c", tk)]) "c" = some tk) := by
  obtain ⟨dstI, srcI, dstO, srcO, b4, h1, h2, h3, h4, h5, h6, h7⟩ :=
    (call_produces_two_bridging_binds ⟨fun _ => none⟩).1
      ⟨0, [], 0, [], 0, [], [], [], 0, [], 0, [], 0, [], 0, [], 0, [], []⟩
      0 ⟨1, [EventKey.delay 0], [(EventKey.delay 0, RequiredToBe.reached)]⟩
      "c" none none
  refine ⟨by rw [h1], by rw [h1], ?_, ?_, ?_⟩
  · rw [h1]
    exact h6 (.delay 0) (by simp)
  · rw [h1]
    exact h7 (EventKey.delay 0, RequiredToBe.reached) (by simp) rfl
  · exact (call_produces_two_bridging_binds ⟨fun _ => none⟩).2 1
      [("s", .node ⟨[], [], [], []⟩ [])] 0 [] [] [] [] [] "c" none [] "s"
      none none [] [] [] [] [] []
      ⟨0, [], 0, [], 0, [], [], [], 0, [], 0, [], 0, [], 0, [], 0, [], []⟩
      (.node ⟨[], [], [], []⟩ []) [] []
      ⟨1, [(0, ⟨some (0, "c", "s")⟩)], 0, [], 0, [], [], [], 0, [], 0, [],
        0, [], 0, [], 0, [], []⟩
      ⟨0, [], []⟩ [] (by simp [alookup]) rfl rfl
      (by simp [addSubgraph, addEvents, type_aliases, ensure_uniqueness,
        bindNames, ainsertNat, alookup])
      rfl rfl

end Luci
